import Mathlib

/-!
# Shallow embedding of the `markup-tokenizer` streaming lexer

This file embeds the two revisions of the tokenizer:

* `MT` models `src/lib/index.ts` (the current revision: CDATA support, no
  text-suppression option).
* `MT0` models `src/unnamed/part_000` (the earlier revision: `ignoreText`
  option, no CDATA support).

Bytes are `Nat`, buffers are `List Nat`, and the Node `Transform` plumbing is
replaced by explicit state passing: `transform` consumes one chunk and returns
the new state together with the tokens pushed during that call, and
`flushTokens` models `_flush`.
-/

namespace MT

/-- Byte list of an ASCII string (the embedding's `Buffer.from(s, "utf8")`
for the ASCII literals appearing in the source). -/
def strB (s : String) : List Nat := s.data.map Char.toNat

/-- Token kinds `"text" | "open" | "close"`; `open` is a Lean keyword, so the
constructor is spelled `opn`. -/
inductive TokenKind where
  | text
  | opn
  | close
deriving DecidableEq, Repr

/-- A token `[type, buffer]`. -/
abbrev Token := TokenKind × List Nat

/-- `ParseState` (`Text` / `Open`); `opn` stands for the source's `Open`. -/
inductive ParseState where
  | text
  | opn
deriving DecidableEq, Repr

/-- `TagState` sub-states of tag scanning. -/
inductive TagState where
  | tagName
  | attributeName
  | beforeAttributeValue
  | attributeValue
deriving DecidableEq, Repr

/-- `QuoteState`. -/
inductive QuoteState where
  | noQuote
  | double
  | single
deriving DecidableEq, Repr

def END_SCRIPT : List Nat := strB "</script"
def END_STYLE : List Nat := strB "</style"
def END_TITLE : List Nat := strB "</title"
def COMMENT_START : List Nat := strB "<!--"
def COMMENT_END : List Nat := strB "-->"
def CDATA_START : List Nat := strB "<![CDATA["
def CDATA_END : List Nat := strB "]]>"

/-- `isWhitespace`. -/
def isWhitespace (b : Nat) : Bool :=
  b == 32 || b == 9 || b == 10 || b == 12 || b == 13

/-- `toLowerCase` on a byte. -/
def toLowerCase (b : Nat) : Nat :=
  if 65 ≤ b ∧ b ≤ 90 then b + 32 else b

/-- `compareBuffers(last, pattern)`: case-insensitive right-aligned suffix
comparison.  The source loop walks both arrays from the tail while both
indices are in range, which (given `pattern.length ≤ last.length`) compares
exactly the last `pattern.length` bytes. -/
def compareBuffers (last : List Nat) (pat : List Nat) : Bool :=
  decide (pat.length ≤ last.length) &&
    (last.drop (last.length - pat.length)).map toLowerCase == pat.map toLowerCase

/-- `buffer.subarray(a, b)` for indices already known to be in range
(`0 ≤ a ≤ b ≤ length`): the bytes of positions `[a, b)`. -/
def sub (l : List Nat) (a b : Nat) : List Nat := (l.drop a).take (b - a)

/-- Clamping of a possibly-negative JS `subarray` index:
`max(length + i, 0)` for negative `i`, `min(i, length)` otherwise. -/
def clampIdx (len : Nat) (i : Int) : Nat :=
  if i < 0 then len - (-i).toNat else min i.toNat len

/-- `buffer.subarray(a, b)` with full JS index clamping (needed in
`testRawEnd`, where the split index can be negative). -/
def jsSub (l : List Nat) (a b : Int) : List Nat :=
  (l.take (clampIdx l.length b)).drop (clampIdx l.length a)

/-- The per-instance mutable fields of `MarkupTokenizer`. -/
structure St where
  state : ParseState
  tagState : Option TagState
  quoteState : QuoteState
  rawEndPattern : Option (List Nat)
  buffers : List (List Nat)
  lastBytes : List Nat
  pendingBuffer : Option (List Nat)
  pendingOffset : Nat
  fromRawMode : Bool
deriving DecidableEq, Repr

/-- The freshly-constructed instance. -/
def initSt : St :=
  { state := .text, tagState := none, quoteState := .noQuote,
    rawEndPattern := none, buffers := [], lastBytes := [],
    pendingBuffer := none, pendingOffset := 0, fromRawMode := false }

/-- `this.lastBytes.push(byte); if (length > 9) shift()`. -/
def wpush (lb : List Nat) (b : Nat) : List Nat :=
  if 9 < (lb ++ [b]).length then (lb ++ [b]).drop 1 else lb ++ [b]

/-- `pushState`: flush the pending segment list into one token of the given
kind (a no-op on an empty list); returns the new segment list (always empty
after a flush) and the pushed tokens. -/
def pushState (k : TokenKind) (bufs : List (List Nat)) :
    List (List Nat) × List Token :=
  if bufs = [] then ([], []) else ([], [(k, bufs.flatten)])

/-- `getByteAt`: byte lookup in the concatenation of the pending segments,
walking the segment list as the source does. -/
def getByteAt : List (List Nat) → Nat → Option Nat
  | [], _ => none
  | seg :: rest, idx => if idx < seg.length then seg[idx]? else getByteAt rest (idx - seg.length)

/-- Valid tag-name bytes (`A-Z a-z 0-9 - ! [ ]`). -/
def isTagNameByte (c : Nat) : Bool :=
  (65 ≤ c && c ≤ 90) || (97 ≤ c && c ≤ 122) || (48 ≤ c && c ≤ 57) ||
    c == 45 || c == 33 || c == 91 || c == 93

/-- The segment walk of `getTagName`: `skip` records whether the initial `<`
is still to be skipped (the source only clears `skipFirst` when an index-0
byte is actually visited), and the walk stops at the first invalid byte. -/
def tagScan : Bool → List (List Nat) → List Nat
  | _, [] => []
  | skip, seg :: rest =>
      let seg' := if skip ∧ seg ≠ [] then seg.drop 1 else seg
      let tk := seg'.takeWhile isTagNameByte
      if tk.length = seg'.length then tk ++ tagScan (skip ∧ seg = []) rest else tk

/-- `getTagName`, with the final `.toLowerCase()` applied byte-wise (all
accepted bytes are ASCII). -/
def getTagName (bufs : List (List Nat)) : List Nat :=
  (tagScan true bufs).map toLowerCase

/-- `RAW_TAG_PATTERNS[tagName] || null`. -/
def rawTagPattern (name : List Nat) : Option (List Nat) :=
  if name = strB "script" then some END_SCRIPT
  else if name = strB "style" then some END_STYLE
  else if name = strB "title" then some END_TITLE
  else none

/-- Result of processing one byte of the scan loop: either the early
`return callback()` of the trailing-`<` deferral, or the next `currentOffset`,
the new state, and the tokens pushed at this byte. -/
inductive StepRes where
  | defer (st : St)
  | cont (off : Nat) (st : St) (out : List Token)
deriving DecidableEq, Repr

/-- The raw-mode branch of the scan loop (lines 111-129 of
`src/lib/index.ts`), taken when `rawEndPattern` holds `pat`; `testRawEnd` is
inlined (its push into `this.buffers` is immediately overwritten by the
caller on a match and never happens on a mismatch).  `st` is the state after
the `lastBytes` window update. -/
def rawStep (buffer : List Nat) (i off : Nat) (st : St) (pat : List Nat) : StepRes :=
  if compareBuffers st.lastBytes pat then
    let combined := (st.buffers ++ [sub buffer off (i + 1)]).flatten
    let k : Int := (combined.length : Int) - (pat.length : Int)
    let content := jsSub combined 0 k
    let term := jsSub combined k combined.length
    if pat = COMMENT_END ∨ pat = CDATA_END then
      .cont (i + 1)
        { st with state := .text, buffers := [], rawEndPattern := none }
        [(.text, content), (.close, term)]
    else
      .cont (i + 1)
        { st with state := .opn, buffers := [term], fromRawMode := true, rawEndPattern := none }
        [(.text, content)]
  else .cont off st []

/-!
The non-raw `else if` chain of the scan loop (lines 130-229 of
`src/lib/index.ts`) is transcribed one `else if` rung per definition, from the
last rung upwards (this keeps every term small enough for the proofs below);
`textStep` below is the whole chain, branch for branch in source order.
-/

/-- Final `else`: no branch applies, the byte is consumed silently. -/
def tsFallback (_buffer : List Nat) (_i off : Nat) (st : St) : StepRes :=
  .cont off st []

/-- Lines 220-229: CDATA introducer detection. -/
def tsCData (buffer : List Nat) (i off : Nat) (st : St) : StepRes :=
  if st.state = .opn ∧ compareBuffers st.lastBytes CDATA_START then
    let p := pushState .opn (st.buffers ++ [sub buffer off (i + 1)])
    .cont (i + 1)
      { st with state := .text, rawEndPattern := some CDATA_END, buffers := p.1 }
      p.2
  else tsFallback buffer i off st

/-- Lines 211-219: comment introducer detection. -/
def tsComment (buffer : List Nat) (i off : Nat) (st : St) : StepRes :=
  if st.state = .opn ∧ compareBuffers st.lastBytes COMMENT_START then
    let p := pushState .opn (st.buffers ++ [sub buffer off (i + 1)])
    .cont (i + 1)
      { st with state := .text, rawEndPattern := some COMMENT_END, buffers := p.1 }
      p.2
  else tsCData buffer i off st

/-- Lines 191-210: unquoted `>` closes the tag (emitting `close` for a
terminator re-scan or a `/`-leading tag, else `open` with the raw-tag
lookup). -/
def tsGt (buffer : List Nat) (i off : Nat) (st : St) : StepRes :=
  if st.state = .opn ∧ buffer.getD i 0 = 62 ∧ st.quoteState = .noQuote then
    let bufs := st.buffers ++ [sub buffer off (i + 1)]
    if st.fromRawMode then
      let p := pushState .close bufs
      .cont (i + 1)
        { st with state := .text, tagState := none, fromRawMode := false, buffers := p.1 }
        p.2
    else if getByteAt bufs 1 = some 47 then
      let p := pushState .close bufs
      .cont (i + 1) { st with state := .text, tagState := none, buffers := p.1 } p.2
    else
      let rp := rawTagPattern (getTagName bufs)
      let p := pushState .opn bufs
      .cont (i + 1)
        { st with state := .text, tagState := none, rawEndPattern := rp, buffers := p.1 }
        p.2
  else tsComment buffer i off st

/-- Lines 184-190: closing `'` of a single-quoted attribute value. -/
def tsQuoteS (buffer : List Nat) (i off : Nat) (st : St) : StepRes :=
  if st.tagState = some .attributeValue ∧ st.quoteState = .single ∧ buffer.getD i 0 = 39 then
    .cont off { st with quoteState := .noQuote, tagState := some .attributeName } []
  else tsGt buffer i off st

/-- Lines 177-183: closing `"` of a double-quoted attribute value. -/
def tsQuoteD (buffer : List Nat) (i off : Nat) (st : St) : StepRes :=
  if st.tagState = some .attributeValue ∧ st.quoteState = .double ∧ buffer.getD i 0 = 34 then
    .cont off { st with quoteState := .noQuote, tagState := some .attributeName } []
  else tsQuoteS buffer i off st

/-- Lines 171-176: whitespace ends an unquoted attribute value. -/
def tsValWs (buffer : List Nat) (i off : Nat) (st : St) : StepRes :=
  if st.tagState = some .attributeValue ∧ st.quoteState = .noQuote ∧
      isWhitespace (buffer.getD i 0) then
    .cont off { st with tagState := some .attributeName } []
  else tsQuoteD buffer i off st

/-- Lines 162-170: a non-`>` byte starts an attribute value, recording its
quoting. -/
def tsBeforeVal (buffer : List Nat) (i off : Nat) (st : St) : StepRes :=
  if st.tagState = some .beforeAttributeValue ∧ buffer.getD i 0 ≠ 62 then
    let b := buffer.getD i 0
    let q : QuoteState := if b = 34 then .double else if b = 39 then .single else .noQuote
    .cont off { st with tagState := some .attributeValue, quoteState := q } []
  else tsValWs buffer i off st

/-- Lines 157-161: whitespace before an attribute value is skipped. -/
def tsBeforeValWs (buffer : List Nat) (i off : Nat) (st : St) : StepRes :=
  if st.tagState = some .beforeAttributeValue ∧ isWhitespace (buffer.getD i 0) then
    .cont off st []
  else tsBeforeVal buffer i off st

/-- Lines 152-156: `=` after an attribute name. -/
def tsAttrEq (buffer : List Nat) (i off : Nat) (st : St) : StepRes :=
  if st.tagState = some .attributeName ∧ buffer.getD i 0 = 61 then
    .cont off { st with tagState := some .beforeAttributeValue } []
  else tsBeforeValWs buffer i off st

/-- Lines 150-151: whitespace ends the tag name. -/
def tsTagWs (buffer : List Nat) (i off : Nat) (st : St) : StepRes :=
  if st.tagState = some .tagName ∧ isWhitespace (buffer.getD i 0) then
    .cont off { st with tagState := some .attributeName } []
  else tsAttrEq buffer i off st

/-- Lines 138-149: a `<` not followed by whitespace opens a tag, flushing the
pending text. -/
def tsLt (buffer : List Nat) (i off : Nat) (st : St) : StepRes :=
  if st.state = .text ∧ buffer.getD i 0 = 60 ∧
      ¬ isWhitespace (buffer.getD (i + 1) 0) then
    let bufs := if 0 < i ∧ 0 < i - off then st.buffers ++ [sub buffer off i] else st.buffers
    let p := pushState .text bufs
    .cont i { st with state := .opn, tagState := some .tagName, buffers := p.1 } p.2
  else tsTagWs buffer i off st

/-- Lines 130-137: a `<` in text state at the last position of the buffer
defers the whole buffer for one byte of lookahead. -/
def textStep (buffer : List Nat) (i off : Nat) (st : St) : StepRes :=
  if st.state = .text ∧ buffer.getD i 0 = 60 ∧ i = buffer.length - 1 then
    .defer { st with pendingBuffer := some buffer, pendingOffset := off }
  else tsLt buffer i off st

/-- One iteration of the `_transform` scan loop of `src/lib/index.ts`
(lines 106-230), at index `i` with pending-segment start `off`: push the byte
into the window, then dispatch to the raw-mode branch or the `else if`
chain. -/
def step (buffer : List Nat) (i off : Nat) (st0 : St) : StepRes :=
  let st := { st0 with lastBytes := wpush st0.lastBytes (buffer.getD i 0) }
  match st.rawEndPattern with
  | some pat => rawStep buffer i off st pat
  | none => textStep buffer i off st

/-- Lines 232-234: after the loop, append the unconsumed tail of the chunk to
the pending segments. -/
def tailFlush (buffer : List Nat) (off : Nat) (st : St) : St :=
  if off < buffer.length then
    { st with buffers := st.buffers ++ [sub buffer off buffer.length] }
  else st

/-- The scan loop, fuelled for structural recursion; the wrapper `scan`
always supplies exactly `buffer.length - i`, so the fuel-0 case is only ever
reached with `i ≥ buffer.length` and both exits agree with the source. -/
def scanFuel (buffer : List Nat) :
    Nat → Nat → Nat → St → List Token → St × List Token
  | 0, _, off, st, out => (tailFlush buffer off st, out)
  | fuel + 1, i, off, st, out =>
      if i < buffer.length then
        match step buffer i off st with
        | .defer st' => (st', out)
        | .cont off' st' ts => scanFuel buffer fuel (i + 1) off' st' (out ++ ts)
      else (tailFlush buffer off st, out)

/-- The `for` loop of `_transform` from index `i` and offset `off`. -/
def scan (buffer : List Nat) (i off : Nat) (st : St) (out : List Token) :
    St × List Token :=
  scanFuel buffer (buffer.length - i) i off st out

/-- `_transform`: prepend a deferred buffer if present, then scan. -/
def transform (st : St) (chunk : List Nat) : St × List Token :=
  match st.pendingBuffer with
  | some pb =>
      scan (pb ++ chunk) (pb.length - 1) st.pendingOffset
        { st with pendingBuffer := none, pendingOffset := 0 } []
  | none => scan chunk 0 0 st []

/-- `_flush`: flush a pending text segment when the state is `Text`. -/
def flushTokens (st : St) : List Token :=
  if st.state = .text then (pushState .text st.buffers).2 else []

/-- Feed one chunk, accumulating output. -/
def feed (acc : St × List Token) (chunk : List Nat) : St × List Token :=
  let r := transform acc.1 chunk
  (r.1, acc.2 ++ r.2)

/-- Run a sequence of `process` calls from a fresh instance. -/
def runChunks (chunks : List (List Nat)) : St × List Token :=
  chunks.foldl feed (initSt, [])

/-- All tokens observed for a chunk sequence: the `process` outputs followed
by the `finalize` output. -/
def tokenize (chunks : List (List Nat)) : List Token :=
  (runChunks chunks).2 ++ flushTokens (runChunks chunks).1

/-- Split an input into 1-byte chunks. -/
def oneByteChunks (input : List Nat) : List (List Nat) :=
  input.map (fun b => [b])

/-- The state carried out of a step result. -/
def resSt : StepRes → St
  | .defer st => st
  | .cont _ st _ => st

/-- A step that stays in text mode at the same offset, emitting nothing,
deferring nothing, and leaving the pending segments and the raw terminator
unchanged. -/
def staysInText (off : Nat) (st : St) : StepRes → Prop
  | .defer _ => False
  | .cont off' st' ts =>
      off' = off ∧ ts = [] ∧ st'.state = ParseState.text ∧
        st'.buffers = st.buffers ∧ st'.rawEndPattern = st.rawEndPattern

/-- Concatenation of the byte payloads of a token sequence, in emission
order. -/
def concatOut (ts : List Token) : List Nat :=
  (ts.map Prod.snd).flatten

/-- The bytes a state still holds and has not yet emitted: the pending
segments plus the unconsumed tail of a deferred chunk. -/
def held (st : St) : List Nat :=
  st.buffers.flatten ++
    (match st.pendingBuffer with
     | some pb => pb.drop st.pendingOffset
     | none => [])

/-- The trailing bytes a run drops at finalization: the pending segments when
the final mode is not `Text` (an unclosed tag), plus the unconsumed tail of a
chunk deferred on a trailing `<`. -/
def droppedBytes (chunks : List (List Nat)) : List Nat :=
  (if (runChunks chunks).1.state = .text then [] else (runChunks chunks).1.buffers.flatten) ++
    (match (runChunks chunks).1.pendingBuffer with
     | some pb => pb.drop (runChunks chunks).1.pendingOffset
     | none => [])

/-- The last `n` elements of a list. -/
def lastN (n : Nat) (l : List Nat) : List Nat :=
  l.drop (l.length - n)

/-- The raw-terminator field only ever holds one of the five patterns. -/
def rawOK (st : St) : Prop :=
  st.rawEndPattern = none ∨ st.rawEndPattern = some COMMENT_END ∨
    st.rawEndPattern = some CDATA_END ∨ st.rawEndPattern = some END_SCRIPT ∨
    st.rawEndPattern = some END_STYLE ∨ st.rawEndPattern = some END_TITLE

/-- Every pending segment is a nonempty byte range. -/
def segsOK (st : St) : Prop :=
  ∀ seg ∈ st.buffers, seg ≠ []

/-- A deferred chunk is nonempty and its stashed offset lies inside it. -/
def pendOK (st : St) : Prop :=
  ∀ pb, st.pendingBuffer = some pb → st.pendingOffset ≤ pb.length - 1 ∧ pb ≠ []

/-- Structural invariant of reachable states. -/
def StInv (st : St) : Prop :=
  segsOK st ∧ rawOK st ∧ pendOK st

/-- Tokens whose kind is `open` or `close` have nonempty payloads. -/
def goodToks (ts : List Token) : Prop :=
  ∀ t ∈ ts, (t.1 = TokenKind.opn ∨ t.1 = TokenKind.close) → t.2 ≠ []

/-- The facts established about one scan step: preservation of the structural
invariant, offset bounds, nonempty `open`/`close` payloads, and the
byte-accounting identity (emitted bytes plus still-held bytes cover exactly
the scanned range).  `pb0`, `po0` and `bufs0` are the deferred-chunk fields
and segment list of the state entering the step. -/
def stepFacts (buffer : List Nat) (i off : Nat) (pb0 : Option (List Nat)) (po0 : Nat)
    (bufs0 : List (List Nat)) : StepRes → Prop
  | .defer st' =>
      segsOK st' ∧ rawOK st' ∧ st'.buffers = bufs0 ∧
        st'.pendingBuffer = some buffer ∧ st'.pendingOffset = off
  | .cont off' st' ts =>
      segsOK st' ∧ rawOK st' ∧ off' ≤ i + 1 ∧
        st'.pendingBuffer = pb0 ∧ st'.pendingOffset = po0 ∧
        goodToks ts ∧
        concatOut ts ++ st'.buffers.flatten ++ buffer.drop off' =
          bufs0.flatten ++ buffer.drop off

/-- Window relation between the 1-byte-chunked run and the single-chunk run:
the windows are equal, or they share a common suffix that starts at a `<`
byte (the chunked window holds a re-scanned deferred `<`, so extra bytes may
precede that suffix on either side). -/
def WRel (a b : List Nat) : Prop :=
  a = b ∨ ∃ u1 u2 t, a = u1 ++ 60 :: t ∧ b = u2 ++ 60 :: t ∧
    a.length ≤ 9 ∧ b.length ≤ 9

/-- The seven patterns the window is ever compared against. -/
def RAWPATS : List (List Nat) :=
  [COMMENT_START, CDATA_START, COMMENT_END, CDATA_END, END_SCRIPT, END_STYLE,
    END_TITLE]

/-- One iteration of the single-chunk scan loop as a configuration
transformer `(currentOffset, state, output so far)`; a deferring step leaves
the configuration unchanged (in a single-chunk scan this can only happen at
the last byte). -/
def cfgStep (buffer : List Nat) (i : Nat) :
    Nat × St × List Token → Nat × St × List Token
  | (off, st, out) =>
      match step buffer i off st with
      | .defer _ => (off, st, out)
      | .cont off' st' ts => (off', st', out ++ ts)

/-- The configuration of the single-chunk scan after `j` iterations. -/
def trace (buffer : List Nat) : Nat → Nat × St × List Token
  | 0 => (0, initSt, [])
  | j + 1 => cfgStep buffer j (trace buffer j)

/-- Hypotheses under which one chunked scan iteration (over `bufC` at `iC`,
`offC`) mirrors one single-chunk iteration (over `input` at `j`, `offS`):
the states agree on every scanning field, the windows are `WRel`-related,
the current bytes agree, and the unflushed bytes through the current byte
agree. -/
def AgreeHyp (bufC : List Nat) (iC offC : Nat) (input : List Nat) (j offS : Nat)
    (c s : St) : Prop :=
  c.state = s.state ∧ c.tagState = s.tagState ∧ c.quoteState = s.quoteState ∧
    c.rawEndPattern = s.rawEndPattern ∧ c.fromRawMode = s.fromRawMode ∧
    WRel c.lastBytes s.lastBytes ∧
    segsOK c ∧ segsOK s ∧ rawOK s ∧
    bufC.getD iC 0 = input.getD j 0 ∧
    c.buffers.flatten ++ sub bufC offC (iC + 1) =
      s.buffers.flatten ++ sub input offS (j + 1) ∧
    offC ≤ iC ∧ offS ≤ j ∧ iC < bufC.length ∧ j < input.length

/-- Agreement of two step results: both continue with the same tokens, and
either both keep their offsets and segment lists (a non-flushing branch) or
both advance past the byte with now-identical segment lists (a flushing
branch); all scanning fields of the successor states agree, and neither the
windows nor the deferral fields change. -/
def ARes (iC offC : Nat) (j offS : Nat) (c s : St) (rc rs : StepRes) : Prop :=
  ∃ c' s' ts,
    ((rc = StepRes.cont offC c' ts ∧ rs = StepRes.cont offS s' ts ∧
        c'.buffers = c.buffers ∧ s'.buffers = s.buffers) ∨
      (rc = StepRes.cont (iC + 1) c' ts ∧ rs = StepRes.cont (j + 1) s' ts ∧
        c'.buffers = s'.buffers)) ∧
    c'.state = s'.state ∧ c'.tagState = s'.tagState ∧
    c'.quoteState = s'.quoteState ∧ c'.rawEndPattern = s'.rawEndPattern ∧
    c'.fromRawMode = s'.fromRawMode ∧
    c'.lastBytes = c.lastBytes ∧ s'.lastBytes = s.lastBytes

/-- The bisimulation invariant after `m` bytes, synchronous case: the 1-byte
run over the first `m` bytes has no deferred chunk, and its state matches the
single-chunk scan's configuration after `m` iterations: same outputs, same
scanning fields, `WRel`-related windows, and the chunked run's pending
segments hold exactly the single scan's pending segments plus the not-yet
re-segmented byte range `[currentOffset, m)`. -/
def AInv (input : List Nat) (m : Nat) : Prop :=
  (runChunks (oneByteChunks (input.take m))).2 = (trace input m).2.2 ∧
  (runChunks (oneByteChunks (input.take m))).1.state = (trace input m).2.1.state ∧
  (runChunks (oneByteChunks (input.take m))).1.tagState = (trace input m).2.1.tagState ∧
  (runChunks (oneByteChunks (input.take m))).1.quoteState = (trace input m).2.1.quoteState ∧
  (runChunks (oneByteChunks (input.take m))).1.rawEndPattern = (trace input m).2.1.rawEndPattern ∧
  (runChunks (oneByteChunks (input.take m))).1.fromRawMode = (trace input m).2.1.fromRawMode ∧
  WRel (runChunks (oneByteChunks (input.take m))).1.lastBytes (trace input m).2.1.lastBytes ∧
  (runChunks (oneByteChunks (input.take m))).1.lastBytes.length ≤ 9 ∧
  (trace input m).2.1.lastBytes.length ≤ 9 ∧
  segsOK (trace input m).2.1 ∧ rawOK (trace input m).2.1 ∧
  (runChunks (oneByteChunks (input.take m))).1.pendingBuffer = none ∧
  (trace input m).2.1.pendingBuffer = none ∧
  (runChunks (oneByteChunks (input.take m))).1.buffers.flatten =
    (trace input m).2.1.buffers.flatten ++ sub input (trace input m).1 m ∧
  (trace input m).1 ≤ m

/-- The bisimulation invariant after `m = j + 1` bytes, deferred case: byte
`j` was a text-mode `<` fed as its own chunk, so the 1-byte run deferred it
(`pendingBuffer = [60]`) and is paired with the single scan's configuration
after only `j` iterations. -/
def BInv (input : List Nat) (m : Nat) : Prop :=
  ∃ j, m = j + 1 ∧ j < input.length ∧ input.getD j 0 = 60 ∧
    (runChunks (oneByteChunks (input.take m))).2 = (trace input j).2.2 ∧
    (runChunks (oneByteChunks (input.take m))).1.pendingBuffer = some [input.getD j 0] ∧
    (runChunks (oneByteChunks (input.take m))).1.pendingOffset = 0 ∧
    (runChunks (oneByteChunks (input.take m))).1.state = ParseState.text ∧
    (trace input j).2.1.state = ParseState.text ∧
    (runChunks (oneByteChunks (input.take m))).1.tagState = (trace input j).2.1.tagState ∧
    (runChunks (oneByteChunks (input.take m))).1.quoteState = (trace input j).2.1.quoteState ∧
    (runChunks (oneByteChunks (input.take m))).1.rawEndPattern = none ∧
    (trace input j).2.1.rawEndPattern = none ∧
    (runChunks (oneByteChunks (input.take m))).1.fromRawMode = (trace input j).2.1.fromRawMode ∧
    (runChunks (oneByteChunks (input.take m))).1.lastBytes.length ≤ 9 ∧
    (trace input j).2.1.lastBytes.length ≤ 9 ∧
    segsOK (trace input j).2.1 ∧
    (trace input j).2.1.pendingBuffer = none ∧
    (runChunks (oneByteChunks (input.take m))).1.buffers.flatten =
      (trace input j).2.1.buffers.flatten ++ sub input (trace input j).1 j ∧
    (trace input j).1 ≤ j

end MT

namespace MT0

/-!
Embedding of the earlier revision `src/unnamed/part_000`: numeric state
constants (`TEXT_STATE = 0`, `OPEN_STATE = 1`, tag states `0..4`, quote states
`0..2`), an `ignoreText` option, comment support but no CDATA, and a
`_handleTagClose` helper.  The circular 9-slot window (`_last`, `_lastIndex`,
`_lastCount`) is modelled by the list of the last `min(total, 9)` pushed bytes
in push order, which is exactly what `_getLastBytes` reconstructs from it.
-/

open MT (strB TokenKind Token isWhitespace toLowerCase sub jsSub wpush isTagNameByte)

def END_SCRIPT : List Nat := strB "</script"
def END_STYLE : List Nat := strB "</style"
def END_TITLE : List Nat := strB "</title"
def COMMENT_START : List Nat := strB "<!--"
def COMMENT_END : List Nat := strB "-->"

/-- `compare(a, b)` of `part_000`: identical suffix comparison with the
lower-casing inlined. -/
def cmp (a : List Nat) (b : List Nat) : Bool :=
  decide (b.length ≤ a.length) &&
    (a.drop (a.length - b.length)).map toLowerCase == b.map toLowerCase

/-- The mutable fields of the `part_000` `MarkupTokenizer`. -/
structure St0 where
  state : Nat
  tagState : Nat
  quoteState : Nat
  raw : Option (List Nat)
  buffers : List (List Nat)
  ignoreText : Bool
  lastBytes : List Nat
  prev : Option (List Nat)
  prevOffset : Nat
deriving DecidableEq, Repr

/-- A fresh instance with the given `ignoreText` option. -/
def initSt0 (ignoreText : Bool) : St0 :=
  { state := 0, tagState := 0, quoteState := 0, raw := none, buffers := [],
    ignoreText := ignoreText, lastBytes := [], prev := none, prevOffset := 0 }

/-- `_pushState`: with `ignoreText` set, a text flush clears the pending
segments without emitting. -/
def pushState0 (ignoreText : Bool) (ev : TokenKind) (bufs : List (List Nat)) :
    List (List Nat) × List Token :=
  if bufs = [] then (bufs, [])
  else if ignoreText ∧ ev = .text then ([], [])
  else ([], [(ev, bufs.flatten)])

/-- `_getChar`. -/
def getChar : List (List Nat) → Nat → Option Nat
  | [], _ => none
  | seg :: rest, idx => if idx < seg.length then seg[idx]? else getChar rest (idx - seg.length)

/-- The segment walk of `_getTag` (the byte at index 0 of the first segment is
always skipped; the walk stops at the first invalid byte). -/
def tagScan0 : Bool → List (List Nat) → List Nat
  | _, [] => []
  | isFirst, seg :: rest =>
      let seg' := if isFirst then seg.drop 1 else seg
      let tk := seg'.takeWhile isTagNameByte
      if tk.length = seg'.length then tk ++ tagScan0 false rest else tk

/-- `_getTag` with the final `.toLowerCase()` applied byte-wise. -/
def getTag (bufs : List (List Nat)) : List Nat :=
  (tagScan0 true bufs).map toLowerCase

/-- `_handleTagClose(buf, offset, i)`. -/
def handleTagClose (buffer : List Nat) (off i : Nat) (st : St0) : St0 × List Token :=
  let bufs := st.buffers ++ [sub buffer off (i + 1)]
  let st1 := { st with state := 0, tagState := 0, quoteState := 0 }
  if getChar bufs 1 = some 47 then
    let p := pushState0 st.ignoreText .close bufs
    ({ st1 with buffers := p.1 }, p.2)
  else
    let tag := getTag bufs
    let rp : Option (List Nat) :=
      if tag = strB "script" then some END_SCRIPT
      else if tag = strB "style" then some END_STYLE
      else if tag = strB "title" then some END_TITLE
      else st.raw
    let p := pushState0 st.ignoreText .opn bufs
    ({ st1 with raw := rp, buffers := p.1 }, p.2)

/-- Result of one iteration of the `part_000` scan loop. -/
inductive StepRes0 where
  | defer (st : St0)
  | cont (off : Nat) (st : St0) (out : List Token)
deriving DecidableEq, Repr

/-!
One iteration of the `_transform` loop of `part_000` (lines 99-227): raw
handling first, then the `TEXT_STATE` block, then the `OPEN_STATE` block with
the comment check first.  As for `src/lib/index.ts` above, the `OPEN_STATE`
`else if` tree is transcribed rung by rung from the bottom up, flattening the
nested `if`s into guard conjunctions (the rungs are pairwise disjoint, so the
flattened chain selects exactly the branch the nesting selects), to keep each
definition small.
-/

/-- Final fallthrough of the `OPEN_STATE` block: the byte is consumed
silently. -/
def os0Fallback (_buffer : List Nat) (_i off : Nat) (st : St0) : StepRes0 :=
  .cont off st []

/-- `quote === 2 && b === SQ`: closing single quote. -/
def os0Q2 (buffer : List Nat) (i off : Nat) (st : St0) : StepRes0 :=
  if st.tagState = 4 ∧ st.quoteState = 2 ∧ buffer.getD i 0 = 39 then
    .cont off { st with quoteState := 0, tagState := 2 } []
  else os0Fallback buffer i off st

/-- `quote === 1 && b === DQ`: closing double quote. -/
def os0Q1 (buffer : List Nat) (i off : Nat) (st : St0) : StepRes0 :=
  if st.tagState = 4 ∧ st.quoteState = 1 ∧ buffer.getD i 0 = 34 then
    .cont off { st with quoteState := 0, tagState := 2 } []
  else os0Q2 buffer i off st

/-- Unquoted attribute value ended by `>`. -/
def os0T4Gt (buffer : List Nat) (i off : Nat) (st : St0) : StepRes0 :=
  if st.tagState = 4 ∧ st.quoteState = 0 ∧ buffer.getD i 0 = 62 then
    let r := handleTagClose buffer off i st
    .cont (i + 1) r.1 r.2
  else os0Q1 buffer i off st

/-- Unquoted attribute value ended by whitespace. -/
def os0T4Ws (buffer : List Nat) (i off : Nat) (st : St0) : StepRes0 :=
  if st.tagState = 4 ∧ st.quoteState = 0 ∧ isWhitespace (buffer.getD i 0) then
    .cont off { st with tagState := 2 } []
  else os0T4Gt buffer i off st

/-- A non-whitespace, non-`>` byte starts an attribute value. -/
def os0T3Val (buffer : List Nat) (i off : Nat) (st : St0) : StepRes0 :=
  if st.tagState = 3 ∧ ¬ isWhitespace (buffer.getD i 0) ∧ buffer.getD i 0 ≠ 62 then
    let b := buffer.getD i 0
    let q : Nat := if b = 34 then 1 else if b = 39 then 2 else 0
    .cont off { st with tagState := 4, quoteState := q } []
  else os0T4Ws buffer i off st

/-- `>` while expecting an attribute value closes the tag. -/
def os0T3Gt (buffer : List Nat) (i off : Nat) (st : St0) : StepRes0 :=
  if st.tagState = 3 ∧ ¬ isWhitespace (buffer.getD i 0) ∧ buffer.getD i 0 = 62 then
    let r := handleTagClose buffer off i st
    .cont (i + 1) r.1 r.2
  else os0T3Val buffer i off st

/-- `>` after an attribute name closes the tag. -/
def os0T2Gt (buffer : List Nat) (i off : Nat) (st : St0) : StepRes0 :=
  if st.tagState = 2 ∧ buffer.getD i 0 = 62 then
    let r := handleTagClose buffer off i st
    .cont (i + 1) r.1 r.2
  else os0T3Gt buffer i off st

/-- `=` after an attribute name. -/
def os0T2Eq (buffer : List Nat) (i off : Nat) (st : St0) : StepRes0 :=
  if st.tagState = 2 ∧ buffer.getD i 0 = 61 then
    .cont off { st with tagState := 3 } []
  else os0T2Gt buffer i off st

/-- `>` in the tag name closes the tag. -/
def os0T1Gt (buffer : List Nat) (i off : Nat) (st : St0) : StepRes0 :=
  if st.tagState = 1 ∧ buffer.getD i 0 = 62 then
    let r := handleTagClose buffer off i st
    .cont (i + 1) r.1 r.2
  else os0T2Eq buffer i off st

/-- Whitespace ends the tag name. -/
def os0T1Ws (buffer : List Nat) (i off : Nat) (st : St0) : StepRes0 :=
  if st.tagState = 1 ∧ isWhitespace (buffer.getD i 0) then
    .cont off { st with tagState := 2 } []
  else os0T1Gt buffer i off st

/-- First check of the `OPEN_STATE` block: the comment introducer. -/
def os0Comment (buffer : List Nat) (i off : Nat) (st : St0) : StepRes0 :=
  if cmp st.lastBytes COMMENT_START then
    let p := pushState0 st.ignoreText .opn (st.buffers ++ [sub buffer off (i + 1)])
    .cont (i + 1) { st with state := 0, raw := some COMMENT_END, buffers := p.1 } p.2
  else os0T1Ws buffer i off st

/-- The `OPEN_STATE` block. -/
def openStep0 (buffer : List Nat) (i off : Nat) (st : St0) : StepRes0 :=
  if st.state = 1 then os0Comment buffer i off st
  else .cont off st []

/-- The `TEXT_STATE` block, falling through to the `OPEN_STATE` block. -/
def textStep0 (buffer : List Nat) (i off : Nat) (st : St0) : StepRes0 :=
  if st.state = 0 then
    if buffer.getD i 0 = 60 then
      if i = buffer.length - 1 then
        .defer { st with prev := some buffer, prevOffset := off }
      else if ¬ isWhitespace (buffer.getD (i + 1) 0) then
        let bufs :=
          if off < i ∧ st.ignoreText = false then st.buffers ++ [sub buffer off i]
          else st.buffers
        let p := if st.ignoreText = false then pushState0 st.ignoreText .text bufs else (bufs, [])
        .cont i { st with state := 1, tagState := 1, buffers := p.1 } p.2
      else .cont off st []
    else .cont off st []
  else openStep0 buffer i off st

/-- The raw-section branch (`this._raw !== null`). -/
def rawStep0 (buffer : List Nat) (i off : Nat) (st : St0) (pat : List Nat) : StepRes0 :=
  if cmp st.lastBytes pat then
    let combined := (st.buffers ++ [sub buffer off (i + 1)]).flatten
    let k : Int := (combined.length : Int) - (pat.length : Int)
    let content := jsSub combined 0 k
    let term := jsSub combined k combined.length
    let textOut : List Token := if st.ignoreText then [] else [(.text, content)]
    if pat = COMMENT_END then
      .cont (i + 1) { st with state := 0, buffers := [], raw := none }
        (textOut ++ [(.close, term)])
    else
      .cont (i + 1) { st with state := 1, tagState := 1, buffers := [term], raw := none }
        textOut
  else .cont off st []

/-- One iteration of the `_transform` loop of `part_000`: push the byte into
the window, then dispatch on the raw pattern and the state. -/
def step0 (buffer : List Nat) (i off : Nat) (stp : St0) : StepRes0 :=
  let st := { stp with lastBytes := wpush stp.lastBytes (buffer.getD i 0) }
  match st.raw with
  | some pat => rawStep0 buffer i off st pat
  | none => textStep0 buffer i off st

/-- Line 229: append the unconsumed tail unless `ignoreText` is set. -/
def tailFlush0 (buffer : List Nat) (off : Nat) (st : St0) : St0 :=
  if off < buffer.length ∧ st.ignoreText = false then
    { st with buffers := st.buffers ++ [sub buffer off buffer.length] }
  else st

/-- The fuelled scan loop of `part_000`. -/
def scanFuel0 (buffer : List Nat) :
    Nat → Nat → Nat → St0 → List Token → St0 × List Token
  | 0, _, off, st, out => (tailFlush0 buffer off st, out)
  | fuel + 1, i, off, st, out =>
      if i < buffer.length then
        match step0 buffer i off st with
        | .defer st' => (st', out)
        | .cont off' st' ts => scanFuel0 buffer fuel (i + 1) off' st' (out ++ ts)
      else (tailFlush0 buffer off st, out)

/-- The scan loop of `part_000` from index `i` and offset `off`. -/
def scan0 (buffer : List Nat) (i off : Nat) (st : St0) (out : List Token) :
    St0 × List Token :=
  scanFuel0 buffer (buffer.length - i) i off st out

/-- `_transform` of `part_000`. -/
def transform0 (st : St0) (chunk : List Nat) : St0 × List Token :=
  match st.prev with
  | some pb =>
      scan0 (pb ++ chunk) (pb.length - 1) st.prevOffset
        { st with prev := none, prevOffset := 0 } []
  | none => scan0 chunk 0 0 st []

/-- `_flush` of `part_000`. -/
def flushTokens0 (st : St0) : List Token :=
  if st.state = 0 ∧ st.ignoreText = false then (pushState0 st.ignoreText .text st.buffers).2
  else []

/-- Feed one chunk, accumulating output. -/
def feed0 (acc : St0 × List Token) (chunk : List Nat) : St0 × List Token :=
  let r := transform0 acc.1 chunk
  (r.1, acc.2 ++ r.2)

/-- Run a sequence of `process` calls on a fresh `part_000` instance with the
given `ignoreText` option. -/
def runChunks0 (ignoreText : Bool) (chunks : List (List Nat)) : St0 × List Token :=
  chunks.foldl feed0 (initSt0 ignoreText, [])

/-- All tokens observed for a chunk sequence on the `part_000` revision. -/
def tokenize0 (ignoreText : Bool) (chunks : List (List Nat)) : List Token :=
  (runChunks0 ignoreText chunks).2 ++ flushTokens0 (runChunks0 ignoreText chunks).1

/-- No token of the list is a text token. -/
def noText0 (ts : List Token) : Prop := ∀ t ∈ ts, t.1 ≠ TokenKind.text

/-- A step result that keeps `ignoreText` set and emits no text token. -/
def res0OK : StepRes0 → Prop
  | .defer st' => st'.ignoreText = true
  | .cont _ st' ts => st'.ignoreText = true ∧ noText0 ts

end MT0

section Sanity

open MT

example : tokenize [strB "<div>hello</div>"] =
    [(.opn, strB "<div>"), (.text, strB "hello"), (.close, strB "</div>")] := by decide

example : tokenize [strB "<script>1<2;</script>"] =
    [(.opn, strB "<script>"), (.text, strB "1<2;"), (.close, strB "</script>")] := by decide

example : tokenize [strB "2 < 3"] = [(.text, strB "2 < 3")] := by decide

example : tokenize [strB "<di", strB "v>ok</div>"] =
    [(.opn, strB "<div>"), (.text, strB "ok"), (.close, strB "</div>")] := by decide

example : tokenize [strB "<!-- a <b> c -->"] =
    [(.opn, strB "<!--"), (.text, strB " a <b> c "), (.close, strB "-->")] := by decide

example : tokenize [strB "<script></script>"] =
    [(.opn, strB "<script>"), (.text, []), (.close, strB "</script>")] := by decide

example : tokenize [strB "<!--x"] = [(.opn, strB "<!--"), (.text, strB "x")] := by decide

example : tokenize [strB "ab<"] = [] := by decide

example : tokenize (oneByteChunks (strB "ab<")) = [(.text, strB "ab")] := by decide

example : tokenize [strB "<!-->"] =
    [(.opn, strB "<!--"), (.text, []), (.close, strB ">")] := by decide

example : tokenize [strB "<!--->"] =
    [(.opn, strB "<!--"), (.text, strB "-"), (.close, strB ">")] := by decide

example : (runChunks [strB "a<", strB "b"]).1.lastBytes = [97, 60, 60, 98] := by decide

example : tokenize [strB "<![CDATA[x]]>"] =
    [(.opn, strB "<![CDATA["), (.text, strB "x"), (.close, strB "]]>")] := by decide

example : tokenize [strB "<img src=\"a.jpg\"/>"] = [(.opn, strB "<img src=\"a.jpg\"/>")] := by decide

example : tokenize [strB "<></>"] = [(.opn, strB "<>"), (.close, strB "</>")] := by decide

example : tokenize (oneByteChunks (strB "<div class=\"test\">hello world</div>")) =
    [(.opn, strB "<div class=\"test\">"), (.text, strB "hello world"),
     (.close, strB "</div>")] := by decide

example : tokenize [strB "<SCRIPT>x</ScRiPt>"] =
    [(.opn, strB "<SCRIPT>"), (.text, strB "x"), (.close, strB "</ScRiPt>")] := by decide

example : MT0.tokenize0 false [strB "<div>hello</div>"] =
    [(.opn, strB "<div>"), (.text, strB "hello"), (.close, strB "</div>")] := by decide

example : MT0.tokenize0 true [strB "<a>x</a>"] =
    [(.opn, strB "<a>"), (.close, strB "</a>")] := by decide

example : MT0.tokenize0 true [strB "<script>1<2;</script>"] =
    [(.opn, strB "<script>"), (.close, strB "</script>")] := by decide

example : MT0.tokenize0 true [strB "<!--x-->"] =
    [(.opn, strB "<!--"), (.close, strB "-->")] := by decide

example : MT0.tokenize0 true [strB "<title>T</title>"] =
    [(.opn, strB "<title>"), (.close, strB "</title>")] := by decide

example : MT0.tokenize0 false [strB "<script>a</script>"] =
    [(.opn, strB "<script>"), (.text, strB "a"), (.close, strB "</script>")] := by decide

end Sanity

section ConcreteClaims

open MT

/-- C6: when a raw-text section for `script`/`style`/`title` ends, the
terminator tag is re-scanned and emitted as a `Close` token at its `>`; when a
comment or CDATA section ends, the terminator bytes are emitted directly as a
`Close` token; in particular `"<script>1<2;</script>"` yields exactly
`[("open","<script>"), ("text","1<2;"), ("close","</script>")]`. -/
theorem C6_raw_terminator_close_tokens :
    tokenize [strB "<script>1<2;</script>"] =
      [(.opn, strB "<script>"), (.text, strB "1<2;"), (.close, strB "</script>")] ∧
    tokenize [strB "<style>b;</style>"] =
      [(.opn, strB "<style>"), (.text, strB "b;"), (.close, strB "</style>")] ∧
    tokenize [strB "<title>a<b</title>"] =
      [(.opn, strB "<title>"), (.text, strB "a<b"), (.close, strB "</title>")] ∧
    tokenize [strB "<!--a-->"] =
      [(.opn, strB "<!--"), (.text, strB "a"), (.close, strB "-->")] ∧
    tokenize [strB "<![CDATA[a]]>"] =
      [(.opn, strB "<![CDATA["), (.text, strB "a"), (.close, strB "]]>")] := by
  decide

/-- C8: raw-mode tag-name and terminator matching is case-insensitive while
payloads keep the original input bytes: `"<SCRIPT>x</ScRiPt>"` yields the same
token-kind structure as `"<script>x</script>"`, each payload in original
casing. -/
theorem C8_case_insensitive_raw_matching :
    tokenize [strB "<SCRIPT>x</ScRiPt>"] =
      [(.opn, strB "<SCRIPT>"), (.text, strB "x"), (.close, strB "</ScRiPt>")] ∧
    tokenize [strB "<script>x</script>"] =
      [(.opn, strB "<script>"), (.text, strB "x"), (.close, strB "</script>")] ∧
    (tokenize [strB "<SCRIPT>x</ScRiPt>"]).map Prod.fst =
      (tokenize [strB "<script>x</script>"]).map Prod.fst := by
  decide

/-- C2 counterexample: a raw-text section with empty interior emits a
zero-length `text` token (`testRawEnd` splits off an empty content part and
`pushToken` pushes it unconditionally), so the claim that no emitted token
ever has a zero-length payload is false on input `"<script></script>"`. -/
theorem C2_counterexample_empty_token :
    tokenize [strB "<script></script>"] =
      [(.opn, strB "<script>"), (.text, []), (.close, strB "</script>")] ∧
    (TokenKind.text, ([] : List Nat)) ∈ tokenize [strB "<script></script>"] := by
  decide

/-- C4 counterexample: with a raw terminator still pending at end of stream,
`_flush` sees `state = Text` (raw mode keeps the `Text` state) and flushes the
partially-scanned raw interior as a final `text` token, instead of discarding
it as the claim states: input `"<!--x"` ends with the comment terminator
pending yet yields a `text` token for `"x"`. -/
theorem C4_counterexample_raw_flushed :
    (runChunks [strB "<!--x"]).1.rawEndPattern = some COMMENT_END ∧
    tokenize [strB "<!--x"] = [(.opn, strB "<!--"), (.text, strB "x")] := by
  decide

/-- C4 (amended): at end of stream the pending segments are flushed as one
final `text` token exactly when the cursor state is `Text` (which includes
raw mode, whose scanning keeps `state = Text`) and the pending-segment list is
nonempty; when the state is `Open` (mid-tag) nothing is emitted.  Bytes
stashed in a deferred chunk are not part of the pending segments and are
never emitted by `_flush`. -/
theorem C4_amended_flush_behavior (st : St) :
    flushTokens st =
      if st.state = .text ∧ st.buffers ≠ [] then [(.text, st.buffers.flatten)] else [] := by
  by_cases h1 : st.state = .text <;> by_cases h2 : st.buffers = [] <;>
    simp [flushTokens, pushState, h1, h2]

/-- C5 counterexample: feeding `"a<"` then `"b"` (3 input bytes) leaves 4
window entries, because the `<` deferred at the chunk boundary is pushed into
`lastBytes` again when scanning resumes; so the window does not advance by
exactly one byte per input byte. -/
theorem C5_counterexample_window_double_push :
    (strB "a<" ++ strB "b").length = 3 ∧
    (runChunks [strB "a<", strB "b"]).1.lastBytes = [97, 60, 60, 98] ∧
    (runChunks [strB "a<", strB "b"]).1.lastBytes ≠ strB "a<" ++ strB "b" := by
  decide

/-- C10: in the `part_000` revision, `ignoreText` also suppresses the interior
of raw-text sections: the content part of the raw split is discarded rather
than pushed, for `script`, `style`, `title` and comment sections alike. -/
theorem C10_ignoreText_suppresses_raw_interior :
    MT0.tokenize0 true [strB "<script>1<2;</script>"] =
      [(.opn, strB "<script>"), (.close, strB "</script>")] ∧
    MT0.tokenize0 true [strB "<style>a b</style>"] =
      [(.opn, strB "<style>"), (.close, strB "</style>")] ∧
    MT0.tokenize0 true [strB "<title>a</title>"] =
      [(.opn, strB "<title>"), (.close, strB "</title>")] ∧
    MT0.tokenize0 true [strB "<!-- a <b> -->"] =
      [(.opn, strB "<!--"), (.close, strB "-->")] := by
  decide

end ConcreteClaims

namespace MT

theorem pushState_fst (k : TokenKind) (bufs : List (List Nat)) : (pushState k bufs).1 = [] := by
  unfold pushState; split <;> rfl

theorem pushState_snd (k : TokenKind) (bufs : List (List Nat)) :
    (pushState k bufs).2 = if bufs = [] then [] else [(k, bufs.flatten)] := by
  unfold pushState; split <;> simp_all

theorem sub_ne_nil {l : List Nat} {a b : Nat} (h1 : a < b) (h2 : a < l.length) :
    sub l a b ≠ [] := by
  unfold sub
  simp only [ne_eq, List.take_eq_nil_iff, List.drop_eq_nil_iff, not_or]
  constructor <;> omega

theorem sub_append_drop {l : List Nat} {a b : Nat} (hab : a ≤ b) :
    sub l a b ++ l.drop b = l.drop a := by
  unfold sub
  have h : l.drop b = (l.drop a).drop (b - a) := by
    rw [List.drop_drop]; congr 1; omega
  rw [h, List.take_append_drop]

theorem jsSub_zero (l : List Nat) (k : Int) : jsSub l 0 k = l.take (clampIdx l.length k) := by
  simp [jsSub, clampIdx]

theorem jsSub_len (l : List Nat) (k : Int) :
    jsSub l k (l.length : Int) = l.drop (clampIdx l.length k) := by
  simp [jsSub, clampIdx]

theorem jsSub_split (l : List Nat) (k : Int) :
    jsSub l 0 k ++ jsSub l k (l.length : Int) = l := by
  rw [jsSub_zero, jsSub_len, List.take_append_drop]

theorem clampIdx_lt (len p : Nat) (hl : 0 < len) (hp : 0 < p) :
    clampIdx len ((len : Int) - (p : Int)) < len := by
  unfold clampIdx
  split_ifs with h <;> omega

theorem wpush_length_le (lb : List Nat) (b : Nat) (h : lb.length ≤ 9) :
    (wpush lb b).length ≤ 9 := by
  unfold wpush
  split_ifs with hl <;> simp_all

theorem concatOut_append (a b : List Token) :
    concatOut (a ++ b) = concatOut a ++ concatOut b := by
  simp [concatOut]

theorem pushState_concatOut (k : TokenKind) (bufs : List (List Nat)) :
    concatOut (pushState k bufs).2 = bufs.flatten := by
  rw [pushState_snd]
  split_ifs with h <;> simp [concatOut, h]

/-- The five raw terminator patterns are nonempty. -/
theorem rawOK_pat_ne_nil {st : St} (hraw : rawOK st) {pat : List Nat}
    (h : st.rawEndPattern = some pat) : pat ≠ [] := by
  rcases hraw with h' | h' | h' | h' | h' | h' <;> rw [h'] at h
  · exact absurd h (by simp)
  all_goals (injection h with h; subst h; decide)

theorem flatten_snoc (l : List (List Nat)) (s : List Nat) :
    (l ++ [s]).flatten = l.flatten ++ s := by simp

theorem goodToks_nil : goodToks [] := by
  intro t ht
  cases ht

theorem goodToks_text (bufs : List (List Nat)) :
    goodToks ((pushState TokenKind.text bufs).2) := by
  rw [pushState_snd]
  split_ifs with h
  · exact goodToks_nil
  · intro t ht hk
    simp only [List.mem_singleton] at ht
    subst ht
    rcases hk with h' | h' <;> simp at h'

theorem goodToks_pushState_snoc (k : TokenKind) (bufsL : List (List Nat)) (s : List Nat)
    (hs : s ≠ []) : goodToks ((pushState k (bufsL ++ [s])).2) := by
  rw [pushState_snd]
  split_ifs with h
  · exact goodToks_nil
  · intro t ht _
    simp only [List.mem_singleton] at ht
    subst ht
    simp only [flatten_snoc]
    intro hc
    exact hs (List.append_eq_nil.mp hc).2

theorem rawTagPattern_cases (n : List Nat) :
    rawTagPattern n = none ∨ rawTagPattern n = some END_SCRIPT ∨
      rawTagPattern n = some END_STYLE ∨ rawTagPattern n = some END_TITLE := by
  unfold rawTagPattern
  split_ifs <;> simp

/-- The raw-mode branch satisfies `stepFacts`. -/
theorem rawStep_inv (buffer : List Nat) (i off : Nat) (st : St) (pat : List Nat)
    (hsegs : segsOK st) (hrawOK : rawOK st) (hpat : pat ≠ [])
    (hoff : off ≤ i) (hi : i < buffer.length) :
    stepFacts buffer i off st.pendingBuffer st.pendingOffset st.buffers
      (rawStep buffer i off st pat) := by
  have hsub : sub buffer off (i + 1) ≠ [] :=
    sub_ne_nil (Nat.lt_succ_of_le hoff) (Nat.lt_of_le_of_lt hoff hi)
  have hdrop : sub buffer off (i + 1) ++ buffer.drop (i + 1) = buffer.drop off :=
    sub_append_drop (Nat.le_succ_of_le hoff)
  simp only [rawStep]
  set C := (st.buffers ++ [sub buffer off (i + 1)]).flatten with hC
  have hCe : C = st.buffers.flatten ++ sub buffer off (i + 1) := by
    rw [hC]; simp
  have hCne : C ≠ [] := by
    rw [hCe]
    intro hc
    exact hsub (List.append_eq_nil.mp hc).2
  set K : Int := (C.length : Int) - (pat.length : Int) with hK
  have hterm : jsSub C K (C.length : Int) ≠ [] := by
    rw [jsSub_len]
    simp only [ne_eq, List.drop_eq_nil_iff, not_le]
    exact clampIdx_lt _ _ (List.length_pos.mpr hCne) (List.length_pos.mpr hpat)
  have hkey : jsSub C 0 K ++ jsSub C K (C.length : Int) =
      st.buffers.flatten ++ sub buffer off (i + 1) := by
    rw [jsSub_split, hCe]
  have hfin : jsSub C 0 K ++ (jsSub C K (C.length : Int) ++ buffer.drop (i + 1)) =
      st.buffers.flatten ++ buffer.drop off := by
    rw [← List.append_assoc, hkey, List.append_assoc, hdrop]
  split_ifs with hcm hpk
  · -- comment / CDATA terminator: emit content and close
    refine ⟨by simp [segsOK], by simp [rawOK], by omega, by simp, by simp, ?_, ?_⟩
    · intro t ht hk
      simp only [List.mem_cons, List.mem_singleton] at ht
      rcases ht with rfl | rfl | h
      · rcases hk with h | h <;> simp at h
      · exact hterm
      · cases h
    · simpa [concatOut, List.append_assoc] using hfin
  · -- script/style/title terminator: emit content, re-scan the end tag
    refine ⟨?_, by simp [rawOK], by omega, by simp, by simp, ?_, ?_⟩
    · intro seg hseg
      simp only [List.mem_singleton] at hseg
      subst hseg; exact hterm
    · intro t ht hk
      simp only [List.mem_singleton] at ht
      subst ht
      rcases hk with h | h <;> simp at h
    · simpa [concatOut, List.append_assoc] using hfin
  · -- no terminator match: window update only
    exact ⟨hsegs, hrawOK, by omega, rfl, rfl, goodToks_nil, by simp [concatOut]⟩

theorem tsFallback_inv (buffer : List Nat) (i off : Nat) (st : St)
    (hsegs : segsOK st) (hrawOK : rawOK st) (hoff : off ≤ i) :
    stepFacts buffer i off st.pendingBuffer st.pendingOffset st.buffers
      (tsFallback buffer i off st) :=
  ⟨hsegs, hrawOK, by omega, rfl, rfl, goodToks_nil, by simp [concatOut]⟩

theorem tsCData_inv (buffer : List Nat) (i off : Nat) (st : St)
    (hsegs : segsOK st) (hraw : st.rawEndPattern = none)
    (hoff : off ≤ i) (hi : i < buffer.length) :
    stepFacts buffer i off st.pendingBuffer st.pendingOffset st.buffers
      (tsCData buffer i off st) := by
  have hsub : sub buffer off (i + 1) ≠ [] :=
    sub_ne_nil (Nat.lt_succ_of_le hoff) (Nat.lt_of_le_of_lt hoff hi)
  have hdrop : sub buffer off (i + 1) ++ buffer.drop (i + 1) = buffer.drop off :=
    sub_append_drop (Nat.le_succ_of_le hoff)
  unfold tsCData
  split_ifs with h
  · exact ⟨by simp [segsOK, pushState_fst], by simp [rawOK], by omega, rfl, rfl,
      goodToks_pushState_snoc _ _ _ hsub,
      by rw [pushState_concatOut, pushState_fst, flatten_snoc, List.flatten_nil,
        List.append_nil, List.append_assoc, hdrop]⟩
  · exact tsFallback_inv buffer i off st hsegs (Or.inl hraw) hoff

theorem tsComment_inv (buffer : List Nat) (i off : Nat) (st : St)
    (hsegs : segsOK st) (hraw : st.rawEndPattern = none)
    (hoff : off ≤ i) (hi : i < buffer.length) :
    stepFacts buffer i off st.pendingBuffer st.pendingOffset st.buffers
      (tsComment buffer i off st) := by
  have hsub : sub buffer off (i + 1) ≠ [] :=
    sub_ne_nil (Nat.lt_succ_of_le hoff) (Nat.lt_of_le_of_lt hoff hi)
  have hdrop : sub buffer off (i + 1) ++ buffer.drop (i + 1) = buffer.drop off :=
    sub_append_drop (Nat.le_succ_of_le hoff)
  unfold tsComment
  split_ifs with h
  · exact ⟨by simp [segsOK, pushState_fst], by simp [rawOK], by omega, rfl, rfl,
      goodToks_pushState_snoc _ _ _ hsub,
      by rw [pushState_concatOut, pushState_fst, flatten_snoc, List.flatten_nil,
        List.append_nil, List.append_assoc, hdrop]⟩
  · exact tsCData_inv buffer i off st hsegs hraw hoff hi

theorem tsGt_inv (buffer : List Nat) (i off : Nat) (st : St)
    (hsegs : segsOK st) (hraw : st.rawEndPattern = none)
    (hoff : off ≤ i) (hi : i < buffer.length) :
    stepFacts buffer i off st.pendingBuffer st.pendingOffset st.buffers
      (tsGt buffer i off st) := by
  have hsub : sub buffer off (i + 1) ≠ [] :=
    sub_ne_nil (Nat.lt_succ_of_le hoff) (Nat.lt_of_le_of_lt hoff hi)
  have hdrop : sub buffer off (i + 1) ++ buffer.drop (i + 1) = buffer.drop off :=
    sub_append_drop (Nat.le_succ_of_le hoff)
  simp only [tsGt]
  split_ifs with h hfr hsl
  · -- terminator tag re-scanned from raw mode: close
    exact ⟨by simp [segsOK, pushState_fst], by simp [rawOK, hraw], by omega, rfl, rfl,
      goodToks_pushState_snoc _ _ _ hsub,
      by rw [pushState_concatOut, pushState_fst, flatten_snoc, List.flatten_nil,
        List.append_nil, List.append_assoc, hdrop]⟩
  · -- second byte is a slash: close
    exact ⟨by simp [segsOK, pushState_fst], by simp [rawOK, hraw], by omega, rfl, rfl,
      goodToks_pushState_snoc _ _ _ hsub,
      by rw [pushState_concatOut, pushState_fst, flatten_snoc, List.flatten_nil,
        List.append_nil, List.append_assoc, hdrop]⟩
  · -- open tag, with the raw-tag lookup
    refine ⟨by simp [segsOK, pushState_fst], ?_, by omega, rfl, rfl,
      goodToks_pushState_snoc _ _ _ hsub,
      by rw [pushState_concatOut, pushState_fst, flatten_snoc, List.flatten_nil,
        List.append_nil, List.append_assoc, hdrop]⟩
    rcases rawTagPattern_cases (getTagName (st.buffers ++ [sub buffer off (i + 1)])) with
      h' | h' | h' | h' <;> simp [rawOK, h']
  · exact tsComment_inv buffer i off st hsegs hraw hoff hi

theorem tsQuoteS_inv (buffer : List Nat) (i off : Nat) (st : St)
    (hsegs : segsOK st) (hraw : st.rawEndPattern = none)
    (hoff : off ≤ i) (hi : i < buffer.length) :
    stepFacts buffer i off st.pendingBuffer st.pendingOffset st.buffers
      (tsQuoteS buffer i off st) := by
  unfold tsQuoteS
  split_ifs with h
  · exact ⟨hsegs, by simp [rawOK, hraw], by omega, rfl, rfl, goodToks_nil,
      by simp [concatOut]⟩
  · exact tsGt_inv buffer i off st hsegs hraw hoff hi

theorem tsQuoteD_inv (buffer : List Nat) (i off : Nat) (st : St)
    (hsegs : segsOK st) (hraw : st.rawEndPattern = none)
    (hoff : off ≤ i) (hi : i < buffer.length) :
    stepFacts buffer i off st.pendingBuffer st.pendingOffset st.buffers
      (tsQuoteD buffer i off st) := by
  unfold tsQuoteD
  split_ifs with h
  · exact ⟨hsegs, by simp [rawOK, hraw], by omega, rfl, rfl, goodToks_nil,
      by simp [concatOut]⟩
  · exact tsQuoteS_inv buffer i off st hsegs hraw hoff hi

theorem tsValWs_inv (buffer : List Nat) (i off : Nat) (st : St)
    (hsegs : segsOK st) (hraw : st.rawEndPattern = none)
    (hoff : off ≤ i) (hi : i < buffer.length) :
    stepFacts buffer i off st.pendingBuffer st.pendingOffset st.buffers
      (tsValWs buffer i off st) := by
  unfold tsValWs
  split_ifs with h
  · exact ⟨hsegs, by simp [rawOK, hraw], by omega, rfl, rfl, goodToks_nil,
      by simp [concatOut]⟩
  · exact tsQuoteD_inv buffer i off st hsegs hraw hoff hi

theorem tsBeforeVal_inv (buffer : List Nat) (i off : Nat) (st : St)
    (hsegs : segsOK st) (hraw : st.rawEndPattern = none)
    (hoff : off ≤ i) (hi : i < buffer.length) :
    stepFacts buffer i off st.pendingBuffer st.pendingOffset st.buffers
      (tsBeforeVal buffer i off st) := by
  unfold tsBeforeVal
  split_ifs with h
  · exact ⟨hsegs, by simp [rawOK, hraw], by omega, rfl, rfl, goodToks_nil,
      by simp [concatOut]⟩
  · exact tsValWs_inv buffer i off st hsegs hraw hoff hi

theorem tsBeforeValWs_inv (buffer : List Nat) (i off : Nat) (st : St)
    (hsegs : segsOK st) (hraw : st.rawEndPattern = none)
    (hoff : off ≤ i) (hi : i < buffer.length) :
    stepFacts buffer i off st.pendingBuffer st.pendingOffset st.buffers
      (tsBeforeValWs buffer i off st) := by
  unfold tsBeforeValWs
  split_ifs with h
  · exact ⟨hsegs, by simp [rawOK, hraw], by omega, rfl, rfl, goodToks_nil,
      by simp [concatOut]⟩
  · exact tsBeforeVal_inv buffer i off st hsegs hraw hoff hi

theorem tsAttrEq_inv (buffer : List Nat) (i off : Nat) (st : St)
    (hsegs : segsOK st) (hraw : st.rawEndPattern = none)
    (hoff : off ≤ i) (hi : i < buffer.length) :
    stepFacts buffer i off st.pendingBuffer st.pendingOffset st.buffers
      (tsAttrEq buffer i off st) := by
  unfold tsAttrEq
  split_ifs with h
  · exact ⟨hsegs, by simp [rawOK, hraw], by omega, rfl, rfl, goodToks_nil,
      by simp [concatOut]⟩
  · exact tsBeforeValWs_inv buffer i off st hsegs hraw hoff hi

theorem tsTagWs_inv (buffer : List Nat) (i off : Nat) (st : St)
    (hsegs : segsOK st) (hraw : st.rawEndPattern = none)
    (hoff : off ≤ i) (hi : i < buffer.length) :
    stepFacts buffer i off st.pendingBuffer st.pendingOffset st.buffers
      (tsTagWs buffer i off st) := by
  unfold tsTagWs
  split_ifs with h
  · exact ⟨hsegs, by simp [rawOK, hraw], by omega, rfl, rfl, goodToks_nil,
      by simp [concatOut]⟩
  · exact tsAttrEq_inv buffer i off st hsegs hraw hoff hi

theorem tsLt_inv (buffer : List Nat) (i off : Nat) (st : St)
    (hsegs : segsOK st) (hraw : st.rawEndPattern = none)
    (hoff : off ≤ i) (hi : i < buffer.length) :
    stepFacts buffer i off st.pendingBuffer st.pendingOffset st.buffers
      (tsLt buffer i off st) := by
  unfold tsLt
  split_ifs with h hp
  · -- open transition, pending text pushed
    exact ⟨by simp [segsOK, pushState_fst], by simp [rawOK, hraw], by omega, rfl, rfl,
      goodToks_text _,
      by rw [pushState_concatOut, pushState_fst, flatten_snoc, List.flatten_nil,
        List.append_nil, List.append_assoc, sub_append_drop hoff]⟩
  · -- open transition, nothing before the tag start
    have heq : off = i := by omega
    exact ⟨by simp [segsOK, pushState_fst], by simp [rawOK, hraw], by omega, rfl, rfl,
      goodToks_text _,
      by rw [pushState_concatOut, pushState_fst, List.flatten_nil, List.append_nil, heq]⟩
  · exact tsTagWs_inv buffer i off st hsegs hraw hoff hi

theorem textStep_inv (buffer : List Nat) (i off : Nat) (st : St)
    (hsegs : segsOK st) (hraw : st.rawEndPattern = none)
    (hoff : off ≤ i) (hi : i < buffer.length) :
    stepFacts buffer i off st.pendingBuffer st.pendingOffset st.buffers
      (textStep buffer i off st) := by
  unfold textStep
  split_ifs with h
  · exact ⟨hsegs, by simp [rawOK, hraw], rfl, rfl, rfl⟩
  · exact tsLt_inv buffer i off st hsegs hraw hoff hi

/-- One scan step satisfies `stepFacts`. -/
theorem step_inv (buffer : List Nat) (i off : Nat) (st : St)
    (hsegs : segsOK st) (hraw : rawOK st) (hoff : off ≤ i) (hi : i < buffer.length) :
    stepFacts buffer i off st.pendingBuffer st.pendingOffset st.buffers
      (step buffer i off st) := by
  cases hr : st.rawEndPattern with
  | some pat =>
      have he : step buffer i off st =
          rawStep buffer i off
            { st with lastBytes := wpush st.lastBytes (buffer.getD i 0) } pat := by
        simp only [step, hr]
      rw [he]
      exact rawStep_inv buffer i off _ pat hsegs hraw (rawOK_pat_ne_nil hraw hr) hoff hi
  | none =>
      have he : step buffer i off st =
          textStep buffer i off
            { st with lastBytes := wpush st.lastBytes (buffer.getD i 0) } := by
        simp only [step, hr]
      rw [he]
      exact textStep_inv buffer i off _ hsegs hr hoff hi

theorem goodToks_append {a b : List Token} (ha : goodToks a) (hb : goodToks b) :
    goodToks (a ++ b) := by
  intro t ht hk
  rcases List.mem_append.mp ht with h | h
  · exact ha t h hk
  · exact hb t h hk

theorem held_none {st : St} (h : st.pendingBuffer = none) :
    held st = st.buffers.flatten := by
  simp [held, h]

theorem sub_full (l : List Nat) (a : Nat) : sub l a l.length = l.drop a := by
  unfold sub
  exact List.take_of_length_le (by simp)

theorem tailFlush_facts (buffer : List Nat) (off : Nat) (st : St)
    (hsegs : segsOK st) (hrawOK : rawOK st) (hpend : st.pendingBuffer = none) :
    segsOK (tailFlush buffer off st) ∧ rawOK (tailFlush buffer off st) ∧
      pendOK (tailFlush buffer off st) ∧
      held (tailFlush buffer off st) = st.buffers.flatten ++ buffer.drop off := by
  unfold tailFlush
  split_ifs with h
  · refine ⟨?_, hrawOK, ?_, ?_⟩
    · intro seg hseg
      rcases List.mem_append.mp hseg with h' | h'
      · exact hsegs seg h'
      · simp only [List.mem_singleton] at h'
        subst h'
        exact sub_ne_nil h (by omega)
    · intro pb hpb
      simp [hpend] at hpb
    · simp [held, hpend, flatten_snoc, sub_full]
  · have hd : buffer.drop off = [] := by
      simp only [List.drop_eq_nil_iff]
      omega
    exact ⟨hsegs, hrawOK, fun pb hpb => by simp [hpend] at hpb,
      by simp [held, hpend, hd]⟩

/-- The scan loop preserves the invariant, extends `goodToks`, and preserves
byte accounting, for any fuel. -/
theorem scanFuel_inv (buffer : List Nat) :
    ∀ (fuel i off : Nat) (st : St) (out : List Token),
      segsOK st → rawOK st → off ≤ i → st.pendingBuffer = none →
      (segsOK (scanFuel buffer fuel i off st out).1 ∧
        rawOK (scanFuel buffer fuel i off st out).1 ∧
        pendOK (scanFuel buffer fuel i off st out).1) ∧
      (goodToks out → goodToks (scanFuel buffer fuel i off st out).2) ∧
      concatOut (scanFuel buffer fuel i off st out).2 ++
          held (scanFuel buffer fuel i off st out).1 =
        concatOut out ++ st.buffers.flatten ++ buffer.drop off := by
  intro fuel
  induction fuel with
  | zero =>
      intro i off st out hsegs hrawOK hoff hpend
      obtain ⟨s1, s2, s3, s4⟩ := tailFlush_facts buffer off st hsegs hrawOK hpend
      exact ⟨⟨s1, s2, s3⟩, fun h => h, by simp [scanFuel, s4, List.append_assoc]⟩
  | succ fuel ih =>
      intro i off st out hsegs hrawOK hoff hpend
      by_cases hi : i < buffer.length
      · have hfacts := step_inv buffer i off st hsegs hrawOK hoff hi
        simp only [scanFuel, if_pos hi]
        cases hstep : step buffer i off st with
        | defer st' =>
            rw [hstep] at hfacts
            obtain ⟨f1, f2, f3, f4, f5⟩ := hfacts
            refine ⟨⟨f1, f2, ?_⟩, fun h => h, ?_⟩
            · intro pb hpb
              rw [f4] at hpb
              injection hpb with hpb
              subst hpb
              constructor
              · rw [f5]; omega
              · intro hb
                rw [hb] at hi
                simp at hi
            · simp [held, f4, f5, f3, List.append_assoc]
        | cont off' st' ts =>
            rw [hstep] at hfacts
            obtain ⟨f1, f2, f3, f4, f5, f6, f7⟩ := hfacts
            rw [hpend] at f4
            have := ih (i + 1) off' st' (out ++ ts) f1 f2 f3 f4
            obtain ⟨g1, g2, g3⟩ := this
            refine ⟨g1, fun h => g2 (goodToks_append h f6), ?_⟩
            rw [g3, concatOut_append]
            simp only [List.append_assoc] at f7 ⊢
            rw [f7]
      · simp only [scanFuel, if_neg hi]
        obtain ⟨s1, s2, s3, s4⟩ := tailFlush_facts buffer off st hsegs hrawOK hpend
        exact ⟨⟨s1, s2, s3⟩, fun h => h, by simp [s4, List.append_assoc]⟩

/-- `transform` preserves the invariant and byte accounting, and pushes only
well-formed tokens. -/
theorem transform_inv (st : St) (chunk : List Nat) (hinv : StInv st) :
    StInv (transform st chunk).1 ∧ goodToks (transform st chunk).2 ∧
      concatOut (transform st chunk).2 ++ held (transform st chunk).1 =
        held st ++ chunk := by
  obtain ⟨hsegs, hrawOK, hpend⟩ := hinv
  cases hpb : st.pendingBuffer with
  | none =>
      have he : transform st chunk = scan chunk 0 0 st [] := by
        simp [transform, hpb]
      have h := scanFuel_inv chunk (chunk.length - 0) 0 0 st [] hsegs hrawOK (le_refl 0) hpb
      obtain ⟨⟨s1, s2, s3⟩, s4, s5⟩ := h
      refine ⟨⟨?_, ?_, ?_⟩, ?_, ?_⟩
      · rw [he]; exact s1
      · rw [he]; exact s2
      · rw [he]; exact s3
      · rw [he]; exact s4 goodToks_nil
      · rw [he]
        simp only [scan] at s5 ⊢
        rw [s5, held_none hpb]
        simp [concatOut]
  | some pb =>
      obtain ⟨hpo, hpbne⟩ := hpend pb hpb
      have hlen : 0 < pb.length := List.length_pos.mpr hpbne
      have h := scanFuel_inv (pb ++ chunk) ((pb ++ chunk).length - (pb.length - 1))
        (pb.length - 1) st.pendingOffset
        { st with pendingBuffer := none, pendingOffset := 0 } []
        hsegs hrawOK hpo rfl
      obtain ⟨⟨s1, s2, s3⟩, s4, s5⟩ := h
      have he : transform st chunk = scan (pb ++ chunk) (pb.length - 1) st.pendingOffset
          { st with pendingBuffer := none, pendingOffset := 0 } [] := by
        simp [transform, hpb]
      refine ⟨⟨?_, ?_, ?_⟩, ?_, ?_⟩
      · rw [he]; exact s1
      · rw [he]; exact s2
      · rw [he]; exact s3
      · rw [he]; exact s4 goodToks_nil
      · rw [he]
        simp only [scan] at s5 ⊢
        rw [s5]
        simp only [concatOut, List.map_nil, List.flatten_nil, List.nil_append]
        rw [List.drop_append_of_le_length (by omega)]
        simp only [held, hpb]
        simp [List.append_assoc]

/-- Fresh instances satisfy the invariant. -/
theorem initSt_inv : StInv initSt := by
  refine ⟨?_, ?_, ?_⟩
  · intro seg hseg
    cases hseg
  · exact Or.inl rfl
  · intro pb hpb
    cases hpb

/-- Folding `feed` over the chunk list preserves everything. -/
theorem feed_fold_inv :
    ∀ (chunks : List (List Nat)) (acc : St × List Token), StInv acc.1 →
      StInv (chunks.foldl feed acc).1 ∧
        (goodToks acc.2 → goodToks (chunks.foldl feed acc).2) ∧
        concatOut (chunks.foldl feed acc).2 ++ held (chunks.foldl feed acc).1 =
          concatOut acc.2 ++ held acc.1 ++ chunks.flatten := by
  intro chunks
  induction chunks with
  | nil =>
      intro acc hinv
      exact ⟨hinv, fun h => h, by simp⟩
  | cons c cs ih =>
      intro acc hinv
      obtain ⟨t1, t2, t3⟩ := transform_inv acc.1 c hinv
      have hfeed : feed acc c = ((transform acc.1 c).1, acc.2 ++ (transform acc.1 c).2) := by
        simp [feed]
      obtain ⟨g1, g2, g3⟩ := ih (feed acc c) (by rw [hfeed]; exact t1)
      refine ⟨by simpa [List.foldl_cons] using g1, ?_, ?_⟩
      · intro h
        simp only [List.foldl_cons]
        exact g2 (by rw [hfeed]; exact goodToks_append h t2)
      · simp only [List.foldl_cons]
        rw [g3, hfeed]
        simp only [concatOut_append, List.flatten_cons]
        rw [List.append_assoc (concatOut acc.2), t3]
        simp [List.append_assoc]

/-- The full-run invariant and byte accounting. -/
theorem runChunks_inv (chunks : List (List Nat)) :
    StInv (runChunks chunks).1 ∧ goodToks (runChunks chunks).2 ∧
      concatOut (runChunks chunks).2 ++ held (runChunks chunks).1 = chunks.flatten := by
  obtain ⟨g1, g2, g3⟩ := feed_fold_inv chunks (initSt, []) initSt_inv
  refine ⟨g1, g2 goodToks_nil, ?_⟩
  rw [runChunks] at *
  rw [g3]
  simp [held, initSt, concatOut]

theorem flush_concatOut (st : St) :
    concatOut (flushTokens st) =
      if st.state = .text then st.buffers.flatten else [] := by
  unfold flushTokens
  split_ifs with h
  · exact pushState_concatOut _ _
  · simp [concatOut]

theorem flush_goodToks (st : St) : goodToks (flushTokens st) := by
  unfold flushTokens
  split_ifs with h
  · exact goodToks_text _
  · exact goodToks_nil

end MT

section UniversalClaims

open MT

/-- C2 (amended): across every chunk sequence, no emitted `open` or `close`
token has a zero-length payload (only the `text` token for the interior of a
raw section can be empty, as the counterexample shows). -/
theorem C2_amended_open_close_nonempty :
    ∀ (chunks : List (List Nat)) (t : Token), t ∈ tokenize chunks →
      t.1 = TokenKind.opn ∨ t.1 = TokenKind.close → t.2 ≠ [] := by
  intro chunks t ht hk
  have h := runChunks_inv chunks
  unfold tokenize at ht
  rcases List.mem_append.mp ht with h' | h'
  · exact h.2.1 t h' hk
  · exact flush_goodToks _ t h' hk

theorem C2_amended_witness : (strB "<a>" : List Nat) ≠ [] :=
  C2_amended_open_close_nonempty [strB "<a>x"] (TokenKind.opn, strB "<a>")
    (by decide) (by decide)

/-- C3: for any chunking, concatenating the payloads of all emitted tokens in
order reproduces the input minus only the trailing bytes dropped at
finalization (an unclosed tag's pending segments and a deferred chunk tail);
when the run ends cleanly (state `Text`, nothing deferred), it reproduces the
input exactly. -/
theorem C3_concat_reconstruction :
    ∀ chunks : List (List Nat),
      concatOut (tokenize chunks) ++ droppedBytes chunks = chunks.flatten ∧
      ((runChunks chunks).1.state = ParseState.text ∧
          (runChunks chunks).1.pendingBuffer = none →
        concatOut (tokenize chunks) = chunks.flatten) := by
  intro chunks
  obtain ⟨hinv, hgood, hconcat⟩ := runChunks_inv chunks
  have hh := hconcat
  simp only [held] at hh
  constructor
  · unfold tokenize droppedBytes
    rw [concatOut_append, flush_concatOut]
    by_cases hst : (runChunks chunks).1.state = ParseState.text
    · simp only [if_pos hst]
      simpa [List.append_assoc] using hh
    · simp only [if_neg hst]
      simpa [List.append_assoc] using hh
  · rintro ⟨hst, hpb⟩
    unfold tokenize
    rw [concatOut_append, flush_concatOut, if_pos hst]
    have hh2 := hconcat
    rw [held_none hpb] at hh2
    simpa [List.append_assoc] using hh2

theorem C3_witness :
    concatOut (tokenize [strB "<a>x</a>"]) = ([strB "<a>x</a>"]).flatten :=
  (C3_concat_reconstruction [strB "<a>x</a>"]).2 (by decide)

end UniversalClaims

namespace MT

theorem getLast?_drop (l : List Nat) :
    ∀ k, k < l.length → (l.drop k).getLast? = l.getLast? := by
  induction l with
  | nil =>
      intro k h
      simp at h
  | cons a t ih =>
      intro k h
      cases k with
      | zero => simp
      | succ k =>
          simp only [List.drop_succ_cons]
          rw [ih k (by simpa using h)]
          cases t with
          | nil => simp at h
          | cons b t' => simp [List.getLast?_cons_cons]

theorem wpush_getLast (lb : List Nat) (b : Nat) : (wpush lb b).getLast? = some b := by
  unfold wpush
  split_ifs with h
  · rcases lb with _ | ⟨x, xs⟩
    · simp at h
    · simp only [List.cons_append, List.drop_succ_cons, List.drop_zero]
      exact List.getLast?_concat _
  · exact List.getLast?_concat _

theorem compareBuffers_ends {w pat : List Nat} (hw : compareBuffers w pat = true)
    (hp : pat ≠ []) :
    (w.map toLowerCase).getLast? = (pat.map toLowerCase).getLast? := by
  unfold compareBuffers at hw
  rw [Bool.and_eq_true, decide_eq_true_iff, beq_iff_eq] at hw
  obtain ⟨hlen, heq⟩ := hw
  have hp0 : 0 < pat.length := List.length_pos.mpr hp
  have hk : w.length - pat.length < w.length := by omega
  have h1 : ((w.map toLowerCase).drop (w.length - pat.length)).getLast? =
      (w.map toLowerCase).getLast? := getLast?_drop _ _ (by simpa using hk)
  rw [← h1, ← List.map_drop, heq]

theorem compareBuffers_lt_false (lb : List Nat) (pat : List Nat) (hp : pat ≠ [])
    (hlast : (pat.map toLowerCase).getLast? ≠ some 60) :
    compareBuffers (wpush lb 60) pat = false := by
  by_contra hcb
  rw [Bool.not_eq_false] at hcb
  have hends := compareBuffers_ends hcb hp
  rw [List.getLast?_map, wpush_getLast] at hends
  apply hlast
  rw [← hends]
  decide

end MT

namespace MT

theorem wpush_lastN (l : List Nat) (b : Nat) :
    wpush (lastN 9 l) b = lastN 9 (l ++ [b]) := by
  unfold wpush lastN
  by_cases h : l.length ≤ 8
  · have e1 : l.length - 9 = 0 := by omega
    have e2 : (l ++ [b]).length - 9 = 0 := by
      simp only [List.length_append, List.length_cons, List.length_nil]
      omega
    rw [e1, e2, List.drop_zero, List.drop_zero, if_neg (by
      simp only [List.length_append, List.length_cons, List.length_nil, not_lt]
      omega)]
  · have hlen : (l.drop (l.length - 9)).length = 9 := by
      simp only [List.length_drop]
      omega
    rw [if_pos (by
      simp only [List.length_append, List.length_cons, List.length_nil, hlen]
      omega)]
    have e3 : (l ++ [b]).length - 9 = (l.length - 9) + 1 := by
      simp only [List.length_append, List.length_cons, List.length_nil]
      omega
    rw [List.drop_append_of_le_length (by omega), e3,
      List.drop_append_of_le_length (by omega)]
    congr 1
    rw [List.drop_drop]

theorem take_snoc_getD (l : List Nat) (i : Nat) (h : i < l.length) :
    l.take (i + 1) = l.take i ++ [l.getD i 0] := by
  rw [List.take_succ]
  simp [List.getD, List.getElem?_eq_getElem h]

theorem tsFallback_cont (buffer : List Nat) (i off : Nat) (st : St) :
    ∃ off2 st2 ts, tsFallback buffer i off st = StepRes.cont off2 st2 ts ∧
      st2.lastBytes = st.lastBytes :=
  ⟨off, st, [], rfl, rfl⟩

theorem tsCData_cont (buffer : List Nat) (i off : Nat) (st : St) :
    ∃ off2 st2 ts, tsCData buffer i off st = StepRes.cont off2 st2 ts ∧
      st2.lastBytes = st.lastBytes := by
  simp only [tsCData]
  split_ifs with h
  · exact ⟨_, _, _, rfl, rfl⟩
  · exact tsFallback_cont buffer i off st

theorem tsComment_cont (buffer : List Nat) (i off : Nat) (st : St) :
    ∃ off2 st2 ts, tsComment buffer i off st = StepRes.cont off2 st2 ts ∧
      st2.lastBytes = st.lastBytes := by
  simp only [tsComment]
  split_ifs with h
  · exact ⟨_, _, _, rfl, rfl⟩
  · exact tsCData_cont buffer i off st

theorem tsGt_cont (buffer : List Nat) (i off : Nat) (st : St) :
    ∃ off2 st2 ts, tsGt buffer i off st = StepRes.cont off2 st2 ts ∧
      st2.lastBytes = st.lastBytes := by
  simp only [tsGt]
  split_ifs with h h2 h3
  · exact ⟨_, _, _, rfl, rfl⟩
  · exact ⟨_, _, _, rfl, rfl⟩
  · exact ⟨_, _, _, rfl, rfl⟩
  · exact tsComment_cont buffer i off st

theorem tsQuoteS_cont (buffer : List Nat) (i off : Nat) (st : St) :
    ∃ off2 st2 ts, tsQuoteS buffer i off st = StepRes.cont off2 st2 ts ∧
      st2.lastBytes = st.lastBytes := by
  simp only [tsQuoteS]
  split_ifs with h
  · exact ⟨_, _, _, rfl, rfl⟩
  · exact tsGt_cont buffer i off st

theorem tsQuoteD_cont (buffer : List Nat) (i off : Nat) (st : St) :
    ∃ off2 st2 ts, tsQuoteD buffer i off st = StepRes.cont off2 st2 ts ∧
      st2.lastBytes = st.lastBytes := by
  simp only [tsQuoteD]
  split_ifs with h
  · exact ⟨_, _, _, rfl, rfl⟩
  · exact tsQuoteS_cont buffer i off st

theorem tsValWs_cont (buffer : List Nat) (i off : Nat) (st : St) :
    ∃ off2 st2 ts, tsValWs buffer i off st = StepRes.cont off2 st2 ts ∧
      st2.lastBytes = st.lastBytes := by
  simp only [tsValWs]
  split_ifs with h
  · exact ⟨_, _, _, rfl, rfl⟩
  · exact tsQuoteD_cont buffer i off st

theorem tsBeforeVal_cont (buffer : List Nat) (i off : Nat) (st : St) :
    ∃ off2 st2 ts, tsBeforeVal buffer i off st = StepRes.cont off2 st2 ts ∧
      st2.lastBytes = st.lastBytes := by
  simp only [tsBeforeVal]
  split_ifs with h h2 h3
  · exact ⟨_, _, _, rfl, rfl⟩
  · exact ⟨_, _, _, rfl, rfl⟩
  · exact ⟨_, _, _, rfl, rfl⟩
  · exact tsValWs_cont buffer i off st

theorem tsBeforeValWs_cont (buffer : List Nat) (i off : Nat) (st : St) :
    ∃ off2 st2 ts, tsBeforeValWs buffer i off st = StepRes.cont off2 st2 ts ∧
      st2.lastBytes = st.lastBytes := by
  simp only [tsBeforeValWs]
  split_ifs with h
  · exact ⟨_, _, _, rfl, rfl⟩
  · exact tsBeforeVal_cont buffer i off st

theorem tsAttrEq_cont (buffer : List Nat) (i off : Nat) (st : St) :
    ∃ off2 st2 ts, tsAttrEq buffer i off st = StepRes.cont off2 st2 ts ∧
      st2.lastBytes = st.lastBytes := by
  simp only [tsAttrEq]
  split_ifs with h
  · exact ⟨_, _, _, rfl, rfl⟩
  · exact tsBeforeValWs_cont buffer i off st

theorem tsTagWs_cont (buffer : List Nat) (i off : Nat) (st : St) :
    ∃ off2 st2 ts, tsTagWs buffer i off st = StepRes.cont off2 st2 ts ∧
      st2.lastBytes = st.lastBytes := by
  simp only [tsTagWs]
  split_ifs with h
  · exact ⟨_, _, _, rfl, rfl⟩
  · exact tsAttrEq_cont buffer i off st

theorem tsLt_cont (buffer : List Nat) (i off : Nat) (st : St) :
    ∃ off2 st2 ts, tsLt buffer i off st = StepRes.cont off2 st2 ts ∧
      st2.lastBytes = st.lastBytes := by
  simp only [tsLt]
  split_ifs with h h2
  · exact ⟨_, _, _, rfl, rfl⟩
  · exact ⟨_, _, _, rfl, rfl⟩
  · exact tsTagWs_cont buffer i off st

theorem rawStep_cont (buffer : List Nat) (i off : Nat) (st : St) (pat : List Nat) :
    ∃ off2 st2 ts, rawStep buffer i off st pat = StepRes.cont off2 st2 ts ∧
      st2.lastBytes = st.lastBytes := by
  simp only [rawStep]
  split_ifs with h h2
  · exact ⟨_, _, _, rfl, rfl⟩
  · exact ⟨_, _, _, rfl, rfl⟩
  · exact ⟨_, _, _, rfl, rfl⟩

/-- Every step either continues with the window advanced by the current byte,
or defers at the last index of the buffer (also with the window advanced). -/
theorem step_window (buffer : List Nat) (i off : Nat) (st : St) :
    (∃ off2 st2 ts, step buffer i off st = StepRes.cont off2 st2 ts ∧
        st2.lastBytes = wpush st.lastBytes (buffer.getD i 0)) ∨
    (∃ st2, step buffer i off st = StepRes.defer st2 ∧ i = buffer.length - 1 ∧
        st2.lastBytes = wpush st.lastBytes (buffer.getD i 0)) := by
  cases hr : st.rawEndPattern with
  | some pat =>
      have he : step buffer i off st =
          rawStep buffer i off
            { st with lastBytes := wpush st.lastBytes (buffer.getD i 0) } pat := by
        simp only [step, hr]
      obtain ⟨o2, s2, ts, he2, hl⟩ := rawStep_cont buffer i off
        { st with lastBytes := wpush st.lastBytes (buffer.getD i 0) } pat
      exact Or.inl ⟨o2, s2, ts, he.trans he2, hl⟩
  | none =>
      have he : step buffer i off st =
          textStep buffer i off
            { st with lastBytes := wpush st.lastBytes (buffer.getD i 0) } := by
        simp only [step, hr]
      rw [he]
      unfold textStep
      split_ifs with h
      · exact Or.inr ⟨_, rfl, h.2.2, rfl⟩
      · obtain ⟨o2, s2, ts, he2, hl⟩ := tsLt_cont buffer i off
          { st with lastBytes := wpush st.lastBytes (buffer.getD i 0) }
        exact Or.inl ⟨o2, s2, ts, he2, hl⟩

theorem tailFlush_lastBytes (buffer : List Nat) (off : Nat) (st : St) :
    (tailFlush buffer off st).lastBytes = st.lastBytes := by
  unfold tailFlush
  split_ifs with h <;> rfl

theorem scanFuel_window_le (buffer : List Nat) :
    ∀ (fuel i off : Nat) (st : St) (out : List Token), st.lastBytes.length ≤ 9 →
      (scanFuel buffer fuel i off st out).1.lastBytes.length ≤ 9 := by
  intro fuel
  induction fuel with
  | zero =>
      intro i off st out h
      simp [scanFuel, tailFlush_lastBytes, h]
  | succ fuel ih =>
      intro i off st out h
      by_cases hi : i < buffer.length
      · rcases step_window buffer i off st with ⟨o2, s2, ts, he, hl⟩ | ⟨s2, he, hlast, hl⟩
        · simp only [scanFuel, if_pos hi, he]
          exact ih (i + 1) o2 s2 (out ++ ts) (by rw [hl]; exact wpush_length_le _ _ h)
        · simp only [scanFuel, if_pos hi, he]
          rw [hl]
          exact wpush_length_le _ _ h
      · simp [scanFuel, if_neg hi, tailFlush_lastBytes, h]

theorem scanFuel_window_exact (buffer : List Nat) :
    ∀ (fuel i off : Nat) (st : St) (out : List Token),
      buffer.length - i ≤ fuel → i ≤ buffer.length →
      st.lastBytes = lastN 9 (buffer.take i) →
      (scanFuel buffer fuel i off st out).1.lastBytes = lastN 9 buffer := by
  intro fuel
  induction fuel with
  | zero =>
      intro i off st out hfuel hi hlb
      have ht : buffer.take i = buffer := List.take_of_length_le (by omega)
      simp [scanFuel, tailFlush_lastBytes, hlb, ht]
  | succ fuel ih =>
      intro i off st out hfuel hi hlb
      by_cases hilt : i < buffer.length
      · have hnext : wpush st.lastBytes (buffer.getD i 0) = lastN 9 (buffer.take (i + 1)) := by
          rw [hlb, wpush_lastN, ← take_snoc_getD buffer i hilt]
        rcases step_window buffer i off st with ⟨o2, s2, ts, he, hl⟩ | ⟨s2, he, hlast, hl⟩
        · simp only [scanFuel, if_pos hilt, he]
          exact ih (i + 1) o2 s2 (out ++ ts) (by omega) (by omega) (hl.trans hnext)
        · simp only [scanFuel, if_pos hilt, he]
          rw [hl, hnext]
          have hlen1 : i + 1 = buffer.length := by omega
          rw [hlen1, List.take_length]
      · have ht : buffer.take i = buffer := List.take_of_length_le (by omega)
        simp [scanFuel, if_neg hilt, tailFlush_lastBytes, hlb, ht]

end MT

section WindowClaims

open MT

/-- C5 (amended): the `lastBytes` window never exceeds 9 entries across any
sequence of `process` calls, and within a single `process` call on a fresh
instance it holds exactly the last (up to 9) bytes of the chunk — it advances
by one entry per scanned byte; across chunk boundaries, a text-mode `<`
deferred at the end of a chunk is scanned again on resumption and therefore
enters the window twice (see the counterexample), so the advance is per
scanned byte, not per input byte.  The window is never reset. -/
theorem C5_amended_window_bound :
    (∀ chunks : List (List Nat), (runChunks chunks).1.lastBytes.length ≤ 9) ∧
    (∀ chunk : List Nat, (transform initSt chunk).1.lastBytes = lastN 9 chunk) := by
  constructor
  · intro chunks
    suffices h : ∀ (cs : List (List Nat)) (acc : St × List Token),
        acc.1.lastBytes.length ≤ 9 → (cs.foldl feed acc).1.lastBytes.length ≤ 9 by
      exact h chunks (initSt, []) (by simp [initSt])
    intro cs
    induction cs with
    | nil => intro acc h; exact h
    | cons c rest ih =>
        intro acc h
        apply ih
        have hh : (transform acc.1 c).1.lastBytes.length ≤ 9 := by
          unfold transform
          cases hpb : acc.1.pendingBuffer with
          | none => exact scanFuel_window_le _ _ _ _ _ _ h
          | some pb => exact scanFuel_window_le _ _ _ _ _ _ h
        simpa [feed] using hh
  · intro chunk
    have he : transform initSt chunk = scan chunk 0 0 initSt [] := by
      simp [transform, initSt]
    rw [he]
    exact scanFuel_window_exact chunk _ 0 0 initSt [] (by omega) (by omega)
      (by simp [initSt, lastN])

end WindowClaims

section C7Claim

open MT

/-- C7: a `<` byte whose immediately following byte is whitespace never causes
a transition out of text mode: the step emits nothing, defers nothing, keeps
`state = Text`, and leaves the pending segments, offset and raw terminator
unchanged (in raw mode no terminator can match at a `<` byte, since no
terminator pattern ends in `<`); in particular input `"2 < 3"` yields the
single token `("text", "2 < 3")`. -/
theorem C7_lt_whitespace_stays_text :
    (∀ (buffer : List Nat) (i off : Nat) (st : St),
      rawOK st → st.state = ParseState.text →
      buffer.getD i 0 = 60 → i + 1 < buffer.length →
      isWhitespace (buffer.getD (i + 1) 0) = true →
      staysInText off st (step buffer i off st)) ∧
    tokenize [strB "2 < 3"] = [(TokenKind.text, strB "2 < 3")] := by
  constructor
  · intro buffer i off st hraw hst hb hi1 hws
    cases hr : st.rawEndPattern with
    | some pat =>
        have hp5 : pat = COMMENT_END ∨ pat = CDATA_END ∨ pat = END_SCRIPT ∨
            pat = END_STYLE ∨ pat = END_TITLE := by
          rcases hraw with h' | h' | h' | h' | h' | h' <;> rw [hr] at h'
          · exact absurd h' (by simp)
          · injection h' with h2; exact Or.inl h2
          · injection h' with h2; exact Or.inr (Or.inl h2)
          · injection h' with h2; exact Or.inr (Or.inr (Or.inl h2))
          · injection h' with h2; exact Or.inr (Or.inr (Or.inr (Or.inl h2)))
          · injection h' with h2; exact Or.inr (Or.inr (Or.inr (Or.inr h2)))
        have hcmp : compareBuffers (wpush st.lastBytes (buffer.getD i 0)) pat = false := by
          rw [hb]
          rcases hp5 with rfl | rfl | rfl | rfl | rfl <;>
            exact compareBuffers_lt_false _ _ (by decide) (by decide)
        have he : step buffer i off st = StepRes.cont off
            { st with lastBytes := wpush st.lastBytes (buffer.getD i 0) } [] := by
          simp only [step, hr, rawStep, hcmp, Bool.false_eq_true, if_false]
        rw [he]
        exact ⟨rfl, rfl, hst, rfl, rfl⟩
    | none =>
        set stW : St := { st with lastBytes := wpush st.lastBytes (buffer.getD i 0) } with hstW
        have he : step buffer i off st = textStep buffer i off stW := by
          simp only [step, hr]
          rw [hstW, hr]
        rw [he]
        have e1 : textStep buffer i off stW = tsLt buffer i off stW := by
          simp only [textStep]
          rw [if_neg (by rintro ⟨-, -, hlast⟩; omega)]
        have e2 : tsLt buffer i off stW = tsTagWs buffer i off stW := by
          simp only [tsLt]
          rw [if_neg (by rintro ⟨-, -, hws2⟩; exact hws2 hws)]
        have e3 : tsTagWs buffer i off stW = tsAttrEq buffer i off stW := by
          simp only [tsTagWs]
          rw [if_neg (by rintro ⟨-, hwsb⟩; rw [hb] at hwsb; exact absurd hwsb (by decide))]
        have e4 : tsAttrEq buffer i off stW = tsBeforeValWs buffer i off stW := by
          simp only [tsAttrEq]
          rw [if_neg (by rintro ⟨-, he61⟩; rw [hb] at he61; exact absurd he61 (by decide))]
        have e5 : tsBeforeValWs buffer i off stW = tsBeforeVal buffer i off stW := by
          simp only [tsBeforeValWs]
          rw [if_neg (by rintro ⟨-, hwsb⟩; rw [hb] at hwsb; exact absurd hwsb (by decide))]
        rw [e1, e2, e3, e4, e5]
        by_cases htag : st.tagState = some TagState.beforeAttributeValue
        · simp only [tsBeforeVal]
          rw [if_pos ⟨htag, by rw [hb]; decide⟩]
          exact ⟨rfl, rfl, hst, rfl, rfl⟩
        · have e6 : tsBeforeVal buffer i off stW = tsValWs buffer i off stW := by
            simp only [tsBeforeVal]
            rw [if_neg (by rintro ⟨ht, -⟩; exact htag ht)]
          have e7 : tsValWs buffer i off stW = tsQuoteD buffer i off stW := by
            simp only [tsValWs]
            rw [if_neg (by rintro ⟨-, -, hwsb⟩; rw [hb] at hwsb; exact absurd hwsb (by decide))]
          have e8 : tsQuoteD buffer i off stW = tsQuoteS buffer i off stW := by
            simp only [tsQuoteD]
            rw [if_neg (by rintro ⟨-, -, h34⟩; rw [hb] at h34; exact absurd h34 (by decide))]
          have e9 : tsQuoteS buffer i off stW = tsGt buffer i off stW := by
            simp only [tsQuoteS]
            rw [if_neg (by rintro ⟨-, -, h39⟩; rw [hb] at h39; exact absurd h39 (by decide))]
          have hs2 : stW.state = ParseState.text := hst
          have e10 : tsGt buffer i off stW = tsComment buffer i off stW := by
            simp only [tsGt]
            rw [if_neg (by rintro ⟨-, h62, -⟩; rw [hb] at h62; exact absurd h62 (by decide))]
          have e11 : tsComment buffer i off stW = tsCData buffer i off stW := by
            simp only [tsComment]
            rw [if_neg (by rintro ⟨hop, -⟩; rw [hs2] at hop; exact absurd hop (by decide))]
          have e12 : tsCData buffer i off stW = tsFallback buffer i off stW := by
            simp only [tsCData]
            rw [if_neg (by rintro ⟨hop, -⟩; rw [hs2] at hop; exact absurd hop (by decide))]
          rw [e6, e7, e8, e9, e10, e11, e12]
          exact ⟨rfl, rfl, hst, rfl, rfl⟩
  · decide

theorem C7_witness :
    staysInText 0 initSt (step (strB "a< b") 1 0 initSt) :=
  C7_lt_whitespace_stays_text.1 (strB "a< b") 1 0 initSt (Or.inl rfl) rfl
    (by decide) (by decide) (by decide)

end C7Claim

section C9Claim

open MT MT0

theorem noText0_append {a b : List MT.Token} (ha : MT0.noText0 a) (hb : MT0.noText0 b) :
    MT0.noText0 (a ++ b) := by
  intro t ht
  rcases List.mem_append.mp ht with h | h
  · exact ha t h
  · exact hb t h

theorem pushState0_noText (ig : Bool) (ev : TokenKind) (bufs : List (List Nat))
    (hev : ev ≠ TokenKind.text) : MT0.noText0 (pushState0 ig ev bufs).2 := by
  intro t ht
  simp only [pushState0] at ht
  split_ifs at ht with h1 h2
  · exact absurd ht (by simp)
  · exact absurd ht (by simp)
  · simp only [List.mem_singleton] at ht
    rw [ht]
    exact hev

theorem handleTagClose_keep (buffer : List Nat) (off i : Nat) (st : St0) :
    (handleTagClose buffer off i st).1.ignoreText = st.ignoreText ∧
    MT0.noText0 (handleTagClose buffer off i st).2 := by
  simp only [handleTagClose]
  split_ifs <;> exact ⟨rfl, pushState0_noText _ _ _ (by decide)⟩

theorem tailFlush0_ig (buffer : List Nat) (off : Nat) (st : St0) :
    (tailFlush0 buffer off st).ignoreText = st.ignoreText := by
  simp only [tailFlush0]
  split_ifs <;> rfl

theorem os0Fallback_ok (buffer : List Nat) (i off : Nat) (st : St0)
    (hig : st.ignoreText = true) : res0OK (os0Fallback buffer i off st) :=
  ⟨hig, fun _ ht => absurd ht (by simp)⟩

theorem os0Q2_ok (buffer : List Nat) (i off : Nat) (st : St0)
    (hig : st.ignoreText = true) : res0OK (os0Q2 buffer i off st) := by
  simp only [os0Q2]
  split_ifs
  · exact ⟨hig, fun _ ht => absurd ht (by simp)⟩
  · exact os0Fallback_ok buffer i off st hig

theorem os0Q1_ok (buffer : List Nat) (i off : Nat) (st : St0)
    (hig : st.ignoreText = true) : res0OK (os0Q1 buffer i off st) := by
  simp only [os0Q1]
  split_ifs
  · exact ⟨hig, fun _ ht => absurd ht (by simp)⟩
  · exact os0Q2_ok buffer i off st hig

theorem os0T4Gt_ok (buffer : List Nat) (i off : Nat) (st : St0)
    (hig : st.ignoreText = true) : res0OK (os0T4Gt buffer i off st) := by
  simp only [os0T4Gt]
  split_ifs
  · exact ⟨(handleTagClose_keep buffer off i st).1.trans hig,
      (handleTagClose_keep buffer off i st).2⟩
  · exact os0Q1_ok buffer i off st hig

theorem os0T4Ws_ok (buffer : List Nat) (i off : Nat) (st : St0)
    (hig : st.ignoreText = true) : res0OK (os0T4Ws buffer i off st) := by
  simp only [os0T4Ws]
  split_ifs
  · exact ⟨hig, fun _ ht => absurd ht (by simp)⟩
  · exact os0T4Gt_ok buffer i off st hig

theorem os0T3Val_ok (buffer : List Nat) (i off : Nat) (st : St0)
    (hig : st.ignoreText = true) : res0OK (os0T3Val buffer i off st) := by
  simp only [os0T3Val]
  split_ifs
  · exact ⟨hig, fun _ ht => absurd ht (by simp)⟩
  · exact ⟨hig, fun _ ht => absurd ht (by simp)⟩
  · exact ⟨hig, fun _ ht => absurd ht (by simp)⟩
  · exact os0T4Ws_ok buffer i off st hig

theorem os0T3Gt_ok (buffer : List Nat) (i off : Nat) (st : St0)
    (hig : st.ignoreText = true) : res0OK (os0T3Gt buffer i off st) := by
  simp only [os0T3Gt]
  split_ifs
  · exact ⟨(handleTagClose_keep buffer off i st).1.trans hig,
      (handleTagClose_keep buffer off i st).2⟩
  · exact os0T3Val_ok buffer i off st hig

theorem os0T2Gt_ok (buffer : List Nat) (i off : Nat) (st : St0)
    (hig : st.ignoreText = true) : res0OK (os0T2Gt buffer i off st) := by
  simp only [os0T2Gt]
  split_ifs
  · exact ⟨(handleTagClose_keep buffer off i st).1.trans hig,
      (handleTagClose_keep buffer off i st).2⟩
  · exact os0T3Gt_ok buffer i off st hig

theorem os0T2Eq_ok (buffer : List Nat) (i off : Nat) (st : St0)
    (hig : st.ignoreText = true) : res0OK (os0T2Eq buffer i off st) := by
  simp only [os0T2Eq]
  split_ifs
  · exact ⟨hig, fun _ ht => absurd ht (by simp)⟩
  · exact os0T2Gt_ok buffer i off st hig

theorem os0T1Gt_ok (buffer : List Nat) (i off : Nat) (st : St0)
    (hig : st.ignoreText = true) : res0OK (os0T1Gt buffer i off st) := by
  simp only [os0T1Gt]
  split_ifs
  · exact ⟨(handleTagClose_keep buffer off i st).1.trans hig,
      (handleTagClose_keep buffer off i st).2⟩
  · exact os0T2Eq_ok buffer i off st hig

theorem os0T1Ws_ok (buffer : List Nat) (i off : Nat) (st : St0)
    (hig : st.ignoreText = true) : res0OK (os0T1Ws buffer i off st) := by
  simp only [os0T1Ws]
  split_ifs
  · exact ⟨hig, fun _ ht => absurd ht (by simp)⟩
  · exact os0T1Gt_ok buffer i off st hig

theorem os0Comment_ok (buffer : List Nat) (i off : Nat) (st : St0)
    (hig : st.ignoreText = true) : res0OK (os0Comment buffer i off st) := by
  simp only [os0Comment]
  split_ifs
  · exact ⟨hig, pushState0_noText _ _ _ (by decide)⟩
  · exact os0T1Ws_ok buffer i off st hig

theorem openStep0_ok (buffer : List Nat) (i off : Nat) (st : St0)
    (hig : st.ignoreText = true) : res0OK (openStep0 buffer i off st) := by
  simp only [openStep0]
  split_ifs
  · exact os0Comment_ok buffer i off st hig
  · exact ⟨hig, fun _ ht => absurd ht (by simp)⟩

theorem textStep0_ok (buffer : List Nat) (i off : Nat) (st : St0)
    (hig : st.ignoreText = true) : res0OK (textStep0 buffer i off st) := by
  simp only [textStep0, hig, Bool.true_eq_false, and_false, if_false]
  split_ifs
  · exact rfl
  · exact ⟨hig, fun _ ht => absurd ht (by simp)⟩
  · exact ⟨rfl, fun _ ht => absurd ht (by simp)⟩
  · exact ⟨hig, fun _ ht => absurd ht (by simp)⟩
  · exact openStep0_ok buffer i off st hig

theorem step0_ok (buffer : List Nat) (i off : Nat) (st : St0)
    (hig : st.ignoreText = true) : res0OK (step0 buffer i off st) := by
  cases hr : st.raw with
  | some pat =>
      have he : step0 buffer i off st =
          rawStep0 buffer i off
            { st with lastBytes := wpush st.lastBytes (buffer.getD i 0) } pat := by
        simp only [step0, hr]
      rw [he]
      set stW : St0 := { st with lastBytes := wpush st.lastBytes (buffer.getD i 0) } with hstW
      have higW : stW.ignoreText = true := hig
      simp only [rawStep0, higW, eq_self_iff_true, if_true]
      split_ifs
      · refine ⟨higW, fun t ht => ?_⟩
        simp only [List.nil_append, List.mem_singleton] at ht
        rw [ht]
        simp
      · exact ⟨higW, fun _ ht => absurd ht (by simp)⟩
      · exact ⟨higW, fun _ ht => absurd ht (by simp)⟩
  | none =>
      have he : step0 buffer i off st =
          textStep0 buffer i off
            { st with lastBytes := wpush st.lastBytes (buffer.getD i 0) } := by
        simp only [step0, hr]
      rw [he]
      exact textStep0_ok buffer i off _ hig

theorem scanFuel0_noText (buffer : List Nat) (fuel i off : Nat) (st : St0)
    (out : List MT.Token) (hig : st.ignoreText = true) (hout : MT0.noText0 out) :
    (scanFuel0 buffer fuel i off st out).1.ignoreText = true ∧
    MT0.noText0 (scanFuel0 buffer fuel i off st out).2 := by
  induction fuel generalizing i off st out with
  | zero => exact ⟨(tailFlush0_ig buffer off st).trans hig, hout⟩
  | succ fuel ih =>
      simp only [scanFuel0]
      split_ifs with hlen
      · have hs := step0_ok buffer i off st hig
        cases hstep : step0 buffer i off st with
        | defer st' =>
            rw [hstep] at hs
            exact ⟨hs, hout⟩
        | cont off' st' ts =>
            rw [hstep] at hs
            exact ih (i + 1) off' st' (out ++ ts) hs.1 (noText0_append hout hs.2)
      · exact ⟨(tailFlush0_ig buffer off st).trans hig, hout⟩

theorem transform0_noText (st : St0) (chunk : List Nat) (hig : st.ignoreText = true) :
    (transform0 st chunk).1.ignoreText = true ∧
    MT0.noText0 (transform0 st chunk).2 := by
  cases hp : st.prev with
  | some pb =>
      simp only [transform0, hp, scan0]
      exact scanFuel0_noText _ _ _ _ _ _ hig (by intro t ht; exact absurd ht (by simp))
  | none =>
      simp only [transform0, hp, scan0]
      exact scanFuel0_noText _ _ _ _ _ _ hig (by intro t ht; exact absurd ht (by simp))

theorem foldFeed0_noText (chunks : List (List Nat)) (acc : St0 × List MT.Token)
    (hig : acc.1.ignoreText = true) (hout : MT0.noText0 acc.2) :
    (chunks.foldl feed0 acc).1.ignoreText = true ∧
    MT0.noText0 (chunks.foldl feed0 acc).2 := by
  induction chunks generalizing acc with
  | nil => exact ⟨hig, hout⟩
  | cons c cs ih =>
      simp only [List.foldl_cons]
      have h := transform0_noText acc.1 c hig
      exact ih (feed0 acc c) h.1 (noText0_append hout h.2)

theorem flushTokens0_noText (st : St0) (hig : st.ignoreText = true) :
    MT0.noText0 (flushTokens0 st) := by
  simp only [flushTokens0]
  rw [if_neg (by rintro ⟨-, hf⟩; rw [hig] at hf; exact absurd hf (by decide))]
  intro t ht
  exact absurd ht (by simp)

/-- C9: on the `part_000` revision, constructing the tokenizer with
`ignoreText: true` suppresses text tokens entirely: for every chunk sequence,
no emitted token (including at `_flush`) has the text kind; in particular
`"<a>x</a>"` yields exactly the open token `"<a>"` and the close token
`"</a>"`. -/
theorem C9_ignoreText_no_text_tokens :
    (∀ (chunks : List (List Nat)) (t : MT.Token), t ∈ MT0.tokenize0 true chunks →
      t.1 ≠ MT.TokenKind.text) ∧
    MT0.tokenize0 true [MT.strB "<a>x</a>"] =
      [(MT.TokenKind.opn, MT.strB "<a>"), (MT.TokenKind.close, MT.strB "</a>")] := by
  constructor
  · intro chunks t ht
    simp only [MT0.tokenize0, MT0.runChunks0] at ht
    have h := foldFeed0_noText chunks (initSt0 true, []) rfl
      (by intro u hu; exact absurd hu (by simp))
    have hf := flushTokens0_noText (chunks.foldl feed0 (initSt0 true, [])).1 h.1
    rcases List.mem_append.mp ht with hm | hm
    · exact h.2 t hm
    · exact hf t hm
  · decide

theorem C9_witness :
    ((MT.TokenKind.opn, MT.strB "<a>") : MT.Token) ∈
        MT0.tokenize0 true [MT.strB "<a>x</a>"] ∧
      ((MT.TokenKind.opn, MT.strB "<a>") : MT.Token).1 ≠ MT.TokenKind.text :=
  ⟨by decide, C9_ignoreText_no_text_tokens.1 [MT.strB "<a>x</a>"] _ (by decide)⟩

end C9Claim

namespace MT

theorem wpush_snoc (l : List Nat) (x : Nat) : ∃ u, wpush l x = u ++ [x] := by
  unfold wpush
  split_ifs with h
  · have hl : 1 ≤ l.length := by
      simp only [List.length_append, List.length_cons, List.length_nil] at h
      omega
    exact ⟨l.drop 1, by rw [List.drop_append_of_le_length hl]⟩
  · exact ⟨l, rfl⟩

theorem wpush_eq_of_small {l : List Nat} (x : Nat) (h : l.length ≤ 8) :
    wpush l x = l ++ [x] := by
  unfold wpush
  rw [if_neg]
  simp only [List.length_append, List.length_cons, List.length_nil]
  omega

theorem wpush_eq_of_full {l : List Nat} (x : Nat) (h : l.length = 9) :
    wpush l x = l.drop 1 ++ [x] := by
  unfold wpush
  rw [if_pos, List.drop_append_of_le_length (by omega)]
  simp only [List.length_append, List.length_cons, List.length_nil]
  omega

theorem wrel_new60 (a b : List Nat) (ha : a.length ≤ 9) (hb : b.length ≤ 9) :
    WRel (wpush a 60) (wpush b 60) := by
  obtain ⟨ua, hua⟩ := wpush_snoc a 60
  obtain ⟨ub, hub⟩ := wpush_snoc b 60
  right
  exact ⟨ua, ub, [], hua, hub, wpush_length_le a 60 ha, wpush_length_le b 60 hb⟩

theorem wrel_push {a b : List Nat} (x : Nat) (h : WRel a b) :
    WRel (wpush a x) (wpush b x) := by
  rcases h with h | ⟨u1, u2, t, ha, hb, h9a, h9b⟩
  · left; rw [h]
  · subst ha; subst hb
    by_cases hfa : (u1 ++ 60 :: t).length = 9
    · by_cases hfb : (u2 ++ 60 :: t).length = 9
      · cases u1 with
        | nil =>
            have hu2 : u2 = [] := by
              simp only [List.length_append, List.length_cons, List.nil_append] at hfa hfb
              exact List.eq_nil_of_length_eq_zero (by omega)
            subst hu2
            left; rfl
        | cons y ys =>
            have hu2ne : u2 ≠ [] := by
              intro he
              subst he
              simp only [List.length_append, List.length_cons, List.nil_append,
                List.cons_append] at hfa hfb
              omega
            cases u2 with
            | nil => exact absurd rfl hu2ne
            | cons z zs =>
                right
                refine ⟨ys, zs, t ++ [x], ?_, ?_, wpush_length_le _ _ (le_of_eq hfa),
                  wpush_length_le _ _ (le_of_eq hfb)⟩
                · rw [wpush_eq_of_full x hfa]
                  simp [List.append_assoc]
                · rw [wpush_eq_of_full x hfb]
                  simp [List.append_assoc]
      · have hb8 : (u2 ++ 60 :: t).length ≤ 8 := by omega
        cases u1 with
        | nil =>
            exfalso
            simp only [List.length_append, List.length_cons, List.nil_append] at hfa hb8
            omega
        | cons y ys =>
            right
            refine ⟨ys, u2, t ++ [x], ?_, ?_, wpush_length_le _ _ (le_of_eq hfa),
              wpush_length_le _ _ h9b⟩
            · rw [wpush_eq_of_full x hfa]
              simp [List.append_assoc]
            · rw [wpush_eq_of_small x hb8]
              simp [List.append_assoc]
    · have ha8 : (u1 ++ 60 :: t).length ≤ 8 := by omega
      by_cases hfb : (u2 ++ 60 :: t).length = 9
      · cases u2 with
        | nil =>
            exfalso
            simp only [List.length_append, List.length_cons, List.nil_append] at hfb ha8
            omega
        | cons z zs =>
            right
            refine ⟨u1, zs, t ++ [x], ?_, ?_, wpush_length_le _ _ h9a,
              wpush_length_le _ _ (le_of_eq hfb)⟩
            · rw [wpush_eq_of_small x ha8]
              simp [List.append_assoc]
            · rw [wpush_eq_of_full x hfb]
              simp [List.append_assoc]
      · have hb8 : (u2 ++ 60 :: t).length ≤ 8 := by omega
        right
        refine ⟨u1, u2, t ++ [x], ?_, ?_, wpush_length_le _ _ h9a,
          wpush_length_le _ _ h9b⟩
        · rw [wpush_eq_of_small x ha8]
          simp [List.append_assoc]
        · rw [wpush_eq_of_small x hb8]
          simp [List.append_assoc]

end MT

namespace MT

theorem drop_region_suffix (u w : List Nat) (m : Nat) (hm : m ≤ w.length) :
    (u ++ w).drop ((u ++ w).length - m) = w.drop (w.length - m) := by
  have h : (u ++ w).length - m = u.length + (w.length - m) := by
    simp only [List.length_append]
    omega
  rw [h, List.drop_append]

theorem cb_suffix_eq (u1 u2 t : List Nat) (p : List Nat)
    (hlen : p.length ≤ t.length + 1) :
    compareBuffers (u1 ++ 60 :: t) p = compareBuffers (u2 ++ 60 :: t) p := by
  unfold compareBuffers
  rw [drop_region_suffix u1 (60 :: t) p.length (by simp only [List.length_cons]; omega),
    drop_region_suffix u2 (60 :: t) p.length (by simp only [List.length_cons]; omega)]
  have h1 : p.length ≤ (u1 ++ 60 :: t).length := by
    simp only [List.length_append, List.length_cons]
    omega
  have h2 : p.length ≤ (u2 ++ 60 :: t).length := by
    simp only [List.length_append, List.length_cons]
    omega
  rw [decide_eq_true h1, decide_eq_true h2]

theorem cb_marker_false (u t : List Nat) (p : List Nat)
    (hp : ∀ k, k < p.length → 0 < k → toLowerCase (p.getD k 0) ≠ 60)
    (hlen : t.length + 1 < p.length) :
    compareBuffers (u ++ 60 :: t) p = false := by
  rw [Bool.eq_false_iff]
  intro hcb
  unfold compareBuffers at hcb
  rw [Bool.and_eq_true, decide_eq_true_eq, beq_iff_eq] at hcb
  obtain ⟨h1, h2⟩ := hcb
  have hlu : (u ++ 60 :: t).length = u.length + t.length + 1 := by
    simp only [List.length_append, List.length_cons]
    omega
  have hk0pos : 0 < p.length - t.length - 1 := by omega
  have hk0lt : p.length - t.length - 1 < p.length := by omega
  have he1 : (((u ++ 60 :: t).drop ((u ++ 60 :: t).length - p.length)).map
        toLowerCase)[p.length - t.length - 1]? =
      (p.map toLowerCase)[p.length - t.length - 1]? := by rw [h2]
  rw [List.getElem?_map, List.getElem?_map, List.getElem?_drop] at he1
  have hidx : (u ++ 60 :: t).length - p.length + (p.length - t.length - 1) = u.length := by
    omega
  rw [hidx] at he1
  have hl60 : (u ++ 60 :: t)[u.length]? = some 60 := by
    rw [List.getElem?_append_right (le_refl u.length), Nat.sub_self,
      List.getElem?_cons_zero]
  rw [hl60, List.getElem?_eq_getElem hk0lt] at he1
  simp only [Option.map_some'] at he1
  injection he1 with he1
  have hgd : p.getD (p.length - t.length - 1) 0 = p[p.length - t.length - 1] :=
    List.getD_eq_getElem p 0 hk0lt
  exact hp _ hk0lt hk0pos (by rw [hgd, ← he1]; decide)

theorem cb_agree {a b : List Nat} (h : WRel a b) {p : List Nat}
    (hp : p ∈ RAWPATS) : compareBuffers a p = compareBuffers b p := by
  rcases h with h | ⟨u1, u2, t, ha, hb, -, -⟩
  · rw [h]
  · subst ha; subst hb
    by_cases hl : p.length ≤ t.length + 1
    · exact cb_suffix_eq u1 u2 t p hl
    · have hp60 : ∀ k, k < p.length → 0 < k → toLowerCase (p.getD k 0) ≠ 60 := by
        simp only [RAWPATS, List.mem_cons, List.mem_nil_iff, or_false] at hp
        rcases hp with rfl | rfl | rfl | rfl | rfl | rfl | rfl <;> decide
      rw [cb_marker_false u1 t p hp60 (by omega), cb_marker_false u2 t p hp60 (by omega)]

end MT

namespace MT

theorem getByteAt_flatten (bufs : List (List Nat)) (idx : Nat) :
    getByteAt bufs idx = bufs.flatten[idx]? := by
  induction bufs generalizing idx with
  | nil => simp [getByteAt]
  | cons seg rest ih =>
      rw [List.flatten_cons]
      show (if idx < seg.length then seg[idx]? else getByteAt rest (idx - seg.length)) = _
      split_ifs with h
      · rw [List.getElem?_append, if_pos h]
      · rw [ih, List.getElem?_append_right (by omega)]

theorem takeWhile_len_eq_iff (p : Nat → Bool) (l : List Nat) :
    (l.takeWhile p).length = l.length ↔ l.takeWhile p = l :=
  ⟨fun h => (List.takeWhile_prefix p).eq_of_length h, fun h => by rw [h]⟩

theorem takeWhile_append_flat (p : Nat → Bool) (l1 l2 : List Nat) :
    (l1 ++ l2).takeWhile p =
      if l1.takeWhile p = l1 then l1 ++ l2.takeWhile p else l1.takeWhile p := by
  induction l1 with
  | nil => simp
  | cons x xs ih =>
      simp only [List.cons_append, List.takeWhile_cons]
      by_cases hx : p x = true
      · simp only [hx, eq_self_iff_true, if_true, ih]
        by_cases h : xs.takeWhile p = xs
        · rw [if_pos h, if_pos (by rw [h])]
        · rw [if_neg h, if_neg (by simp [h])]
      · have hx2 : p x = false := by
          cases hpx : p x
          · rfl
          · exact absurd hpx hx
        simp only [hx2, Bool.false_eq_true, if_false]
        rw [if_neg (by simp)]

theorem tagScan_false_flat (bufs : List (List Nat)) :
    tagScan false bufs = bufs.flatten.takeWhile isTagNameByte := by
  induction bufs with
  | nil => rfl
  | cons seg rest ih =>
      have he : tagScan false (seg :: rest) =
          if (seg.takeWhile isTagNameByte).length = seg.length then
            seg.takeWhile isTagNameByte ++ tagScan false rest
          else seg.takeWhile isTagNameByte := by
        simp [tagScan]
      rw [he, List.flatten_cons, takeWhile_append_flat]
      by_cases h : seg.takeWhile isTagNameByte = seg
      · rw [if_pos ((takeWhile_len_eq_iff _ _).mpr h), if_pos h, ih, h]
      · rw [if_neg (fun hc => h ((takeWhile_len_eq_iff _ _).mp hc)), if_neg h]

theorem tagScan_true_flat (seg : List Nat) (rest : List (List Nat)) (hne : seg ≠ []) :
    tagScan true (seg :: rest) =
      ((seg :: rest).flatten.drop 1).takeWhile isTagNameByte := by
  have he : tagScan true (seg :: rest) =
      if ((seg.drop 1).takeWhile isTagNameByte).length = (seg.drop 1).length then
        (seg.drop 1).takeWhile isTagNameByte ++ tagScan false rest
      else (seg.drop 1).takeWhile isTagNameByte := by
    simp [tagScan, hne]
  have hlen : 1 ≤ seg.length := by
    cases seg with
    | nil => exact absurd rfl hne
    | cons a l => simp
  rw [he, List.flatten_cons, List.drop_append_of_le_length hlen,
    takeWhile_append_flat, tagScan_false_flat]
  by_cases h : (seg.drop 1).takeWhile isTagNameByte = seg.drop 1
  · rw [if_pos ((takeWhile_len_eq_iff _ _).mpr h), if_pos h, h]
  · rw [if_neg (fun hc => h ((takeWhile_len_eq_iff _ _).mp hc)), if_neg h]

theorem getTagName_flat (bufs : List (List Nat)) (h : ∀ seg ∈ bufs, seg ≠ [])
    (hb : bufs ≠ []) :
    getTagName bufs =
      ((bufs.flatten.drop 1).takeWhile isTagNameByte).map toLowerCase := by
  cases bufs with
  | nil => exact absurd rfl hb
  | cons seg rest =>
      unfold getTagName
      rw [tagScan_true_flat seg rest (h seg (List.mem_cons_self seg rest))]

theorem flatten_nil_of_segs {bufs : List (List Nat)} (h : ∀ seg ∈ bufs, seg ≠ []) :
    bufs.flatten = [] ↔ bufs = [] := by
  cases bufs with
  | nil => simp
  | cons seg rest =>
      simp only [List.flatten_cons]
      constructor
      · intro he
        rcases List.append_eq_nil.mp he with ⟨h1, -⟩
        exact absurd h1 (h seg (List.mem_cons_self seg rest))
      · intro he
        exact absurd he (by simp)

theorem sub_snoc (l : List Nat) (a j : Nat) (ha : a ≤ j) (hj : j < l.length) :
    sub l a (j + 1) = sub l a j ++ [l.getD j 0] := by
  unfold sub
  have h1 : j + 1 - a = (j - a) + 1 := by omega
  rw [h1, take_snoc_getD _ _ (by simp only [List.length_drop]; omega)]
  have h2 : (l.drop a).getD (j - a) 0 = l.getD j 0 := by
    rw [List.getD_eq_getElem?_getD, List.getD_eq_getElem?_getD, List.getElem?_drop]
    congr 2
    omega
  rw [h2]

theorem sub_self_nil (l : List Nat) (a : Nat) : sub l a a = [] := by
  simp [sub]

end MT

namespace MT

theorem pushState_ne (k : TokenKind) (bufs : List (List Nat)) (h : bufs ≠ []) :
    pushState k bufs = ([], [(k, bufs.flatten)]) := by
  unfold pushState
  rw [if_neg h]

theorem rawOK_of_pattern {st : St} {n : List Nat}
    (h : st.rawEndPattern = rawTagPattern n) : rawOK st := by
  rcases rawTagPattern_cases n with h2 | h2 | h2 | h2
  · exact Or.inl (h.trans h2)
  · exact Or.inr (Or.inr (Or.inr (Or.inl (h.trans h2))))
  · exact Or.inr (Or.inr (Or.inr (Or.inr (Or.inl (h.trans h2)))))
  · exact Or.inr (Or.inr (Or.inr (Or.inr (Or.inr (h.trans h2)))))

theorem agree_fallback (bufC : List Nat) (iC offC : Nat) (input : List Nat)
    (j offS : Nat) (c s : St) (H : AgreeHyp bufC iC offC input j offS c s) :
    ARes iC offC j offS c s (tsFallback bufC iC offC c) (tsFallback input j offS s) := by
  obtain ⟨h1, h2, h3, h4, h5, hW, hsc, hss, hrawS, hbyte, hcomb, hoc, hos, hic, hjn⟩ := id H
  exact ⟨c, s, [], Or.inl ⟨rfl, rfl, rfl, rfl⟩, h1, h2, h3, h4, h5, rfl, rfl⟩

theorem agree_cdata (bufC : List Nat) (iC offC : Nat) (input : List Nat)
    (j offS : Nat) (c s : St) (H : AgreeHyp bufC iC offC input j offS c s) :
    ARes iC offC j offS c s (tsCData bufC iC offC c) (tsCData input j offS s) := by
  obtain ⟨h1, h2, h3, h4, h5, hW, hsc, hss, hrawS, hbyte, hcomb, hoc, hos, hic, hjn⟩ := id H
  have hcb := cb_agree hW (p := CDATA_START) (by decide)
  unfold tsCData
  by_cases hg : s.state = ParseState.opn ∧ compareBuffers s.lastBytes CDATA_START = true
  · rw [if_pos hg, if_pos (by rw [h1, hcb]; exact hg)]
    have hBneC : c.buffers ++ [sub bufC offC (iC + 1)] ≠ [] := by simp
    have hBneS : s.buffers ++ [sub input offS (j + 1)] ≠ [] := by simp
    have hFlat : (c.buffers ++ [sub bufC offC (iC + 1)]).flatten =
        (s.buffers ++ [sub input offS (j + 1)]).flatten := by
      rw [flatten_snoc, flatten_snoc, hcomb]
    rw [pushState_ne _ _ hBneC, pushState_ne _ _ hBneS]
    refine ⟨{ c with state := ParseState.text, rawEndPattern := some CDATA_END, buffers := [] },
      { s with state := ParseState.text, rawEndPattern := some CDATA_END, buffers := [] },
      [(TokenKind.opn, (c.buffers ++ [sub bufC offC (iC + 1)]).flatten)],
      Or.inr ⟨rfl, ?_, rfl⟩, rfl, h2, h3, rfl, h5, rfl, rfl⟩
    rw [hFlat]
  · rw [if_neg hg, if_neg (by rw [h1, hcb]; exact hg)]
    exact agree_fallback bufC iC offC input j offS c s H

theorem agree_comment (bufC : List Nat) (iC offC : Nat) (input : List Nat)
    (j offS : Nat) (c s : St) (H : AgreeHyp bufC iC offC input j offS c s) :
    ARes iC offC j offS c s (tsComment bufC iC offC c) (tsComment input j offS s) := by
  obtain ⟨h1, h2, h3, h4, h5, hW, hsc, hss, hrawS, hbyte, hcomb, hoc, hos, hic, hjn⟩ := id H
  have hcb := cb_agree hW (p := COMMENT_START) (by decide)
  unfold tsComment
  by_cases hg : s.state = ParseState.opn ∧ compareBuffers s.lastBytes COMMENT_START = true
  · rw [if_pos hg, if_pos (by rw [h1, hcb]; exact hg)]
    have hBneC : c.buffers ++ [sub bufC offC (iC + 1)] ≠ [] := by simp
    have hBneS : s.buffers ++ [sub input offS (j + 1)] ≠ [] := by simp
    have hFlat : (c.buffers ++ [sub bufC offC (iC + 1)]).flatten =
        (s.buffers ++ [sub input offS (j + 1)]).flatten := by
      rw [flatten_snoc, flatten_snoc, hcomb]
    rw [pushState_ne _ _ hBneC, pushState_ne _ _ hBneS]
    refine ⟨{ c with state := ParseState.text, rawEndPattern := some COMMENT_END, buffers := [] },
      { s with state := ParseState.text, rawEndPattern := some COMMENT_END, buffers := [] },
      [(TokenKind.opn, (c.buffers ++ [sub bufC offC (iC + 1)]).flatten)],
      Or.inr ⟨rfl, ?_, rfl⟩, rfl, h2, h3, rfl, h5, rfl, rfl⟩
    rw [hFlat]
  · rw [if_neg hg, if_neg (by rw [h1, hcb]; exact hg)]
    exact agree_cdata bufC iC offC input j offS c s H

theorem agree_gt (bufC : List Nat) (iC offC : Nat) (input : List Nat)
    (j offS : Nat) (c s : St) (H : AgreeHyp bufC iC offC input j offS c s) :
    ARes iC offC j offS c s (tsGt bufC iC offC c) (tsGt input j offS s) := by
  obtain ⟨h1, h2, h3, h4, h5, hW, hsc, hss, hrawS, hbyte, hcomb, hoc, hos, hic, hjn⟩ := id H
  unfold tsGt
  by_cases hg : s.state = ParseState.opn ∧ input.getD j 0 = 62 ∧
      s.quoteState = QuoteState.noQuote
  · rw [if_pos hg, if_pos (by rw [h1, h3, hbyte]; exact hg)]
    have hBneC : c.buffers ++ [sub bufC offC (iC + 1)] ≠ [] := by simp
    have hBneS : s.buffers ++ [sub input offS (j + 1)] ≠ [] := by simp
    have hFlat : (c.buffers ++ [sub bufC offC (iC + 1)]).flatten =
        (s.buffers ++ [sub input offS (j + 1)]).flatten := by
      rw [flatten_snoc, flatten_snoc, hcomb]
    have hsegC : ∀ seg ∈ c.buffers ++ [sub bufC offC (iC + 1)], seg ≠ [] := by
      intro seg hseg
      rcases List.mem_append.mp hseg with h6 | h6
      · exact hsc seg h6
      · simp only [List.mem_singleton] at h6
        subst h6
        exact sub_ne_nil (by omega) (by omega)
    have hsegS : ∀ seg ∈ s.buffers ++ [sub input offS (j + 1)], seg ≠ [] := by
      intro seg hseg
      rcases List.mem_append.mp hseg with h6 | h6
      · exact hss seg h6
      · simp only [List.mem_singleton] at h6
        subst h6
        exact sub_ne_nil (by omega) (by omega)
    have hByte1 : getByteAt (c.buffers ++ [sub bufC offC (iC + 1)]) 1 =
        getByteAt (s.buffers ++ [sub input offS (j + 1)]) 1 := by
      rw [getByteAt_flatten, getByteAt_flatten, hFlat]
    have hTag : getTagName (c.buffers ++ [sub bufC offC (iC + 1)]) =
        getTagName (s.buffers ++ [sub input offS (j + 1)]) := by
      rw [getTagName_flat _ hsegC hBneC, getTagName_flat _ hsegS hBneS, hFlat]
    by_cases hfr : s.fromRawMode = true
    · rw [if_pos hfr, if_pos (by rw [h5]; exact hfr)]
      rw [pushState_ne _ _ hBneC, pushState_ne _ _ hBneS]
      refine ⟨{ c with state := ParseState.text, tagState := none, fromRawMode := false, buffers := [] },
        { s with state := ParseState.text, tagState := none, fromRawMode := false, buffers := [] },
        [(TokenKind.close, (c.buffers ++ [sub bufC offC (iC + 1)]).flatten)],
        Or.inr ⟨rfl, ?_, rfl⟩, rfl, rfl, h3, h4, rfl, rfl, rfl⟩
      rw [hFlat]
    · rw [if_neg hfr, if_neg (by rw [h5]; exact hfr)]
      by_cases h47 : getByteAt (s.buffers ++ [sub input offS (j + 1)]) 1 = some 47
      · rw [if_pos h47, if_pos (by rw [hByte1]; exact h47)]
        rw [pushState_ne _ _ hBneC, pushState_ne _ _ hBneS]
        refine ⟨{ c with state := ParseState.text, tagState := none, buffers := [] },
          { s with state := ParseState.text, tagState := none, buffers := [] },
          [(TokenKind.close, (c.buffers ++ [sub bufC offC (iC + 1)]).flatten)],
          Or.inr ⟨rfl, ?_, rfl⟩, rfl, rfl, h3, h4, h5, rfl, rfl⟩
        rw [hFlat]
      · rw [if_neg h47, if_neg (by rw [hByte1]; exact h47)]
        rw [pushState_ne _ _ hBneC, pushState_ne _ _ hBneS]
        refine ⟨{ c with state := ParseState.text, tagState := none, rawEndPattern := rawTagPattern (getTagName (c.buffers ++ [sub bufC offC (iC + 1)])), buffers := [] },
          { s with state := ParseState.text, tagState := none, rawEndPattern := rawTagPattern (getTagName (s.buffers ++ [sub input offS (j + 1)])), buffers := [] },
          [(TokenKind.opn, (c.buffers ++ [sub bufC offC (iC + 1)]).flatten)],
          Or.inr ⟨rfl, ?_, rfl⟩, rfl, rfl, h3, ?_, h5, rfl, rfl⟩
        · rw [hFlat]
        · rw [hTag]
  · rw [if_neg hg, if_neg (by rw [h1, h3, hbyte]; exact hg)]
    exact agree_comment bufC iC offC input j offS c s H

theorem agree_quoteS (bufC : List Nat) (iC offC : Nat) (input : List Nat)
    (j offS : Nat) (c s : St) (H : AgreeHyp bufC iC offC input j offS c s) :
    ARes iC offC j offS c s (tsQuoteS bufC iC offC c) (tsQuoteS input j offS s) := by
  obtain ⟨h1, h2, h3, h4, h5, hW, hsc, hss, hrawS, hbyte, hcomb, hoc, hos, hic, hjn⟩ := id H
  unfold tsQuoteS
  by_cases hg : s.tagState = some TagState.attributeValue ∧
      s.quoteState = QuoteState.single ∧ input.getD j 0 = 39
  · rw [if_pos hg, if_pos (by rw [h2, h3, hbyte]; exact hg)]
    exact ⟨{ c with quoteState := QuoteState.noQuote, tagState := some TagState.attributeName },
      { s with quoteState := QuoteState.noQuote, tagState := some TagState.attributeName },
      [], Or.inl ⟨rfl, rfl, rfl, rfl⟩, h1, rfl, rfl, h4, h5, rfl, rfl⟩
  · rw [if_neg hg, if_neg (by rw [h2, h3, hbyte]; exact hg)]
    exact agree_gt bufC iC offC input j offS c s H

theorem agree_quoteD (bufC : List Nat) (iC offC : Nat) (input : List Nat)
    (j offS : Nat) (c s : St) (H : AgreeHyp bufC iC offC input j offS c s) :
    ARes iC offC j offS c s (tsQuoteD bufC iC offC c) (tsQuoteD input j offS s) := by
  obtain ⟨h1, h2, h3, h4, h5, hW, hsc, hss, hrawS, hbyte, hcomb, hoc, hos, hic, hjn⟩ := id H
  unfold tsQuoteD
  by_cases hg : s.tagState = some TagState.attributeValue ∧
      s.quoteState = QuoteState.double ∧ input.getD j 0 = 34
  · rw [if_pos hg, if_pos (by rw [h2, h3, hbyte]; exact hg)]
    exact ⟨{ c with quoteState := QuoteState.noQuote, tagState := some TagState.attributeName },
      { s with quoteState := QuoteState.noQuote, tagState := some TagState.attributeName },
      [], Or.inl ⟨rfl, rfl, rfl, rfl⟩, h1, rfl, rfl, h4, h5, rfl, rfl⟩
  · rw [if_neg hg, if_neg (by rw [h2, h3, hbyte]; exact hg)]
    exact agree_quoteS bufC iC offC input j offS c s H

theorem agree_valWs (bufC : List Nat) (iC offC : Nat) (input : List Nat)
    (j offS : Nat) (c s : St) (H : AgreeHyp bufC iC offC input j offS c s) :
    ARes iC offC j offS c s (tsValWs bufC iC offC c) (tsValWs input j offS s) := by
  obtain ⟨h1, h2, h3, h4, h5, hW, hsc, hss, hrawS, hbyte, hcomb, hoc, hos, hic, hjn⟩ := id H
  unfold tsValWs
  by_cases hg : s.tagState = some TagState.attributeValue ∧
      s.quoteState = QuoteState.noQuote ∧ isWhitespace (input.getD j 0) = true
  · rw [if_pos hg, if_pos (by rw [h2, h3, hbyte]; exact hg)]
    exact ⟨{ c with tagState := some TagState.attributeName },
      { s with tagState := some TagState.attributeName },
      [], Or.inl ⟨rfl, rfl, rfl, rfl⟩, h1, rfl, h3, h4, h5, rfl, rfl⟩
  · rw [if_neg hg, if_neg (by rw [h2, h3, hbyte]; exact hg)]
    exact agree_quoteD bufC iC offC input j offS c s H

theorem agree_beforeVal (bufC : List Nat) (iC offC : Nat) (input : List Nat)
    (j offS : Nat) (c s : St) (H : AgreeHyp bufC iC offC input j offS c s) :
    ARes iC offC j offS c s (tsBeforeVal bufC iC offC c) (tsBeforeVal input j offS s) := by
  obtain ⟨h1, h2, h3, h4, h5, hW, hsc, hss, hrawS, hbyte, hcomb, hoc, hos, hic, hjn⟩ := id H
  unfold tsBeforeVal
  by_cases hg : s.tagState = some TagState.beforeAttributeValue ∧ input.getD j 0 ≠ 62
  · rw [if_pos hg, if_pos (by rw [h2, hbyte]; exact hg)]
    refine ⟨{ c with tagState := some TagState.attributeValue, quoteState := if bufC.getD iC 0 = 34 then QuoteState.double else if bufC.getD iC 0 = 39 then QuoteState.single else QuoteState.noQuote },
      { s with tagState := some TagState.attributeValue, quoteState := if input.getD j 0 = 34 then QuoteState.double else if input.getD j 0 = 39 then QuoteState.single else QuoteState.noQuote },
      [], Or.inl ⟨rfl, rfl, rfl, rfl⟩, h1, rfl, ?_, h4, h5, rfl, rfl⟩
    rw [hbyte]
  · rw [if_neg hg, if_neg (by rw [h2, hbyte]; exact hg)]
    exact agree_valWs bufC iC offC input j offS c s H

theorem agree_beforeValWs (bufC : List Nat) (iC offC : Nat) (input : List Nat)
    (j offS : Nat) (c s : St) (H : AgreeHyp bufC iC offC input j offS c s) :
    ARes iC offC j offS c s (tsBeforeValWs bufC iC offC c) (tsBeforeValWs input j offS s) := by
  obtain ⟨h1, h2, h3, h4, h5, hW, hsc, hss, hrawS, hbyte, hcomb, hoc, hos, hic, hjn⟩ := id H
  unfold tsBeforeValWs
  by_cases hg : s.tagState = some TagState.beforeAttributeValue ∧
      isWhitespace (input.getD j 0) = true
  · rw [if_pos hg, if_pos (by rw [h2, hbyte]; exact hg)]
    exact ⟨c, s, [], Or.inl ⟨rfl, rfl, rfl, rfl⟩, h1, h2, h3, h4, h5, rfl, rfl⟩
  · rw [if_neg hg, if_neg (by rw [h2, hbyte]; exact hg)]
    exact agree_beforeVal bufC iC offC input j offS c s H

theorem agree_attrEq (bufC : List Nat) (iC offC : Nat) (input : List Nat)
    (j offS : Nat) (c s : St) (H : AgreeHyp bufC iC offC input j offS c s) :
    ARes iC offC j offS c s (tsAttrEq bufC iC offC c) (tsAttrEq input j offS s) := by
  obtain ⟨h1, h2, h3, h4, h5, hW, hsc, hss, hrawS, hbyte, hcomb, hoc, hos, hic, hjn⟩ := id H
  unfold tsAttrEq
  by_cases hg : s.tagState = some TagState.attributeName ∧ input.getD j 0 = 61
  · rw [if_pos hg, if_pos (by rw [h2, hbyte]; exact hg)]
    exact ⟨{ c with tagState := some TagState.beforeAttributeValue },
      { s with tagState := some TagState.beforeAttributeValue },
      [], Or.inl ⟨rfl, rfl, rfl, rfl⟩, h1, rfl, h3, h4, h5, rfl, rfl⟩
  · rw [if_neg hg, if_neg (by rw [h2, hbyte]; exact hg)]
    exact agree_beforeValWs bufC iC offC input j offS c s H

theorem agree_tagWs (bufC : List Nat) (iC offC : Nat) (input : List Nat)
    (j offS : Nat) (c s : St) (H : AgreeHyp bufC iC offC input j offS c s) :
    ARes iC offC j offS c s (tsTagWs bufC iC offC c) (tsTagWs input j offS s) := by
  obtain ⟨h1, h2, h3, h4, h5, hW, hsc, hss, hrawS, hbyte, hcomb, hoc, hos, hic, hjn⟩ := id H
  unfold tsTagWs
  by_cases hg : s.tagState = some TagState.tagName ∧ isWhitespace (input.getD j 0) = true
  · rw [if_pos hg, if_pos (by rw [h2, hbyte]; exact hg)]
    exact ⟨{ c with tagState := some TagState.attributeName },
      { s with tagState := some TagState.attributeName },
      [], Or.inl ⟨rfl, rfl, rfl, rfl⟩, h1, rfl, h3, h4, h5, rfl, rfl⟩
  · rw [if_neg hg, if_neg (by rw [h2, hbyte]; exact hg)]
    exact agree_attrEq bufC iC offC input j offS c s H

theorem agree_raw (bufC : List Nat) (iC offC : Nat) (input : List Nat)
    (j offS : Nat) (c s : St) (pat : List Nat) (hpat : pat ∈ RAWPATS)
    (H : AgreeHyp bufC iC offC input j offS c s) :
    ARes iC offC j offS c s (rawStep bufC iC offC c pat) (rawStep input j offS s pat) := by
  obtain ⟨h1, h2, h3, h4, h5, hW, hsc, hss, hrawS, hbyte, hcomb, hoc, hos, hic, hjn⟩ := id H
  have hcb := cb_agree hW hpat
  unfold rawStep
  by_cases hfire : compareBuffers s.lastBytes pat = true
  · rw [if_pos hfire, if_pos (by rw [hcb]; exact hfire)]
    have hFlat : (c.buffers ++ [sub bufC offC (iC + 1)]).flatten =
        (s.buffers ++ [sub input offS (j + 1)]).flatten := by
      rw [flatten_snoc, flatten_snoc, hcomb]
    by_cases hpe : pat = COMMENT_END ∨ pat = CDATA_END
    · rw [if_pos hpe, if_pos hpe]
      refine ⟨{ c with state := ParseState.text, buffers := [], rawEndPattern := none },
        { s with state := ParseState.text, buffers := [], rawEndPattern := none },
        [(TokenKind.text, jsSub (c.buffers ++ [sub bufC offC (iC + 1)]).flatten 0
            (((c.buffers ++ [sub bufC offC (iC + 1)]).flatten.length : Int) - (pat.length : Int))),
          (TokenKind.close, jsSub (c.buffers ++ [sub bufC offC (iC + 1)]).flatten
            (((c.buffers ++ [sub bufC offC (iC + 1)]).flatten.length : Int) - (pat.length : Int))
            ((c.buffers ++ [sub bufC offC (iC + 1)]).flatten.length : Int))],
        Or.inr ⟨rfl, ?_, rfl⟩, rfl, h2, h3, rfl, h5, rfl, rfl⟩
      rw [hFlat]
    · rw [if_neg hpe, if_neg hpe]
      refine ⟨{ c with state := ParseState.opn, buffers := [jsSub (c.buffers ++ [sub bufC offC (iC + 1)]).flatten (((c.buffers ++ [sub bufC offC (iC + 1)]).flatten.length : Int) - (pat.length : Int)) ((c.buffers ++ [sub bufC offC (iC + 1)]).flatten.length : Int)], fromRawMode := true, rawEndPattern := none },
        { s with state := ParseState.opn, buffers := [jsSub (s.buffers ++ [sub input offS (j + 1)]).flatten (((s.buffers ++ [sub input offS (j + 1)]).flatten.length : Int) - (pat.length : Int)) ((s.buffers ++ [sub input offS (j + 1)]).flatten.length : Int)], fromRawMode := true, rawEndPattern := none },
        [(TokenKind.text, jsSub (c.buffers ++ [sub bufC offC (iC + 1)]).flatten 0
            (((c.buffers ++ [sub bufC offC (iC + 1)]).flatten.length : Int) - (pat.length : Int)))],
        Or.inr ⟨rfl, ?_, ?_⟩, rfl, h2, h3, rfl, rfl, rfl, rfl⟩
      · rw [hFlat]
      · rw [hFlat]
  · rw [if_neg hfire, if_neg (by rw [hcb]; exact hfire)]
    exact ⟨c, s, [], Or.inl ⟨rfl, rfl, rfl, rfl⟩, h1, h2, h3, h4, h5, rfl, rfl⟩

end MT

namespace MT

theorem ws_ne_60 {b : Nat} (h : isWhitespace b = true) : b ≠ 60 := by
  intro hb
  subst hb
  exact absurd h (by decide)

theorem tailFlush_app (buffer : List Nat) (off : Nat) (st : St)
    (h : off < buffer.length) :
    tailFlush buffer off st = { st with buffers := st.buffers ++ [sub buffer off buffer.length] } := by
  unfold tailFlush
  rw [if_pos h]

theorem tailFlush_id (buffer : List Nat) (off : Nat) (st : St)
    (h : ¬ off < buffer.length) : tailFlush buffer off st = st := by
  unfold tailFlush
  rw [if_neg h]

theorem tailFlush_pend (buffer : List Nat) (off : Nat) (st : St) :
    (tailFlush buffer off st).pendingBuffer = st.pendingBuffer := by
  unfold tailFlush
  split_ifs <;> rfl

theorem textStep_to_tagWs (buffer : List Nat) (i off : Nat) (st : St)
    (h : ¬(st.state = ParseState.text ∧ buffer.getD i 0 = 60)) :
    textStep buffer i off st = tsTagWs buffer i off st := by
  unfold textStep tsLt
  rw [if_neg (fun hc => h ⟨hc.1, hc.2.1⟩), if_neg (fun hc => h ⟨hc.1, hc.2.1⟩)]

theorem step_defer_facts (buffer : List Nat) (i off : Nat) (st : St) (st2 : St)
    (h : step buffer i off st = StepRes.defer st2) :
    i = buffer.length - 1 ∧ st2.pendingBuffer = some buffer ∧
      st.rawEndPattern = none ∧ st.state = ParseState.text ∧
      buffer.getD i 0 = 60 := by
  cases hr : st.rawEndPattern with
  | some pat =>
      have he : step buffer i off st =
          rawStep buffer i off
            { st with lastBytes := wpush st.lastBytes (buffer.getD i 0) } pat := by
        simp only [step, hr]
      obtain ⟨o2, s2, t2, hc, -⟩ := rawStep_cont buffer i off _ pat
      rw [he, hc] at h
      exact absurd h (by simp)
  | none =>
      have he : step buffer i off st =
          textStep buffer i off
            { st with lastBytes := wpush st.lastBytes (buffer.getD i 0) } := by
        simp only [step, hr]
      rw [he] at h
      unfold textStep at h
      split_ifs at h with hguard
      · injection h with h2
        subst h2
        exact ⟨hguard.2.2, rfl, rfl, hguard.1, hguard.2.1⟩
      · obtain ⟨o2, s2, t2, hc, -⟩ := tsLt_cont buffer i off _
        rw [hc] at h
        exact absurd h (by simp)

theorem step_defer_eq (buffer : List Nat) (i off : Nat) (st : St)
    (hr : st.rawEndPattern = none) (hst : st.state = ParseState.text)
    (hb : buffer.getD i 0 = 60) (hi : i = buffer.length - 1) :
    step buffer i off st = StepRes.defer { st with lastBytes := wpush st.lastBytes (buffer.getD i 0), pendingBuffer := some buffer, pendingOffset := off } := by
  have he : step buffer i off st =
      textStep buffer i off
        { st with lastBytes := wpush st.lastBytes (buffer.getD i 0) } := by
    simp only [step, hr]
  rw [he]
  unfold textStep
  rw [if_pos ⟨hst, hb, hi⟩]

theorem cfgStep_eval (buffer : List Nat) (i : Nat) (cfg : Nat × St × List Token) :
    cfgStep buffer i cfg =
      match step buffer i cfg.1 cfg.2.1 with
      | .defer _ => cfg
      | .cont off2 st2 ts => (off2, st2, cfg.2.2 ++ ts) := by
  obtain ⟨o, s, out⟩ := cfg
  rfl

theorem step_agree (bufC : List Nat) (iC offC : Nat) (input : List Nat) (j offS : Nat)
    (c s : St)
    (H : AgreeHyp bufC iC offC input j offS
      { c with lastBytes := wpush c.lastBytes (bufC.getD iC 0) }
      { s with lastBytes := wpush s.lastBytes (input.getD j 0) })
    (hnd : s.rawEndPattern = none →
      ¬(s.state = ParseState.text ∧ input.getD j 0 = 60)) :
    ARes iC offC j offS
      { c with lastBytes := wpush c.lastBytes (bufC.getD iC 0) }
      { s with lastBytes := wpush s.lastBytes (input.getD j 0) }
      (step bufC iC offC c) (step input j offS s) := by
  obtain ⟨h1, h2, h3, h4, h5, hW, hsc, hss, hrawS, hbyte, hcomb, hoc, hos, hic, hjn⟩ := id H
  have h4c : c.rawEndPattern = s.rawEndPattern := h4
  cases hr : s.rawEndPattern with
  | some pat =>
      have heC : step bufC iC offC c =
          rawStep bufC iC offC
            { c with lastBytes := wpush c.lastBytes (bufC.getD iC 0) } pat := by
        simp only [step, h4c.trans hr]
      have heS : step input j offS s =
          rawStep input j offS
            { s with lastBytes := wpush s.lastBytes (input.getD j 0) } pat := by
        simp only [step, hr]
      have hpat : pat ∈ RAWPATS := by
        have hrS : rawOK s := hrawS
        rcases hrS with h6 | h6 | h6 | h6 | h6 | h6 <;> rw [hr] at h6
        · exact absurd h6 (by simp)
        · injection h6 with h6; subst h6; decide
        · injection h6 with h6; subst h6; decide
        · injection h6 with h6; subst h6; decide
        · injection h6 with h6; subst h6; decide
        · injection h6 with h6; subst h6; decide
      rw [heC, heS]
      exact agree_raw bufC iC offC input j offS _ _ pat hpat H
  | none =>
      have heC : step bufC iC offC c =
          textStep bufC iC offC
            { c with lastBytes := wpush c.lastBytes (bufC.getD iC 0) } := by
        simp only [step, h4c.trans hr]
      have heS : step input j offS s =
          textStep input j offS
            { s with lastBytes := wpush s.lastBytes (input.getD j 0) } := by
        simp only [step, hr]
      have hnd2 := hnd hr
      have hndS : ¬({ s with lastBytes := wpush s.lastBytes (input.getD j 0) }.state =
          ParseState.text ∧ input.getD j 0 = 60) := hnd2
      have hndC : ¬({ c with lastBytes := wpush c.lastBytes (bufC.getD iC 0) }.state =
          ParseState.text ∧ bufC.getD iC 0 = 60) := by
        intro hc
        exact hnd2 ⟨h1 ▸ hc.1, hbyte ▸ hc.2⟩
      rw [heC, heS, textStep_to_tagWs _ _ _ _ hndC, textStep_to_tagWs _ _ _ _ hndS]
      exact agree_tagWs bufC iC offC input j offS _ _ H

end MT

namespace MT

theorem scan_to_trace (input : List Nat) :
    ∀ j, j ≤ input.length →
      (∀ k, k < j → ∀ st2,
        step input k (trace input k).1 (trace input k).2.1 ≠ StepRes.defer st2) →
      scanFuel input input.length 0 0 initSt [] =
        scanFuel input (input.length - j) j (trace input j).1 (trace input j).2.1
          (trace input j).2.2 := by
  intro j
  induction j with
  | zero =>
      intro _ _
      rfl
  | succ j ih =>
      intro hj hnd
      rw [ih (by omega) (fun k hk => hnd k (by omega))]
      have hfuel : input.length - j = (input.length - (j + 1)) + 1 := by omega
      rw [hfuel]
      simp only [scanFuel]
      rw [if_pos (show j < input.length by omega)]
      cases hstep : step input j (trace input j).1 (trace input j).2.1 with
      | defer st2 => exact absurd hstep (hnd j (by omega) st2)
      | cont off2 st2 ts =>
          have htr : trace input (j + 1) = (off2, st2, (trace input j).2.2 ++ ts) := by
            rw [show trace input (j + 1) = cfgStep input j (trace input j) from rfl,
              cfgStep_eval, hstep]
          rw [htr]

theorem runChunks_oneByte_succ (input : List Nat) (m : Nat) (hm : m < input.length) :
    runChunks (oneByteChunks (input.take (m + 1))) =
      feed (runChunks (oneByteChunks (input.take m))) [input.getD m 0] := by
  unfold runChunks oneByteChunks
  rw [List.take_succ, List.getElem?_eq_getElem hm]
  rw [show (some input[m]).toList = [input[m]] from rfl]
  rw [List.map_append, List.foldl_append]
  rw [show (List.map (fun b => [b]) [input[m]]) = [[input[m]]] from rfl]
  rw [show input.getD m 0 = input[m] from List.getD_eq_getElem input 0 hm]
  rfl

theorem transform_single_chunk (c : St) (b : Nat) (hp : c.pendingBuffer = none) :
    transform c [b] =
      (match step [b] 0 0 c with
       | .defer st2 => (st2, [])
       | .cont off2 st2 ts => (tailFlush [b] off2 st2, ts)) := by
  have he : transform c [b] = scan [b] 0 0 c [] := by
    simp [transform, hp]
  rw [he]
  show scanFuel [b] 1 0 0 c [] = _
  simp only [scanFuel]
  rw [if_pos (by simp)]
  cases hstep : step [b] 0 0 c with
  | defer st2 => rfl
  | cont off2 st2 ts => rfl

theorem transform_resume (c : St) (b0 x : Nat) (hp : c.pendingBuffer = some [b0]) :
    transform c [x] =
      scan ([b0] ++ [x]) 0 c.pendingOffset
        { c with pendingBuffer := none, pendingOffset := 0 } [] := by
  simp [transform, hp]

end MT

namespace MT

theorem tailFlush_fields (bufC : List Nat) (offC : Nat) (st : St) :
    (tailFlush bufC offC st).state = st.state ∧
    (tailFlush bufC offC st).tagState = st.tagState ∧
    (tailFlush bufC offC st).quoteState = st.quoteState ∧
    (tailFlush bufC offC st).rawEndPattern = st.rawEndPattern ∧
    (tailFlush bufC offC st).fromRawMode = st.fromRawMode ∧
    (tailFlush bufC offC st).lastBytes = st.lastBytes ∧
    (tailFlush bufC offC st).pendingBuffer = st.pendingBuffer := by
  unfold tailFlush
  split_ifs <;> exact ⟨rfl, rfl, rfl, rfl, rfl, rfl, rfl⟩

theorem tailFlush_flatten (bufC : List Nat) (offC : Nat) (st : St) :
    (tailFlush bufC offC st).buffers.flatten =
      st.buffers.flatten ++ sub bufC offC bufC.length := by
  unfold tailFlush
  split_ifs with h
  · exact flatten_snoc _ _
  · have h2 : sub bufC offC bufC.length = [] := by
      unfold sub
      rw [show bufC.length - offC = 0 from by omega, List.take_zero]
    rw [h2, List.append_nil]

theorem assembleA (input : List Nat) (m1 : Nat) (bufC : List Nat) (offC : Nat)
    (cF sF : St) (offS : Nat)
    (hrun1 : (runChunks (oneByteChunks (input.take m1))).1 = tailFlush bufC offC cF)
    (hout : (runChunks (oneByteChunks (input.take m1))).2 = (trace input m1).2.2)
    (htrOff : (trace input m1).1 = offS) (htrSt : (trace input m1).2.1 = sF)
    (f1 : cF.state = sF.state) (f2 : cF.tagState = sF.tagState)
    (f3 : cF.quoteState = sF.quoteState) (f4 : cF.rawEndPattern = sF.rawEndPattern)
    (f5 : cF.fromRawMode = sF.fromRawMode)
    (fW : WRel cF.lastBytes sF.lastBytes)
    (fl9c : cF.lastBytes.length ≤ 9) (fl9s : sF.lastBytes.length ≤ 9)
    (fsegs : segsOK sF) (fraw : rawOK sF)
    (fpc : cF.pendingBuffer = none) (fps : sF.pendingBuffer = none)
    (fflat : cF.buffers.flatten ++ sub bufC offC bufC.length =
      sF.buffers.flatten ++ sub input offS m1)
    (foff : offS ≤ m1) :
    AInv input m1 := by
  obtain ⟨t1, t2, t3, t4, t5, t6, t7⟩ := tailFlush_fields bufC offC cF
  refine ⟨?_, ?_, ?_, ?_, ?_, ?_, ?_, ?_, ?_, ?_, ?_, ?_, ?_, ?_, ?_⟩
  · rw [hout]
  · rw [hrun1, htrSt, t1, f1]
  · rw [hrun1, htrSt, t2, f2]
  · rw [hrun1, htrSt, t3, f3]
  · rw [hrun1, htrSt, t4, f4]
  · rw [hrun1, htrSt, t5, f5]
  · rw [hrun1, htrSt, t6]
    exact fW
  · rw [hrun1, t6]
    exact fl9c
  · rw [htrSt]
    exact fl9s
  · rw [htrSt]
    exact fsegs
  · rw [htrSt]
    exact fraw
  · rw [hrun1, t7, fpc]
  · rw [htrSt, fps]
  · rw [hrun1, htrSt, htrOff, tailFlush_flatten, fflat]
  · rw [htrOff]
    omega

end MT

namespace MT

theorem Astep (input : List Nat) (m : Nat) (hmn : m < input.length)
    (hA : AInv input m) : AInv input (m + 1) ∨ BInv input (m + 1) := by
  obtain ⟨aOut, aSt, aTag, aQuote, aRaw, aFrom, aW, aL9c, aL9s, aSegS, aRawS, aPendC,
    aPendS, aFlat, aOffLe⟩ := hA
  have hrs := runChunks_oneByte_succ input m hmn
  have hsegsC : segsOK (runChunks (oneByteChunks (input.take m))).1 :=
    (runChunks_inv (oneByteChunks (input.take m))).1.1
  have hrawC : rawOK (runChunks (oneByteChunks (input.take m))).1 := by
    unfold rawOK
    rw [aRaw]
    exact aRawS
  by_cases hdef : (trace input m).2.1.rawEndPattern = none ∧
      (trace input m).2.1.state = ParseState.text ∧ input.getD m 0 = 60
  · right
    obtain ⟨hre, hst, hb60⟩ := hdef
    have hstep : step [input.getD m 0] 0 0 (runChunks (oneByteChunks (input.take m))).1 =
        StepRes.defer { (runChunks (oneByteChunks (input.take m))).1 with lastBytes := wpush (runChunks (oneByteChunks (input.take m))).1.lastBytes (([input.getD m 0]).getD 0 0), pendingBuffer := some [input.getD m 0], pendingOffset := 0 } :=
      step_defer_eq _ _ _ _ (aRaw.trans hre) (aSt.trans hst) hb60 rfl
    have htr1 : transform (runChunks (oneByteChunks (input.take m))).1 [input.getD m 0] =
        ({ (runChunks (oneByteChunks (input.take m))).1 with lastBytes := wpush (runChunks (oneByteChunks (input.take m))).1.lastBytes (([input.getD m 0]).getD 0 0), pendingBuffer := some [input.getD m 0], pendingOffset := 0 }, []) := by
      rw [transform_single_chunk _ _ aPendC, hstep]
    have hR1 : (runChunks (oneByteChunks (input.take (m + 1)))).1 =
        { (runChunks (oneByteChunks (input.take m))).1 with lastBytes := wpush (runChunks (oneByteChunks (input.take m))).1.lastBytes (([input.getD m 0]).getD 0 0), pendingBuffer := some [input.getD m 0], pendingOffset := 0 } := by
      rw [hrs]
      show (transform (runChunks (oneByteChunks (input.take m))).1 [input.getD m 0]).1 = _
      rw [htr1]
    have hRout : (runChunks (oneByteChunks (input.take (m + 1)))).2 =
        (runChunks (oneByteChunks (input.take m))).2 := by
      rw [hrs]
      show (runChunks (oneByteChunks (input.take m))).2 ++
          (transform (runChunks (oneByteChunks (input.take m))).1 [input.getD m 0]).2 = _
      rw [htr1, List.append_nil]
    refine ⟨m, rfl, hmn, hb60, ?_, ?_, ?_, ?_, hst, ?_, ?_, ?_, hre, ?_, ?_, aL9s, aSegS,
      aPendS, ?_, aOffLe⟩
    · rw [hRout, aOut]
    · rw [hR1]
    · rw [hR1]
    · rw [hR1]
      exact aSt.trans hst
    · rw [hR1]
      exact aTag
    · rw [hR1]
      exact aQuote
    · rw [hR1]
      exact aRaw.trans hre
    · rw [hR1]
      exact aFrom
    · rw [hR1]
      exact wpush_length_le _ _ aL9c
    · rw [hR1]
      exact aFlat
  · left
    have hnd : (trace input m).2.1.rawEndPattern = none →
        ¬((trace input m).2.1.state = ParseState.text ∧ input.getD m 0 = 60) :=
      fun hre hc => hdef ⟨hre, hc.1, hc.2⟩
    have hcomb : (runChunks (oneByteChunks (input.take m))).1.buffers.flatten ++
        sub [input.getD m 0] 0 (0 + 1) =
          (trace input m).2.1.buffers.flatten ++ sub input (trace input m).1 (m + 1) := by
      rw [show sub [input.getD m 0] 0 (0 + 1) = [input.getD m 0] from rfl, aFlat,
        List.append_assoc, ← sub_snoc input (trace input m).1 m aOffLe hmn]
    have hAR := step_agree [input.getD m 0] 0 0 input m (trace input m).1
      (runChunks (oneByteChunks (input.take m))).1 (trace input m).2.1
      ⟨aSt, aTag, aQuote, aRaw, aFrom, wrel_push _ aW, hsegsC, aSegS, aRawS, rfl, hcomb,
        le_refl 0, aOffLe, by simp, hmn⟩ hnd
    obtain ⟨c1, s1, ts, hor, g1, g2, g3, g4, g5, g6, g7⟩ := hAR
    have hsf := step_inv input m (trace input m).1 (trace input m).2.1 aSegS aRawS aOffLe hmn
    have hcf := step_inv [input.getD m 0] 0 0 (runChunks (oneByteChunks (input.take m))).1
      hsegsC hrawC (le_refl 0) (by simp)
    rcases hor with ⟨hrc, hrs2, hbc, hbs⟩ | ⟨hrc, hrs2, hbeq⟩
    · rw [hrs2] at hsf
      rw [hrc] at hcf
      have htrm : trace input (m + 1) = ((trace input m).1, s1, (trace input m).2.2 ++ ts) := by
        rw [show trace input (m + 1) = cfgStep input m (trace input m) from rfl,
          cfgStep_eval, hrs2]
      have htr1 : transform (runChunks (oneByteChunks (input.take m))).1 [input.getD m 0] =
          (tailFlush [input.getD m 0] 0 c1, ts) := by
        rw [transform_single_chunk _ _ aPendC, hrc]
      have hR1 : (runChunks (oneByteChunks (input.take (m + 1)))).1 =
          tailFlush [input.getD m 0] 0 c1 := by
        rw [hrs]
        show (transform (runChunks (oneByteChunks (input.take m))).1 [input.getD m 0]).1 = _
        rw [htr1]
      have hRout : (runChunks (oneByteChunks (input.take (m + 1)))).2 =
          (trace input (m + 1)).2.2 := by
        rw [htrm]
        rw [hrs]
        show (runChunks (oneByteChunks (input.take m))).2 ++
            (transform (runChunks (oneByteChunks (input.take m))).1 [input.getD m 0]).2 =
          (trace input m).2.2 ++ ts
        rw [htr1, aOut]
      refine assembleA input (m + 1) [input.getD m 0] 0 c1 s1 (trace input m).1 hR1 hRout
        (by rw [htrm]) (by rw [htrm]) g1 g2 g3 g4 g5 ?_ ?_ ?_ hsf.1 hsf.2.1 ?_ ?_ ?_ (by omega)
      · rw [g6, g7]
        exact wrel_push _ aW
      · rw [g6]
        exact wpush_length_le _ _ aL9c
      · rw [g7]
        exact wpush_length_le _ _ aL9s
      · exact (hcf.2.2.2.1).trans aPendC
      · exact (hsf.2.2.2.1).trans aPendS
      · rw [show sub [input.getD m 0] 0 ([input.getD m 0]).length =
            sub [input.getD m 0] 0 (0 + 1) from rfl]
        rw [show c1.buffers.flatten =
            (runChunks (oneByteChunks (input.take m))).1.buffers.flatten from by rw [hbc]]
        rw [show s1.buffers.flatten = (trace input m).2.1.buffers.flatten from by rw [hbs]]
        exact hcomb
    · rw [hrs2] at hsf
      rw [hrc] at hcf
      have htrm : trace input (m + 1) = (m + 1, s1, (trace input m).2.2 ++ ts) := by
        rw [show trace input (m + 1) = cfgStep input m (trace input m) from rfl,
          cfgStep_eval, hrs2]
      have htr1 : transform (runChunks (oneByteChunks (input.take m))).1 [input.getD m 0] =
          (tailFlush [input.getD m 0] (0 + 1) c1, ts) := by
        rw [transform_single_chunk _ _ aPendC, hrc]
      have hR1 : (runChunks (oneByteChunks (input.take (m + 1)))).1 =
          tailFlush [input.getD m 0] (0 + 1) c1 := by
        rw [hrs]
        show (transform (runChunks (oneByteChunks (input.take m))).1 [input.getD m 0]).1 = _
        rw [htr1]
      have hRout : (runChunks (oneByteChunks (input.take (m + 1)))).2 =
          (trace input (m + 1)).2.2 := by
        rw [htrm]
        rw [hrs]
        show (runChunks (oneByteChunks (input.take m))).2 ++
            (transform (runChunks (oneByteChunks (input.take m))).1 [input.getD m 0]).2 =
          (trace input m).2.2 ++ ts
        rw [htr1, aOut]
      refine assembleA input (m + 1) [input.getD m 0] (0 + 1) c1 s1 (m + 1) hR1 hRout
        (by rw [htrm]) (by rw [htrm]) g1 g2 g3 g4 g5 ?_ ?_ ?_ hsf.1 hsf.2.1 ?_ ?_ ?_ (le_refl _)
      · rw [g6, g7]
        exact wrel_push _ aW
      · rw [g6]
        exact wpush_length_le _ _ aL9c
      · rw [g7]
        exact wpush_length_le _ _ aL9s
      · exact (hcf.2.2.2.1).trans aPendC
      · exact (hsf.2.2.2.1).trans aPendS
      · rw [hbeq,
          show sub [input.getD m 0] (0 + 1) ([input.getD m 0]).length = [] from
            sub_self_nil [input.getD m 0] 1,
          show sub input (m + 1) (m + 1) = [] from sub_self_nil input (m + 1),
          List.append_nil]

end MT

namespace MT

theorem cfgStep_cont (buffer : List Nat) (i o : Nat) (s : St) (out : List Token)
    (off2 : Nat) (st2 : St) (ts : List Token)
    (h : step buffer i o s = StepRes.cont off2 st2 ts) :
    cfgStep buffer i (o, s, out) = (off2, st2, out ++ ts) := by
  simp only [cfgStep]
  rw [h]

theorem scanFuel_succ_eval (buffer : List Nat) (fuel i off : Nat) (st : St)
    (out : List Token) (hi : i < buffer.length) (off2 : Nat) (st2 : St) (ts : List Token)
    (hstep : step buffer i off st = StepRes.cont off2 st2 ts) :
    scanFuel buffer (fuel + 1) i off st out =
      scanFuel buffer fuel (i + 1) off2 st2 (out ++ ts) := by
  simp only [scanFuel]
  rw [if_pos hi, hstep]

theorem Bfinish (input : List Nat) (j : Nat) (hjn2 : j + 1 < input.length)
    (c0 c1 s1 : St) (off1C off1S : Nat) (ts1 : List Token)
    (htrans2 : transform (runChunks (oneByteChunks (input.take (j + 1)))).1
        [input.getD (j + 1) 0] =
      scan ([input.getD j 0] ++ [input.getD (j + 1) 0]) 0 0 c0 [])
    (hout0 : (runChunks (oneByteChunks (input.take (j + 1)))).2 = (trace input j).2.2)
    (hstep0C : step ([input.getD j 0] ++ [input.getD (j + 1) 0]) 0 0 c0 =
      StepRes.cont off1C c1 ts1)
    (hstep0S : step input j (trace input j).1 (trace input j).2.1 =
      StepRes.cont off1S s1 ts1)
    (f1 : c1.state = s1.state) (f2 : c1.tagState = s1.tagState)
    (f3 : c1.quoteState = s1.quoteState) (f4 : c1.rawEndPattern = s1.rawEndPattern)
    (f5 : c1.fromRawMode = s1.fromRawMode)
    (hW1 : WRel (wpush c1.lastBytes (([input.getD j 0] ++ [input.getD (j + 1) 0]).getD 1 0))
      (wpush s1.lastBytes (input.getD (j + 1) 0)))
    (hl9c1 : c1.lastBytes.length ≤ 9) (hl9s1 : s1.lastBytes.length ≤ 9)
    (hsc1 : segsOK c1) (hss1 : segsOK s1) (hrawC1 : rawOK c1) (hrawS1 : rawOK s1)
    (hpc1 : c1.pendingBuffer = none) (hps1 : s1.pendingBuffer = none)
    (hcomb1 : c1.buffers.flatten ++
        sub ([input.getD j 0] ++ [input.getD (j + 1) 0]) off1C (1 + 1) =
      s1.buffers.flatten ++ sub input off1S (j + 1 + 1))
    (hoc1 : off1C ≤ 1) (hos1 : off1S ≤ j + 1)
    (hnd1 : s1.rawEndPattern = none →
      ¬(s1.state = ParseState.text ∧ input.getD (j + 1) 0 = 60)) :
    AInv input (j + 1 + 1) := by
  have hAR := step_agree ([input.getD j 0] ++ [input.getD (j + 1) 0]) 1 off1C input (j + 1)
    off1S c1 s1
    ⟨f1, f2, f3, f4, f5, hW1, hsc1, hss1, hrawS1, rfl, hcomb1, hoc1, hos1, by simp, hjn2⟩ hnd1
  obtain ⟨c2, s2, ts2, hor2, l1, l2, l3, l4, l5, l6, l7⟩ := hAR
  have hsf1 := step_inv input (j + 1) off1S s1 hss1 hrawS1 hos1 hjn2
  have hcf1 := step_inv ([input.getD j 0] ++ [input.getD (j + 1) 0]) 1 off1C c1 hsc1 hrawC1
    hoc1 (by simp)
  have htr1 : trace input (j + 1) = (off1S, s1, (trace input j).2.2 ++ ts1) := by
    rw [show trace input (j + 1) = cfgStep input j (trace input j) from rfl,
      cfgStep_eval, hstep0S]
  have hrs := runChunks_oneByte_succ input (j + 1) hjn2
  rcases hor2 with ⟨hrc2, hrs2, hbc2, hbs2⟩ | ⟨hrc2, hrs2, hbeq2⟩
  · rw [hrc2] at hcf1
    rw [hrs2] at hsf1
    have htr2 : trace input (j + 1 + 1) =
        (off1S, s2, ((trace input j).2.2 ++ ts1) ++ ts2) := by
      rw [show trace input (j + 1 + 1) = cfgStep input (j + 1) (trace input (j + 1)) from rfl,
        htr1, cfgStep_cont input (j + 1) off1S s1 ((trace input j).2.2 ++ ts1) _ _ _ hrs2]
    have hscan : scan ([input.getD j 0] ++ [input.getD (j + 1) 0]) 0 0 c0 [] =
        (tailFlush ([input.getD j 0] ++ [input.getD (j + 1) 0]) off1C c2, ts1 ++ ts2) := by
      show scanFuel ([input.getD j 0] ++ [input.getD (j + 1) 0]) (1 + 1) 0 0 c0 [] = _
      rw [scanFuel_succ_eval _ 1 0 0 c0 [] (by simp) off1C c1 ts1 hstep0C,
        scanFuel_succ_eval _ 0 (0 + 1) off1C c1 ([] ++ ts1) (by simp) off1C c2 ts2 hrc2]
      rfl
    have hR1 : (runChunks (oneByteChunks (input.take (j + 1 + 1)))).1 =
        tailFlush ([input.getD j 0] ++ [input.getD (j + 1) 0]) off1C c2 := by
      rw [hrs]
      show (transform (runChunks (oneByteChunks (input.take (j + 1)))).1
        [input.getD (j + 1) 0]).1 = _
      rw [htrans2, hscan]
    have hRout : (runChunks (oneByteChunks (input.take (j + 1 + 1)))).2 =
        (trace input (j + 1 + 1)).2.2 := by
      rw [htr2, hrs]
      show (runChunks (oneByteChunks (input.take (j + 1)))).2 ++
          (transform (runChunks (oneByteChunks (input.take (j + 1)))).1
            [input.getD (j + 1) 0]).2 = ((trace input j).2.2 ++ ts1) ++ ts2
      rw [htrans2, hscan, hout0, List.append_assoc]
    refine assembleA input (j + 1 + 1) ([input.getD j 0] ++ [input.getD (j + 1) 0]) off1C
      c2 s2 off1S hR1 hRout (by rw [htr2]) (by rw [htr2]) l1 l2 l3 l4 l5 ?_ ?_ ?_
      hsf1.1 hsf1.2.1 ?_ ?_ ?_ (by omega)
    · rw [l6, l7]
      exact hW1
    · rw [l6]
      exact wpush_length_le _ _ hl9c1
    · rw [l7]
      exact wpush_length_le _ _ hl9s1
    · exact (hcf1.2.2.2.1).trans hpc1
    · exact (hsf1.2.2.2.1).trans hps1
    · rw [show sub ([input.getD j 0] ++ [input.getD (j + 1) 0]) off1C
            (([input.getD j 0] ++ [input.getD (j + 1) 0]).length) =
          sub ([input.getD j 0] ++ [input.getD (j + 1) 0]) off1C (1 + 1) from rfl]
      rw [show c2.buffers.flatten = c1.buffers.flatten from by rw [hbc2],
        show s2.buffers.flatten = s1.buffers.flatten from by rw [hbs2]]
      exact hcomb1
  · rw [hrc2] at hcf1
    rw [hrs2] at hsf1
    have htr2 : trace input (j + 1 + 1) =
        (j + 1 + 1, s2, ((trace input j).2.2 ++ ts1) ++ ts2) := by
      rw [show trace input (j + 1 + 1) = cfgStep input (j + 1) (trace input (j + 1)) from rfl,
        htr1, cfgStep_cont input (j + 1) off1S s1 ((trace input j).2.2 ++ ts1) _ _ _ hrs2]
    have hscan : scan ([input.getD j 0] ++ [input.getD (j + 1) 0]) 0 0 c0 [] =
        (tailFlush ([input.getD j 0] ++ [input.getD (j + 1) 0]) (1 + 1) c2, ts1 ++ ts2) := by
      show scanFuel ([input.getD j 0] ++ [input.getD (j + 1) 0]) (1 + 1) 0 0 c0 [] = _
      rw [scanFuel_succ_eval _ 1 0 0 c0 [] (by simp) off1C c1 ts1 hstep0C,
        scanFuel_succ_eval _ 0 (0 + 1) off1C c1 ([] ++ ts1) (by simp) (1 + 1) c2 ts2 hrc2]
      rfl
    have hR1 : (runChunks (oneByteChunks (input.take (j + 1 + 1)))).1 =
        tailFlush ([input.getD j 0] ++ [input.getD (j + 1) 0]) (1 + 1) c2 := by
      rw [hrs]
      show (transform (runChunks (oneByteChunks (input.take (j + 1)))).1
        [input.getD (j + 1) 0]).1 = _
      rw [htrans2, hscan]
    have hRout : (runChunks (oneByteChunks (input.take (j + 1 + 1)))).2 =
        (trace input (j + 1 + 1)).2.2 := by
      rw [htr2, hrs]
      show (runChunks (oneByteChunks (input.take (j + 1)))).2 ++
          (transform (runChunks (oneByteChunks (input.take (j + 1)))).1
            [input.getD (j + 1) 0]).2 = ((trace input j).2.2 ++ ts1) ++ ts2
      rw [htrans2, hscan, hout0, List.append_assoc]
    refine assembleA input (j + 1 + 1) ([input.getD j 0] ++ [input.getD (j + 1) 0]) (1 + 1)
      c2 s2 (j + 1 + 1) hR1 hRout (by rw [htr2]) (by rw [htr2]) l1 l2 l3 l4 l5 ?_ ?_ ?_
      hsf1.1 hsf1.2.1 ?_ ?_ ?_ (le_refl _)
    · rw [l6, l7]
      exact hW1
    · rw [l6]
      exact wpush_length_le _ _ hl9c1
    · rw [l7]
      exact wpush_length_le _ _ hl9s1
    · exact (hcf1.2.2.2.1).trans hpc1
    · exact (hsf1.2.2.2.1).trans hps1
    · rw [hbeq2,
        show sub ([input.getD j 0] ++ [input.getD (j + 1) 0]) (1 + 1)
            (([input.getD j 0] ++ [input.getD (j + 1) 0]).length) = [] from
          sub_self_nil _ 2,
        show sub input (j + 1 + 1) (j + 1 + 1) = [] from sub_self_nil input (j + 1 + 1),
        List.append_nil]

end MT

namespace MT

theorem tsLt_fire (buffer : List Nat) (i off : Nat) (st : St)
    (hst : st.state = ParseState.text) (hb : buffer.getD i 0 = 60)
    (hnw : ¬ isWhitespace (buffer.getD (i + 1) 0) = true) :
    tsLt buffer i off st =
      StepRes.cont i { st with state := ParseState.opn, tagState := some TagState.tagName, buffers := [] }
        (pushState TokenKind.text
          (if 0 < i ∧ 0 < i - off then st.buffers ++ [sub buffer off i]
           else st.buffers)).2 := by
  have hg : st.state = ParseState.text ∧ buffer.getD i 0 = 60 ∧
      ¬ isWhitespace (buffer.getD (i + 1) 0) = true := ⟨hst, hb, hnw⟩
  simp only [tsLt]
  rw [if_pos hg, pushState_fst]

theorem pushState_out_eq (k : TokenKind) (b1 b2 : List (List Nat))
    (h1 : ∀ seg ∈ b1, seg ≠ []) (h2 : ∀ seg ∈ b2, seg ≠ [])
    (hf : b1.flatten = b2.flatten) :
    (pushState k b1).2 = (pushState k b2).2 := by
  by_cases he : b1 = []
  · have he2 : b2 = [] := (flatten_nil_of_segs h2).mp (by rw [← hf, he]; try rfl)
    rw [he, he2]
  · have he2 : b2 ≠ [] :=
      fun h => he ((flatten_nil_of_segs h1).mp (by rw [hf, h]; try rfl))
    rw [pushState_ne _ _ he, pushState_ne _ _ he2, hf]

theorem Biter0 (input : List Nat) (j : Nat) (hjn2 : j + 1 < input.length)
    (hb60 : input.getD j 0 = 60) (c0 : St)
    (htrans2 : transform (runChunks (oneByteChunks (input.take (j + 1)))).1
        [input.getD (j + 1) 0] =
      scan ([input.getD j 0] ++ [input.getD (j + 1) 0]) 0 0 c0 [])
    (hout0 : (runChunks (oneByteChunks (input.take (j + 1)))).2 = (trace input j).2.2)
    (hc0st : c0.state = ParseState.text)
    (hsSt : (trace input j).2.1.state = ParseState.text)
    (hc0tag : c0.tagState = (trace input j).2.1.tagState)
    (hc0quote : c0.quoteState = (trace input j).2.1.quoteState)
    (hc0raw : c0.rawEndPattern = none)
    (hsRaw : (trace input j).2.1.rawEndPattern = none)
    (hc0from : c0.fromRawMode = (trace input j).2.1.fromRawMode)
    (hc0l9 : c0.lastBytes.length ≤ 9)
    (hsL9 : (trace input j).2.1.lastBytes.length ≤ 9)
    (hsegC0 : segsOK c0)
    (hsegS : segsOK (trace input j).2.1)
    (hc0pend : c0.pendingBuffer = none)
    (hsPend : (trace input j).2.1.pendingBuffer = none)
    (hflat : c0.buffers.flatten =
      (trace input j).2.1.buffers.flatten ++ sub input (trace input j).1 j)
    (hoffLe : (trace input j).1 ≤ j) :
    AInv input (j + 1 + 1) := by
  have hWr : WRel (wpush c0.lastBytes (([input.getD j 0] ++ [input.getD (j + 1) 0]).getD 0 0)) (wpush (trace input j).2.1.lastBytes (input.getD j 0)) := by
    rw [show ([input.getD j 0] ++ [input.getD (j + 1) 0]).getD 0 0 = input.getD j 0 from rfl, hb60]
    exact wrel_new60 _ _ hc0l9 hsL9
  have he0C : step ([input.getD j 0] ++ [input.getD (j + 1) 0]) 0 0 c0 = textStep ([input.getD j 0] ++ [input.getD (j + 1) 0]) 0 0 { c0 with lastBytes := wpush c0.lastBytes (([input.getD j 0] ++ [input.getD (j + 1) 0]).getD 0 0) } := by
    simp only [step, hc0raw]
  have he0S : step input j (trace input j).1 (trace input j).2.1 = textStep input j (trace input j).1 { (trace input j).2.1 with lastBytes := wpush (trace input j).2.1.lastBytes (input.getD j 0) } := by
    simp only [step, hsRaw]
  have he1C : textStep ([input.getD j 0] ++ [input.getD (j + 1) 0]) 0 0 { c0 with lastBytes := wpush c0.lastBytes (([input.getD j 0] ++ [input.getD (j + 1) 0]).getD 0 0) } = tsLt ([input.getD j 0] ++ [input.getD (j + 1) 0]) 0 0 { c0 with lastBytes := wpush c0.lastBytes (([input.getD j 0] ++ [input.getD (j + 1) 0]).getD 0 0) } := by
    unfold textStep
    rw [if_neg (by rintro ⟨-, -, h0⟩; simp only [List.length_append, List.length_cons, List.length_nil] at h0; omega)]
  have he1S : textStep input j (trace input j).1 { (trace input j).2.1 with lastBytes := wpush (trace input j).2.1.lastBytes (input.getD j 0) } = tsLt input j (trace input j).1 { (trace input j).2.1 with lastBytes := wpush (trace input j).2.1.lastBytes (input.getD j 0) } := by
    unfold textStep
    rw [if_neg (by rintro ⟨-, -, h0⟩; omega)]
  by_cases hws : isWhitespace (input.getD (j + 1) 0) = true
  · have he2C : tsLt ([input.getD j 0] ++ [input.getD (j + 1) 0]) 0 0 { c0 with lastBytes := wpush c0.lastBytes (([input.getD j 0] ++ [input.getD (j + 1) 0]).getD 0 0) } = tsTagWs ([input.getD j 0] ++ [input.getD (j + 1) 0]) 0 0 { c0 with lastBytes := wpush c0.lastBytes (([input.getD j 0] ++ [input.getD (j + 1) 0]).getD 0 0) } := by
      unfold tsLt
      rw [if_neg (by rintro ⟨-, -, hn⟩; exact hn (show isWhitespace (([input.getD j 0] ++ [input.getD (j + 1) 0]).getD (0 + 1) 0) = true from hws))]
    have he2S : tsLt input j (trace input j).1 { (trace input j).2.1 with lastBytes := wpush (trace input j).2.1.lastBytes (input.getD j 0) } = tsTagWs input j (trace input j).1 { (trace input j).2.1 with lastBytes := wpush (trace input j).2.1.lastBytes (input.getD j 0) } := by
      unfold tsLt
      rw [if_neg (by rintro ⟨-, -, hn⟩; exact hn hws)]
    have hcomb0 : c0.buffers.flatten ++ sub ([input.getD j 0] ++ [input.getD (j + 1) 0]) 0 (0 + 1) = (trace input j).2.1.buffers.flatten ++ sub input (trace input j).1 (j + 1) := by
      rw [show sub ([input.getD j 0] ++ [input.getD (j + 1) 0]) 0 (0 + 1) = [input.getD j 0] from rfl, hflat, List.append_assoc, ← sub_snoc input (trace input j).1 j hoffLe (by omega)]
    have hAR0 := agree_tagWs ([input.getD j 0] ++ [input.getD (j + 1) 0]) 0 0 input j (trace input j).1 { c0 with lastBytes := wpush c0.lastBytes (([input.getD j 0] ++ [input.getD (j + 1) 0]).getD 0 0) } { (trace input j).2.1 with lastBytes := wpush (trace input j).2.1.lastBytes (input.getD j 0) } ⟨hc0st.trans hsSt.symm, hc0tag, hc0quote, hc0raw.trans hsRaw.symm, hc0from, hWr, hsegC0, hsegS, Or.inl hsRaw, rfl, hcomb0, Nat.le_refl 0, hoffLe, by simp, by omega⟩
    obtain ⟨c1, s1, ts1, hor1, k1, k2, k3, k4, k5, k6, k7⟩ := hAR0
    have hcf0 := step_inv ([input.getD j 0] ++ [input.getD (j + 1) 0]) 0 0 c0 hsegC0 (Or.inl hc0raw) (Nat.le_refl 0) (by simp)
    have hsf0 := step_inv input j (trace input j).1 (trace input j).2.1 hsegS (Or.inl hsRaw) hoffLe (by omega)
    have hW1 : WRel (wpush c1.lastBytes (([input.getD j 0] ++ [input.getD (j + 1) 0]).getD 1 0)) (wpush s1.lastBytes (input.getD (j + 1) 0)) := by
      rw [k6, k7]
      exact wrel_push _ hWr
    have hl9c1 : c1.lastBytes.length ≤ 9 := by
      rw [k6]
      exact wpush_length_le _ _ hc0l9
    have hl9s1 : s1.lastBytes.length ≤ 9 := by
      rw [k7]
      exact wpush_length_le _ _ hsL9
    rcases hor1 with ⟨ha, hb, hbc1, hbs1⟩ | ⟨ha, hb, hbeq1⟩
    · have hstep0C : step ([input.getD j 0] ++ [input.getD (j + 1) 0]) 0 0 c0 = StepRes.cont 0 c1 ts1 := he0C.trans (he1C.trans (he2C.trans ha))
      have hstep0S : step input j (trace input j).1 (trace input j).2.1 = StepRes.cont (trace input j).1 s1 ts1 := he0S.trans (he1S.trans (he2S.trans hb))
      rw [hstep0C] at hcf0
      rw [hstep0S] at hsf0
      have hcomb1 : c1.buffers.flatten ++ sub ([input.getD j 0] ++ [input.getD (j + 1) 0]) 0 (1 + 1) = s1.buffers.flatten ++ sub input (trace input j).1 (j + 1 + 1) := by
        rw [show c1.buffers.flatten = c0.buffers.flatten from by rw [hbc1], show s1.buffers.flatten = (trace input j).2.1.buffers.flatten from by rw [hbs1], show sub ([input.getD j 0] ++ [input.getD (j + 1) 0]) 0 (1 + 1) = [input.getD j 0] ++ [input.getD (j + 1) 0] from rfl, hflat, sub_snoc input (trace input j).1 (j + 1) (by omega) (by omega), sub_snoc input (trace input j).1 j hoffLe (by omega)]
        simp [List.append_assoc]
      exact Bfinish input j hjn2 c0 c1 s1 0 (trace input j).1 ts1 htrans2 hout0 hstep0C hstep0S k1 k2 k3 k4 k5 hW1 hl9c1 hl9s1 hcf0.1 hsf0.1 hcf0.2.1 hsf0.2.1 ((hcf0.2.2.2.1).trans hc0pend) ((hsf0.2.2.2.1).trans hsPend) hcomb1 (by omega) (by omega) (fun _ hc => ws_ne_60 hws hc.2)
    · have hstep0C : step ([input.getD j 0] ++ [input.getD (j + 1) 0]) 0 0 c0 = StepRes.cont (0 + 1) c1 ts1 := he0C.trans (he1C.trans (he2C.trans ha))
      have hstep0S : step input j (trace input j).1 (trace input j).2.1 = StepRes.cont (j + 1) s1 ts1 := he0S.trans (he1S.trans (he2S.trans hb))
      rw [hstep0C] at hcf0
      rw [hstep0S] at hsf0
      have hcomb1 : c1.buffers.flatten ++ sub ([input.getD j 0] ++ [input.getD (j + 1) 0]) (0 + 1) (1 + 1) = s1.buffers.flatten ++ sub input (j + 1) (j + 1 + 1) := by
        rw [hbeq1, show sub ([input.getD j 0] ++ [input.getD (j + 1) 0]) (0 + 1) (1 + 1) = [input.getD (j + 1) 0] from rfl, sub_snoc input (j + 1) (j + 1) (Nat.le_refl (j + 1)) (by omega), sub_self_nil, List.nil_append]
      exact Bfinish input j hjn2 c0 c1 s1 (0 + 1) (j + 1) ts1 htrans2 hout0 hstep0C hstep0S k1 k2 k3 k4 k5 hW1 hl9c1 hl9s1 hcf0.1 hsf0.1 hcf0.2.1 hsf0.2.1 ((hcf0.2.2.2.1).trans hc0pend) ((hsf0.2.2.2.1).trans hsPend) hcomb1 (by omega) (by omega) (fun _ hc => ws_ne_60 hws hc.2)
  · have hwsn : ¬ isWhitespace (input.getD (j + 1) 0) = true := hws
    have he2C := tsLt_fire ([input.getD j 0] ++ [input.getD (j + 1) 0]) 0 0 { c0 with lastBytes := wpush c0.lastBytes (([input.getD j 0] ++ [input.getD (j + 1) 0]).getD 0 0) } hc0st hb60 hwsn
    have he2S := tsLt_fire input j (trace input j).1 { (trace input j).2.1 with lastBytes := wpush (trace input j).2.1.lastBytes (input.getD j 0) } hsSt hb60 hwsn
    have hstep0C : step ([input.getD j 0] ++ [input.getD (j + 1) 0]) 0 0 c0 = StepRes.cont 0 { c0 with state := ParseState.opn, tagState := some TagState.tagName, buffers := [], lastBytes := wpush c0.lastBytes (([input.getD j 0] ++ [input.getD (j + 1) 0]).getD 0 0) } (pushState TokenKind.text c0.buffers).2 := he0C.trans (he1C.trans he2C)
    have hstep0Spre : step input j (trace input j).1 (trace input j).2.1 = StepRes.cont j { (trace input j).2.1 with state := ParseState.opn, tagState := some TagState.tagName, buffers := [], lastBytes := wpush (trace input j).2.1.lastBytes (input.getD j 0) } (pushState TokenKind.text (if 0 < j ∧ 0 < j - (trace input j).1 then (trace input j).2.1.buffers ++ [sub input (trace input j).1 j] else (trace input j).2.1.buffers)).2 := he0S.trans (he1S.trans he2S)
    have hts : (pushState TokenKind.text c0.buffers).2 = (pushState TokenKind.text (if 0 < j ∧ 0 < j - (trace input j).1 then (trace input j).2.1.buffers ++ [sub input (trace input j).1 j] else (trace input j).2.1.buffers)).2 := by
      by_cases happ : 0 < j ∧ 0 < j - (trace input j).1
      · rw [if_pos happ]
        obtain ⟨hj0, hjo⟩ := happ
        have hsubne : sub input (trace input j).1 j ≠ [] := sub_ne_nil (by omega) (by omega)
        refine pushState_out_eq TokenKind.text _ _ hsegC0 ?_ (by rw [hflat, flatten_snoc])
        intro seg hs
        rcases List.mem_append.mp hs with h | h
        · exact hsegS seg h
        · rw [List.mem_singleton] at h
          subst h
          exact hsubne
      · rw [if_neg happ]
        have hoeq : (trace input j).1 = j := by
          by_cases hj0 : 0 < j
          · have h2 : ¬ 0 < j - (trace input j).1 := fun h2 => happ ⟨hj0, h2⟩
            omega
          · omega
        refine pushState_out_eq TokenKind.text _ _ hsegC0 hsegS ?_
        rw [hflat, hoeq, sub_self_nil, List.append_nil]
    have hstep0S : step input j (trace input j).1 (trace input j).2.1 = StepRes.cont j { (trace input j).2.1 with state := ParseState.opn, tagState := some TagState.tagName, buffers := [], lastBytes := wpush (trace input j).2.1.lastBytes (input.getD j 0) } (pushState TokenKind.text c0.buffers).2 := hstep0Spre.trans (congrArg (StepRes.cont j { (trace input j).2.1 with state := ParseState.opn, tagState := some TagState.tagName, buffers := [], lastBytes := wpush (trace input j).2.1.lastBytes (input.getD j 0) }) hts.symm)
    have hcomb1 : ({ c0 with state := ParseState.opn, tagState := some TagState.tagName, buffers := ([] : List (List Nat)), lastBytes := wpush c0.lastBytes (([input.getD j 0] ++ [input.getD (j + 1) 0]).getD 0 0) } : St).buffers.flatten ++ sub ([input.getD j 0] ++ [input.getD (j + 1) 0]) 0 (1 + 1) = ({ (trace input j).2.1 with state := ParseState.opn, tagState := some TagState.tagName, buffers := ([] : List (List Nat)), lastBytes := wpush (trace input j).2.1.lastBytes (input.getD j 0) } : St).buffers.flatten ++ sub input j (j + 1 + 1) := by
      show ([] : List (List Nat)).flatten ++ sub ([input.getD j 0] ++ [input.getD (j + 1) 0]) 0 (1 + 1) = ([] : List (List Nat)).flatten ++ sub input j (j + 1 + 1)
      rw [sub_snoc input j (j + 1) (by omega) (by omega), sub_snoc input j j (Nat.le_refl j) (by omega), sub_self_nil, List.nil_append]
      rfl
    exact Bfinish input j hjn2 c0 _ _ 0 j _ htrans2 hout0 hstep0C hstep0S rfl rfl hc0quote (hc0raw.trans hsRaw.symm) hc0from (wrel_push _ hWr) (wpush_length_le _ _ hc0l9) (wpush_length_le _ _ hsL9) (fun seg hs => absurd hs (List.not_mem_nil seg)) (fun seg hs => absurd hs (List.not_mem_nil seg)) (Or.inl hc0raw) (Or.inl hsRaw) hc0pend hsPend hcomb1 (by omega) (by omega) (fun _ hc => ParseState.noConfusion (show ParseState.opn = ParseState.text from hc.1))

end MT

namespace MT

theorem Bstep (input : List Nat) (m : Nat) (hmn : m + 1 < input.length)
    (hB : BInv input (m + 1)) : AInv input (m + 1 + 1) := by
  obtain ⟨j, hmj, hjn, hb60, bOut, bPend, bPO, bStC, bStS, bTag, bQuote, bRawC, bRawS,
    bFrom, bL9c, bL9s, bSegS, bPendS, bFlat, bOffLe⟩ := hB
  have hj : j = m := by omega
  subst hj
  have htrans2 : transform (runChunks (oneByteChunks (input.take (j + 1)))).1 [input.getD (j + 1) 0] = scan ([input.getD j 0] ++ [input.getD (j + 1) 0]) 0 0 { (runChunks (oneByteChunks (input.take (j + 1)))).1 with pendingBuffer := none, pendingOffset := 0 } [] := by
    rw [transform_resume _ (input.getD j 0) (input.getD (j + 1) 0) bPend, bPO]
  exact Biter0 input j hmn hb60 _ htrans2 bOut bStC bStS bTag bQuote bRawC bRawS bFrom
    bL9c bL9s ((runChunks_inv (oneByteChunks (input.take (j + 1)))).1.1) bSegS rfl bPendS
    bFlat bOffLe

theorem mainInv (input : List Nat) : ∀ m, m ≤ input.length →
    AInv input m ∨ BInv input m := by
  intro m
  induction m with
  | zero =>
      intro _
      left
      exact ⟨rfl, rfl, rfl, rfl, rfl, rfl, Or.inl rfl, Nat.zero_le 9, Nat.zero_le 9,
        fun seg hs => absurd hs (List.not_mem_nil seg), Or.inl rfl, rfl, rfl, rfl,
        Nat.le_refl 0⟩
  | succ k ih =>
      intro hk
      have hkn : k < input.length := by omega
      rcases ih (by omega) with hA | hB
      · exact Astep input k hkn hA
      · cases k with
        | zero =>
            obtain ⟨j, hmj, -⟩ := hB
            omega
        | succ k2 => exact Or.inl (Bstep input k2 hkn hB)

end MT

namespace MT

theorem single_no_defer (input : List Nat)
    (h : (runChunks [input]).1.pendingBuffer = none) :
    ∀ k, k < input.length → ∀ st2,
      step input k (trace input k).1 (trace input k).2.1 ≠ StepRes.defer st2 := by
  have hsmall : ∀ k, k < input.length - 1 → ∀ st2,
      step input k (trace input k).1 (trace input k).2.1 ≠ StepRes.defer st2 := by
    intro k hk st2 hdef
    have h1 := (step_defer_facts input k (trace input k).1 (trace input k).2.1 st2 hdef).1
    omega
  intro k hk st2 hdef
  by_cases hlast : k < input.length - 1
  · exact hsmall k hlast st2 hdef
  · have hch := scan_to_trace input k (by omega) (fun k2 hk2 => hsmall k2 (by omega))
    have hstop : scan input 0 0 initSt [] = (st2, (trace input k).2.2) := by
      show scanFuel input (input.length - 0) 0 0 initSt [] = _
      rw [show input.length - 0 = input.length from rfl, hch,
        show input.length - k = (input.length - k - 1) + 1 from by omega]
      simp only [scanFuel]
      rw [if_pos hk, hdef]
    have hrun : (runChunks [input]).1 = st2 := by
      show (transform initSt input).1 = st2
      rw [show transform initSt input = scan input 0 0 initSt [] from rfl, hstop]
    have hp2 := (step_defer_facts input k (trace input k).1 (trace input k).2.1 st2 hdef).2.1
    rw [hrun] at h
    exact Option.noConfusion (h.symm.trans hp2)

theorem single_run_eq (input : List Nat)
    (h : (runChunks [input]).1.pendingBuffer = none) :
    runChunks [input] =
      (tailFlush input (trace input input.length).1 (trace input input.length).2.1,
        [] ++ (trace input input.length).2.2) := by
  have hnd := single_no_defer input h
  have hsingle : scan input 0 0 initSt [] =
      (tailFlush input (trace input input.length).1 (trace input input.length).2.1,
        (trace input input.length).2.2) := by
    show scanFuel input (input.length - 0) 0 0 initSt [] = _
    rw [show input.length - 0 = input.length from rfl,
      scan_to_trace input input.length (Nat.le_refl _) (fun k hk => hnd k hk),
      Nat.sub_self]
    rfl
  show ((transform initSt input).1, [] ++ (transform initSt input).2) = _
  rw [show transform initSt input = scan input 0 0 initSt [] from rfl, hsingle]

end MT

section C1Claim

open MT

/-- C1: for every well-formed input byte sequence — formalized as one whose
single-chunk run ends with no deferred lookahead buffer pending — tokenizing
it as a single chunk via `process` followed by `finalize` yields exactly the
same sequence of `(kind, bytes)` tokens as tokenizing it delivered as 1-byte
chunks. -/
theorem C1_chunk_invariance (input : List Nat)
    (h : (runChunks [input]).1.pendingBuffer = none) :
    tokenize [input] = tokenize (oneByteChunks input) := by
  have hrunS := single_run_eq input h
  rcases mainInv input input.length (Nat.le_refl _) with hA | hB
  · obtain ⟨a1, a2, a3, a4, a5, a6, a7, a8, a9, a10, a11, a12, a13, a14, a15⟩ := hA
    rw [List.take_length] at a1 a2 a14
    have hsegsCR : segsOK (runChunks (oneByteChunks input)).1 :=
      (runChunks_inv (oneByteChunks input)).1.1
    have hsegsSR : segsOK (tailFlush input (trace input input.length).1
        (trace input input.length).2.1) := by
      unfold tailFlush
      split_ifs with hcase
      · intro seg hs
        rcases List.mem_append.mp hs with h2 | h2
        · exact a10 seg h2
        · rw [List.mem_singleton] at h2
          subst h2
          exact sub_ne_nil hcase hcase
      · exact a10
    have hflEq : (tailFlush input (trace input input.length).1
        (trace input input.length).2.1).buffers.flatten =
        (runChunks (oneByteChunks input)).1.buffers.flatten := by
      rw [tailFlush_flatten, a14]
    have hflush : flushTokens (tailFlush input (trace input input.length).1
        (trace input input.length).2.1) =
        flushTokens (runChunks (oneByteChunks input)).1 := by
      obtain ⟨t1, -, -, -, -, -, -⟩ :=
        tailFlush_fields input (trace input input.length).1 (trace input input.length).2.1
      unfold flushTokens
      rw [t1, a2]
      split_ifs with hst
      · exact pushState_out_eq TokenKind.text _ _ hsegsSR hsegsCR hflEq
      · rfl
    show (runChunks [input]).2 ++ flushTokens (runChunks [input]).1 =
      (runChunks (oneByteChunks input)).2 ++ flushTokens (runChunks (oneByteChunks input)).1
    rw [hrunS]
    show ([] ++ (trace input input.length).2.2) ++
        flushTokens (tailFlush input (trace input input.length).1
          (trace input input.length).2.1) = _
    rw [List.nil_append, hflush, ← a1]
  · exfalso
    obtain ⟨j, hmj, hjn, hb60, -, -, -, -, bStS, -, -, -, bRawS, -, -, -, -, -, -, -⟩ := hB
    exact single_no_defer input h j hjn _
      (step_defer_eq input j (trace input j).1 (trace input j).2.1 bRawS bStS hb60 (by omega))

/-- Witness: the input `"<div>hi</div>"` ends its single-chunk run with no
deferred chunk, and its single-chunk and 1-byte-chunk tokenizations agree. -/
theorem C1_witness :
    (runChunks [strB "<div>hi</div>"]).1.pendingBuffer = none ∧
      tokenize [strB "<div>hi</div>"] =
        tokenize (oneByteChunks (strB "<div>hi</div>")) :=
  ⟨by decide, C1_chunk_invariance (strB "<div>hi</div>") (by decide)⟩

end C1Claim
